import Mathlib

/-!
Shallow embedding of the `ordered_binary_trees` C++ library
(`ordered_binary_tree_node.hpp`, `ordered_binary_tree.hpp`,
`basic_tree_impl.hpp`, the splay strategy and the `ManagedTree` façade).

Nodes live in a heap addressed by natural numbers (a `Nat` id plays the
role of a pointer; `Option Nat` is a possibly-null pointer).  Every loop
of the C++ code is translated with an explicit fuel parameter; the
callers pass a fuel that is proved (or, in concrete computations, seen)
to be large enough.  `size_type` is `std::size_t`; node counts never
reach `2^64`, so sizes are modelled by `Nat`.  The few places where the
C++ would dereference a null pointer are modelled by `Option`: a `none`
result of a mutating operation marks undefined behaviour.
`assert`-style preconditions are modelled the same way only where a
claim is about them; allocator details are abstracted (allocation is a
fresh id from a counter, deallocation does not change readable memory).
-/

namespace OBT

/-- One node of the tree: `left_child`, `right_child`, `parent`, `size`
and user `data` (we instantiate the data type with `Nat`). -/
structure HNode where
  left : Option Nat := none
  right : Option Nat := none
  parent : Option Nat := none
  size : Nat := 1
  data : Nat := 0
  deriving DecidableEq, Repr

/-- The heap: contents of every node id, represented first-order as a
write history (latest write wins; unwritten addresses read as the
default node). -/
inductive Heap where
  | base
  | set (h : Heap) (i : Nat) (x : HNode)
  deriving DecidableEq

/-- Read one address. -/
def Heap.read : Heap → Nat → HNode
  | Heap.base, _ => {}
  | Heap.set h i x, j => if j = i then x else Heap.read h j

instance : CoeFun Heap (fun _ => Nat → HNode) := ⟨Heap.read⟩

/-- Write a whole node. -/
def hset (h : Heap) (i : Nat) (x : HNode) : Heap :=
  Heap.set h i x

/-- `n->left_child = x`. -/
def setLeft (h : Heap) (i : Nat) (x : Option Nat) : Heap :=
  hset h i { h i with left := x }

/-- `n->right_child = x`. -/
def setRight (h : Heap) (i : Nat) (x : Option Nat) : Heap :=
  hset h i { h i with right := x }

/-- `n->parent = x`. -/
def setParent (h : Heap) (i : Nat) (x : Option Nat) : Heap :=
  hset h i { h i with parent := x }

/-- `n->size = x`. -/
def setSize (h : Heap) (i : Nat) (x : Nat) : Heap :=
  hset h i { h i with size := x }

/-- `OrderedBinaryTreeNode::ChildType`. -/
inductive ChildType where
  | notChild
  | leftChild
  | rightChild
  deriving DecidableEq

/-- `get_child_type()`: root / left child / right child. -/
def get_child_type (h : Heap) (i : Nat) : ChildType :=
  match (h i).parent with
  | none => ChildType.notChild
  | some p => if (h p).left = some i then ChildType.leftChild else ChildType.rightChild

/-- `get_size(n)`: size of a possibly-null node. -/
def get_size (h : Heap) : Option Nat → Nat
  | none => 0
  | some i => (h i).size

/-- `InsertPosition`: parent of the prospective node (null for a new
root) and whether the new node goes into the left slot.  (The C++
default constructor leaves `left_child` indeterminate; we pick
`true`.) -/
structure InsertPosition where
  node : Option Nat := none
  left_child : Bool := true
  deriving DecidableEq

/-- `make_insert_position(left)`. -/
def make_insert_position (i : Nat) (left : Bool) : InsertPosition :=
  ⟨some i, left⟩

/-- `update_size()`: recompute one node's size; the `Bool` tells whether
it changed. -/
def update_size (h : Heap) (i : Nat) : Heap × Bool :=
  let new_size := 1 + get_size h (h i).left + get_size h (h i).right
  if new_size ≠ (h i).size then (setSize h i new_size, true) else (h, false)

/-- The upward loop of `traverse_upwards(update_node_size)` after the
first update succeeded: keep updating parents while the size changes,
returning the last node whose size changed. -/
def update_sizes_upwards_loop (h : Heap) (n : Nat) : Nat → Heap × Option Nat
  | 0 => (h, none)
  | fuel+1 =>
    match (h n).parent with
    | none => (h, some n)
    | some p =>
      match update_size h p with
      | (h', true) => update_sizes_upwards_loop h' p fuel
      | (h', false) => (h', some n)

/-- `update_sizes_upwards()` = `traverse_upwards(update_node_size)`. -/
def update_sizes_upwards (h : Heap) (i : Nat) (fuel : Nat) : Heap × Option Nat :=
  match update_size h i with
  | (h', true) => update_sizes_upwards_loop h' i fuel
  | (h', false) => (h', none)

/-- The loop of `get_index()`: walk to the root, adding
`size(left(parent)) + 1` whenever we come from a right child. -/
def get_index_loop (h : Heap) : Nat → Nat → Nat → Option Nat
  | 0, _, _ => none
  | fuel+1, n, index =>
    match (h n).parent with
    | none => some index
    | some p =>
      get_index_loop h fuel p
        (if (h p).right = some n then index + get_size h (h p).left + 1 else index)

/-- `get_index()`: index of a node relative to the root. -/
def get_index (h : Heap) (n : Nat) (fuel : Nat) : Option Nat :=
  get_index_loop h fuel n (get_size h (h n).left)

/-- The loop of `find_node_at_index`. -/
def find_node_at_index_loop (h : Heap) : Nat → Nat → Nat → Option Nat
  | 0, _, _ => none
  | fuel+1, n, index =>
    match (h n).left with
    | some l =>
      if index < (h l).size then
        find_node_at_index_loop h fuel l index
      else
        let index := index - (h l).size
        if index = 0 then some n
        else
          match (h n).right with
          | some r => find_node_at_index_loop h fuel r (index - 1)
          | none => none
    | none =>
      if index = 0 then some n
      else
        match (h n).right with
        | some r => find_node_at_index_loop h fuel r (index - 1)
        | none => none

/-- `find_node_at_index(n, index)` (static form, null-tolerant): null
when the subtree is absent or `index` is at least its size. -/
def find_node_at_index (h : Heap) (n : Option Nat) (index : Nat) (fuel : Nat) :
    Option Nat :=
  match n with
  | none => none
  | some n => if (h n).size ≤ index then none else find_node_at_index_loop h fuel n index

/-- `find_first_node(n)`: leftmost node of the subtree. -/
def find_first_node (h : Heap) : Nat → Nat → Option Nat
  | 0, _ => none
  | fuel+1, n =>
    match (h n).left with
    | none => some n
    | some l => find_first_node h fuel l

/-- `find_last_node(n)`: rightmost node of the subtree. -/
def find_last_node (h : Heap) : Nat → Nat → Option Nat
  | 0, _ => none
  | fuel+1, n =>
    match (h n).right with
    | none => some n
    | some r => find_last_node h fuel r

/-- The upward loop of `find_next_node()`: climb until we come from a
left child; that parent is the successor. -/
def find_next_up (h : Heap) : Nat → Nat → Option Nat
  | 0, _ => none
  | fuel+1, n =>
    match (h n).parent with
    | none => none
    | some p => if (h p).left = some n then some p else find_next_up h fuel p

/-- `find_next_node(n)`: in-order successor. -/
def find_next_node (h : Heap) (n : Nat) (fuel : Nat) : Option Nat :=
  match (h n).right with
  | some r => find_first_node h fuel r
  | none => find_next_up h fuel n

/-- The upward loop of `find_prev_node()`. -/
def find_prev_up (h : Heap) : Nat → Nat → Option Nat
  | 0, _ => none
  | fuel+1, n =>
    match (h n).parent with
    | none => none
    | some p => if (h p).left = some n then find_prev_up h fuel p else some p

/-- `find_prev_node(n)`: in-order predecessor. -/
def find_prev_node (h : Heap) (n : Nat) (fuel : Nat) : Option Nat :=
  match (h n).left with
  | some l => find_last_node h fuel l
  | none => find_prev_up h fuel n

/-- The inner downward loop of `find_next_node(n, steps)`:
`displacement` is the in-order offset of the current node plus one
inside the subtree being descended. -/
def find_next_down (h : Heap) : Nat → Nat → Nat → Nat → Option Nat
  | 0, _, _, _ => none
  | fuel+1, n, steps, displacement =>
    if steps > displacement then
      match (h n).right with
      | some r => find_next_down h fuel r steps (displacement + get_size h (h r).left + 1)
      | none => none
    else if steps < displacement then
      match (h n).left with
      | some l => find_next_down h fuel l steps (displacement - (get_size h (h l).right + 1))
      | none => none
    else some n

/-- The outer loop of `find_next_node(n, steps)`.  (`size_type` is
unsigned, so the `steps < 0` branch of the C++ never fires.) -/
def find_next_node_steps (h : Heap) : Nat → Nat → Nat → Option Nat
  | 0, _, _ => none
  | fuel+1, n, steps =>
    if steps = 0 then some n
    else if steps ≤ get_size h (h n).right then
      match (h n).right with
      | some r => find_next_down h fuel r steps (get_size h (h r).left + 1)
      | none => none
    else
      match (h n).parent with
      | none => none
      | some p =>
        if (h p).left = some n then
          find_next_node_steps h fuel p (steps - (get_size h (h n).right + 1))
        else
          find_next_node_steps h fuel p (steps + get_size h (h n).left + 1)

/-- The inner downward loop of `find_prev_node(n, steps)`. -/
def find_prev_down (h : Heap) : Nat → Nat → Nat → Nat → Option Nat
  | 0, _, _, _ => none
  | fuel+1, n, steps, displacement =>
    if steps > displacement then
      match (h n).left with
      | some l => find_prev_down h fuel l steps (displacement + get_size h (h l).right + 1)
      | none => none
    else if steps < displacement then
      match (h n).right with
      | some r => find_prev_down h fuel r steps (displacement - (get_size h (h r).left + 1))
      | none => none
    else some n

/-- The outer loop of `find_prev_node(n, steps)`. -/
def find_prev_node_steps (h : Heap) : Nat → Nat → Nat → Option Nat
  | 0, _, _ => none
  | fuel+1, n, steps =>
    if steps = 0 then some n
    else if steps ≤ get_size h (h n).left then
      match (h n).left with
      | some l => find_prev_down h fuel l steps (get_size h (h l).right + 1)
      | none => none
    else
      match (h n).parent with
      | none => none
      | some p =>
        if (h p).left = some n then
          find_prev_node_steps h fuel p (steps + get_size h (h n).right + 1)
        else
          find_prev_node_steps h fuel p (steps - (get_size h (h n).left + 1))

/-- The loop of `get_insert_position_for_index`. -/
def get_insert_position_for_index_loop (h : Heap) :
    Nat → Nat → Nat → InsertPosition
  | 0, _, _ => ⟨none, true⟩
  | fuel+1, n, index =>
    match (h n).left with
    | some l =>
      if index ≤ (h l).size then
        get_insert_position_for_index_loop h fuel l index
      else
        let index := index - ((h l).size + 1)
        match (h n).right with
        | some r => get_insert_position_for_index_loop h fuel r index
        | none => ⟨some n, false⟩
    | none =>
      if index = 0 then ⟨some n, true⟩
      else
        let index := index - 1
        match (h n).right with
        | some r => get_insert_position_for_index_loop h fuel r index
        | none => ⟨some n, false⟩

/-- `get_insert_position_for_index(index)` on the subtree rooted at `n`. -/
def get_insert_position_for_index (h : Heap) (n : Nat) (index : Nat) (fuel : Nat) :
    InsertPosition :=
  get_insert_position_for_index_loop h fuel n index

/-- `get_prev_insert_position()`. -/
def get_prev_insert_position (h : Heap) (n : Nat) (fuel : Nat) : InsertPosition :=
  match (h n).left with
  | none => ⟨some n, true⟩
  | some _ => ⟨find_prev_node h n fuel, false⟩

/-- `is_under(a)`: whether walking `parent` pointers from `n` reaches `a`. -/
def is_under (h : Heap) : Nat → Option Nat → Option Nat → Bool
  | 0, _, _ => false
  | fuel+1, n, a =>
    if n = a then true
    else
      match n with
      | none => false
      | some i => is_under h fuel (h i).parent a

/-- Node-level `link(pos)` (the `update_sizes = true` instantiation):
attach node `i` into the given child slot and refresh sizes upwards.
Returns `none` on the null dereference of `pos.node`. -/
def node_link (h : Heap) (pos : InsertPosition) (i : Nat) (fuel : Nat) :
    Option (Heap × Option Nat) :=
  match pos.node with
  | none => none
  | some p =>
    if pos.left_child then
      let h := setLeft h p (some i)
      let h := setParent h i (some p)
      some (update_sizes_upwards h p fuel)
    else
      let h := setRight h p (some i)
      let h := setParent h i (some p)
      some (update_sizes_upwards h p fuel)

/-- Node-level `unlink()` (`update_sizes = true`): detach node `i` from
its parent, refresh sizes from the parent, return the former position. -/
def node_unlink (h : Heap) (i : Nat) (fuel : Nat) : Heap × InsertPosition :=
  match get_child_type h i with
  | ChildType.leftChild =>
    let p := ((h i).parent).getD 0
    let h := setLeft h p none
    let h := (update_sizes_upwards h p fuel).1
    let h := setParent h i none
    (h, ⟨some p, true⟩)
  | ChildType.rightChild =>
    let p := ((h i).parent).getD 0
    let h := setRight h p none
    let h := (update_sizes_upwards h p fuel).1
    let h := setParent h i none
    (h, ⟨some p, false⟩)
  | ChildType.notChild => (h, ⟨none, true⟩)

/-- `rotate_left()` on node `n` (requires `right_child`; sizes are left
stale, exactly as in the source). -/
def rotate_left (h : Heap) (n : Nat) : Option Heap :=
  match (h n).right with
  | none => none
  | some r =>
    let p := (h n).parent
    let child_type := get_child_type h n
    let rl := (h r).left
    let h := setRight h n rl
    let h :=
      match rl with
      | some rl => setParent h rl n
      | none => h
    let h := setLeft h r (some n)
    let h := setParent h n (some r)
    let h :=
      match child_type, p with
      | ChildType.leftChild, some p => setLeft h p (some r)
      | ChildType.rightChild, some p => setRight h p (some r)
      | _, _ => h
    some (setParent h r p)

/-- `rotate_right()` on node `n`. -/
def rotate_right (h : Heap) (n : Nat) : Option Heap :=
  match (h n).left with
  | none => none
  | some r =>
    let p := (h n).parent
    let child_type := get_child_type h n
    let rl := (h r).right
    let h := setLeft h n rl
    let h :=
      match rl with
      | some rl => setParent h rl n
      | none => h
    let h := setRight h r (some n)
    let h := setParent h n (some r)
    let h :=
      match child_type, p with
      | ChildType.rightChild, some p => setRight h p (some r)
      | ChildType.leftChild, some p => setLeft h p (some r)
      | _, _ => h
    some (setParent h r p)

/-- `splay_1()`: one single rotation lifting `n`; returns the former
parent. -/
def splay_1 (h : Heap) (n : Nat) : Option (Heap × Nat) :=
  match (h n).parent with
  | none => none
  | some p =>
    if get_child_type h n = ChildType.leftChild then
      match rotate_right h p with
      | some h' => some (h', p)
      | none => none
    else
      match rotate_left h p with
      | some h' => some (h', p)
      | none => none

/-- `splay_2()`: one zig-zig / zig-zag step lifting `n` two levels;
returns the former grandparent and parent (in that order). -/
def splay_2 (h : Heap) (n : Nat) : Option (Heap × Nat × Nat) :=
  match (h n).parent with
  | none => none
  | some p =>
    match (h p).parent with
    | none => none
    | some pp =>
      let ppp := (h pp).parent
      let child_type := get_child_type h n
      let p_child_type := get_child_type h p
      let pp_child_type := get_child_type h pp
      let nl := (h n).left
      let nr := (h n).right
      let h :=
        if p_child_type = ChildType.leftChild then
          if child_type = ChildType.leftChild then
            -- left-left zig-zig
            let s := (h p).right
            let h := setLeft h pp s
            let h := match s with | some s => setParent h s pp | none => h
            let h := setRight h p (some pp)
            let h := setParent h pp (some p)
            let h := setLeft h p nr
            let h := match nr with | some nr => setParent h nr p | none => h
            let h := setRight h n (some p)
            setParent h p (some n)
          else
            -- left-right zig-zag
            let h := setRight h p nl
            let h := match nl with | some nl => setParent h nl p | none => h
            let h := setLeft h n (some p)
            let h := setParent h p (some n)
            let h := setLeft h pp nr
            let h := match nr with | some nr => setParent h nr pp | none => h
            let h := setRight h n (some pp)
            setParent h pp (some n)
        else if child_type = ChildType.leftChild then
          -- right-left zig-zag
          let h := setLeft h p nr
          let h := match nr with | some nr => setParent h nr p | none => h
          let h := setRight h n (some p)
          let h := setParent h p (some n)
          let h := setRight h pp nl
          let h := match nl with | some nl => setParent h nl pp | none => h
          let h := setLeft h n (some pp)
          setParent h pp (some n)
        else
          -- right-right zig-zig
          let s := (h p).left
          let h := setRight h pp s
          let h := match s with | some s => setParent h s pp | none => h
          let h := setLeft h p (some pp)
          let h := setParent h pp (some p)
          let h := setRight h p nl
          let h := match nl with | some nl => setParent h nl p | none => h
          let h := setLeft h n (some p)
          setParent h p (some n)
      let h := setParent h n ppp
      let h :=
        match pp_child_type, ppp with
        | ChildType.leftChild, some ppp => setLeft h ppp (some n)
        | ChildType.rightChild, some ppp => setRight h ppp (some n)
        | _, _ => h
      some (h, pp, p)

/-- The loop of `splay(update_node_size, top)` (the `update_sizes =
true` instantiation used throughout the library): double steps while a
grandparent below `top` exists, a final single step if needed, and the
size refresh of the former grandparent before the former parent, with
a final refresh of `n`. -/
def node_splay (h : Heap) (top : Option Nat) (n : Nat) : Nat → Option Heap
  | 0 => none
  | fuel+1 =>
    if (h n).parent = top then
      some (update_size h n).1
    else
      match (h n).parent with
      | none => none
      | some p =>
        if (h p).parent = top then
          match splay_1 h n with
          | some (h', pOld) => node_splay (update_size h' pOld).1 top n fuel
          | none => none
        else
          match splay_2 h n with
          | some (h', ppOld, pOld) =>
            let h' := (update_size h' ppOld).1
            let h' := (update_size h' pOld).1
            node_splay h' top n fuel
          | none => none

/-- Node-level `swap(n)`: exchange the two nodes' `parent`,
`left_child`, `right_child` and `size` and fix up the external
references, following the statement order of the source. -/
def node_swap (h : Heap) (a b : Nat) : Heap :=
  -- std::swap(size, n->size)
  let sa := (h a).size
  let sb := (h b).size
  let h := setSize h a sb
  let h := setSize h b sa
  let child_type := get_child_type h a
  let n_child_type := get_child_type h b
  -- std::swap(parent, n->parent)
  let pa := (h a).parent
  let pb := (h b).parent
  let h := setParent h a pb
  let h := setParent h b pa
  let h :=
    match n_child_type, (h a).parent with
    | ChildType.leftChild, some p => setLeft h p (some a)
    | ChildType.rightChild, some p => setRight h p (some a)
    | _, _ => h
  let h :=
    match child_type, (h b).parent with
    | ChildType.leftChild, some p => setLeft h p (some b)
    | ChildType.rightChild, some p => setRight h p (some b)
    | _, _ => h
  -- std::swap(left_child, n->left_child)
  let la := (h a).left
  let lb := (h b).left
  let h := setLeft h a lb
  let h := setLeft h b la
  let h := match (h a).left with | some l => setParent h l a | none => h
  let h := match (h b).left with | some l => setParent h l b | none => h
  -- std::swap(right_child, n->right_child)
  let ra := (h a).right
  let rb := (h b).right
  let h := setRight h a rb
  let h := setRight h b ra
  let h := match (h a).right with | some r => setParent h r a | none => h
  let h := match (h b).right with | some r => setParent h r b | none => h
  h

/-- Node-level `erase()` (`update_sizes = true`): splice the node out,
returning the replacement node and the node from which sizes were
refreshed, as in the source.  `none` marks the failed `assert` of a
missing successor. -/
def node_erase (h : Heap) (n : Nat) (fuel : Nat) :
    Option (Heap × Option Nat × Option Nat) :=
  match (h n).left with
  | none =>
    let child_type := get_child_type h n
    let rc := (h n).right
    let par := (h n).parent
    let h :=
      match child_type, par with
      | ChildType.leftChild, some p => setLeft h p rc
      | ChildType.rightChild, some p => setRight h p rc
      | _, _ => h
    let h := match rc with | some r => setParent h r par | none => h
    let h := match par with | some p => (update_sizes_upwards h p fuel).1 | none => h
    some (h, rc, par)
  | some lc =>
    match (h n).right with
    | none =>
      let child_type := get_child_type h n
      let par := (h n).parent
      let h :=
        match child_type, par with
        | ChildType.leftChild, some p => setLeft h p (some lc)
        | ChildType.rightChild, some p => setRight h p (some lc)
        | _, _ => h
      let h := setParent h lc par
      let h := match par with | some p => (update_sizes_upwards h p fuel).1 | none => h
      some (h, some lc, par)
    | some _ =>
      match find_next_node h n fuel with
      | none => none
      | some next =>
        let h := node_swap h n next
        let child_type := get_child_type h n
        let rc := (h n).right
        let par := (h n).parent
        let h :=
          match child_type, par with
          | ChildType.leftChild, some p => setLeft h p rc
          | ChildType.rightChild, some p => setRight h p rc
          | _, _ => h
        let h := match rc with | some r => setParent h r par | none => h
        let h := match par with | some p => (update_sizes_upwards h p fuel).1 | none => h
        some (h, some next, par)

/-! ### The tree handle (`OrderedBinaryTree`)

`root`, `first` and `last` are cached pointers; the allocator is
modelled by a bump counter `nextId` (a fresh id per allocation;
deallocation does not change readable memory).  Every operation passes
`nextId + 1` as fuel: the number of live nodes never exceeds `nextId`,
and every loop of the source visits each node of a root-to-leaf or
leaf-to-root path at most once. -/

/-- The all-default heap (contents of never-written addresses are
irrelevant; reads of them only happen after undefined behaviour). -/
def emptyHeap : Heap := Heap.base

/-- `OrderedBinaryTree`: heap, cached `root`/`first`/`last`, bump
allocator state. -/
structure Tree where
  heap : Heap := emptyHeap
  root : Option Nat := none
  first : Option Nat := none
  last : Option Nat := none
  nextId : Nat := 0
  deriving DecidableEq

/-- Fuel that every tree-level operation hands to the node-level loops. -/
def Tree.fuel (t : Tree) : Nat :=
  t.nextId + 1

/-- `size()`: the root's size field, `0` when empty. -/
def Tree.size (t : Tree) : Nat :=
  match t.root with
  | some r => (t.heap r).size
  | none => 0

/-- `empty()`. -/
def Tree.isEmpty (t : Tree) : Bool :=
  t.root = none

/-- `clear()`: drop the three cached pointers. -/
def Tree.clear (t : Tree) : Tree :=
  { t with root := none, first := none, last := none }

/-- `create_node(args...)`: allocate a fresh id whose node has null
links, size `1` and the given data. -/
def Tree.create_node (t : Tree) (v : Nat) : Tree × Nat :=
  let i := t.nextId
  ({ t with
      heap := hset t.heap i { left := none, right := none, parent := none, size := 1, data := v },
      nextId := i + 1 },
    i)

/-- `destroy_all_nodes()`: post-order destruction followed by
`clear()`; destruction only returns memory to the allocator, so on the
readable heap it is `clear()`. -/
def Tree.destroy_all_nodes (t : Tree) : Tree :=
  t.clear

/-- `find_node_at_index(index)` relative to `root`. -/
def Tree.find_node_at_index (t : Tree) (index : Nat) : Option Nat :=
  OBT.find_node_at_index t.heap t.root index t.fuel

/-- `get_insert_position_for_index(index)`. -/
def Tree.get_insert_position_for_index (t : Tree) (index : Nat) : InsertPosition :=
  match t.root with
  | some r => OBT.get_insert_position_for_index t.heap r index t.fuel
  | none => {}

/-- `get_first_insert_position()`. -/
def Tree.get_first_insert_position (t : Tree) : InsertPosition :=
  match t.first with
  | some f => ⟨some f, true⟩
  | none => {}

/-- `get_last_insert_position()`. -/
def Tree.get_last_insert_position (t : Tree) : InsertPosition :=
  match t.last with
  | some l => ⟨some l, false⟩
  | none => {}

/-- Tree-level `link(pos, n)`: node-level link plus the `first`/`last`
cache updates; `n` is the (non-null) node being attached.  `none`
models the null dereference of `pos.node` on a non-empty tree. -/
def Tree.link (t : Tree) (pos : InsertPosition) (n : Nat) : Option Tree :=
  match t.root with
  | some _ =>
    match node_link t.heap pos n t.fuel with
    | none => none
    | some (h', _) =>
      let t' := { t with heap := h' }
      if pos.left_child ∧ pos.node = t.first then
        some { t' with first := find_first_node h' t.fuel n }
      else if ¬ pos.left_child ∧ pos.node = t.last then
        some { t' with last := find_last_node h' t.fuel n }
      else
        some t'
  | none =>
    some { t with
        root := some n,
        first := find_first_node t.heap t.fuel n,
        last := find_last_node t.heap t.fuel n }

/-- Tree-level `link_at_index(index, n)`. -/
def Tree.link_at_index (t : Tree) (index : Nat) (n : Nat) : Option Tree :=
  match t.root with
  | some r =>
    let t :=
      if index = 0 then { t with first := find_first_node t.heap t.fuel n }
      else if index = t.size then { t with last := find_last_node t.heap t.fuel n }
      else t
    match node_link t.heap (OBT.get_insert_position_for_index t.heap r index t.fuel)
        n t.fuel with
    | none => none
    | some (h', _) => some { t with heap := h' }
  | none =>
    some { t with
        root := some n,
        first := find_first_node t.heap t.fuel n,
        last := find_last_node t.heap t.fuel n }

/-- `emplace(pos, args...)`: allocate, link, return the new node. -/
def Tree.emplace (t : Tree) (pos : InsertPosition) (v : Nat) : Option (Tree × Nat) :=
  let (t, n) := t.create_node v
  match t.link pos n with
  | some t' => some (t', n)
  | none => none

/-- `emplace_at_index(index, args...)`. -/
def Tree.emplace_at_index (t : Tree) (index : Nat) (v : Nat) : Option (Tree × Nat) :=
  let (t, n) := t.create_node v
  match t.link_at_index index n with
  | some t' => some (t', n)
  | none => none

/-- Tree-level `unlink(n)`: cache fixups, then the node-level unlink. -/
def Tree.unlink (t : Tree) (n : Nat) : Tree × InsertPosition :=
  let t :=
    if is_under t.heap t.fuel t.first (some n) then
      { t with first := (t.heap n).parent }
    else t
  let t :=
    if is_under t.heap t.fuel t.last (some n) then
      { t with last := (t.heap n).parent }
    else t
  let t := if t.root = some n then t.clear else t
  let (h', pos) := node_unlink t.heap n t.fuel
  ({ t with heap := h' }, pos)

/-- Tree-level `splay(n, top)` (the size-updating instantiation). -/
def Tree.splay (t : Tree) (n : Nat) (top : Option Nat := none) : Option Tree :=
  match node_splay t.heap top n t.fuel with
  | none => none
  | some h' =>
    if top = none then some { t with heap := h', root := some n }
    else some { t with heap := h' }

/-- `swap_nodes(n1, n2)`: node-level swap plus `root`/`first`/`last`
cache fixups. -/
def Tree.swap_nodes (t : Tree) (n1 n2 : Nat) : Tree :=
  if n1 = n2 then t
  else
    let rootM : Nat := if t.root = some n1 then 1 else if t.root = some n2 then 2 else 0
    let firstM : Nat := if t.first = some n1 then 1 else if t.first = some n2 then 2 else 0
    let lastM : Nat := if t.last = some n1 then 1 else if t.last = some n2 then 2 else 0
    let h' := node_swap t.heap n1 n2
    let t := { t with heap := h' }
    let t :=
      if rootM = 1 then { t with root := some n2 }
      else if rootM = 2 then { t with root := some n1 } else t
    let t :=
      if firstM = 1 then { t with first := some n2 }
      else if firstM = 2 then { t with first := some n1 } else t
    if lastM = 1 then { t with last := some n2 }
    else if lastM = 2 then { t with last := some n1 } else t

/-- Tree-level `erase(n)` (sizes updated, node destroyed): endpoint
fixups, node-level erase, root fixup. -/
def Tree.erase (t : Tree) (n : Nat) : Option (Tree × Option Nat × Option Nat) :=
  let t :=
    if t.first = some n then
      { t with first := find_next_node t.heap n t.fuel }
    else t
  let t :=
    if t.last = some n then
      { t with last := find_prev_node t.heap n t.fuel }
    else t
  match node_erase t.heap n t.fuel with
  | none => none
  | some (h', repl, upd) =>
    let t := { t with heap := h' }
    let t := if t.root = some n then { t with root := repl } else t
    some (t, repl, upd)

/-- `clone_nodes(n)`: allocate a copy of the subtree under `n` (of
heap `hsrc`) into the destination heap, pre-order, copying `data` and
`size` verbatim; returns the new heap, the bumped allocator state and
the cloned root. -/
def clone_nodes (hsrc : Heap) : Nat → Nat → Heap → Nat → Option (Heap × Nat × Nat)
  | 0, _, _, _ => none
  | fuel+1, i, hdst, nid =>
    let c := nid
    let hdst := hset hdst c
      { left := none, right := none, parent := none,
        size := (hsrc i).size, data := (hsrc i).data }
    let nid := c + 1
    let step : Option (Heap × Nat) :=
      match (hsrc i).left with
      | some l =>
        match clone_nodes hsrc fuel l hdst nid with
        | some (hdst, nid, cl) =>
          let hdst := setLeft hdst c (some cl)
          let hdst := setParent hdst cl (some c)
          some (hdst, nid)
        | none => none
      | none => some (hdst, nid)
    match step with
    | none => none
    | some (hdst, nid) =>
      match (hsrc i).right with
      | some r =>
        match clone_nodes hsrc fuel r hdst nid with
        | some (hdst, nid, cr) =>
          let hdst := setRight hdst c (some cr)
          let hdst := setParent hdst cr (some c)
          some (hdst, nid, c)
        | none => none
      | none => some (hdst, nid, c)

/-- `clone()`: a deep copy into a fresh tree (fresh address space; the
constructor recomputes `first` and `last` from the cloned root). -/
def Tree.clone (t : Tree) : Option Tree :=
  match t.root with
  | none => some {}
  | some r =>
    match clone_nodes t.heap t.fuel r emptyHeap 0 with
    | none => none
    | some (h, nid, c) =>
      some { heap := h, root := some c,
             first := find_first_node h (nid + 1) c,
             last := find_last_node h (nid + 1) c,
             nextId := nid }

/-! ### The two strategies (`BasicTreeImpl`, `SplayTreeImpl`)

Static operations over a tree handle.  Results are `Option`al: `none`
is undefined behaviour (a null dereference, e.g. `BasicTreeImpl`'s
`emplace_front` on an empty tree) or exhausted fuel. -/

namespace Basic

/-- `BasicTreeImpl::emplace_front`: link a new node at `first`'s left
slot.  Dereferences `tree.first` unconditionally. -/
def emplace_front (t : Tree) (v : Nat) : Option (Tree × Nat) :=
  match t.first with
  | none => none
  | some f => t.emplace (make_insert_position f true) v

/-- `BasicTreeImpl::emplace_back`. -/
def emplace_back (t : Tree) (v : Nat) : Option (Tree × Nat) :=
  match t.last with
  | none => none
  | some l => t.emplace (make_insert_position l false) v

/-- `BasicTreeImpl::emplace_node_before(node)`. -/
def emplace_node_before (t : Tree) (node : Option Nat) (v : Nat) :
    Option (Tree × Nat) :=
  t.emplace
    (match node with
      | some n => get_prev_insert_position t.heap n t.fuel
      | none => t.get_last_insert_position)
    v

/-- The chaining loop of `BasicTreeImpl::insert_nodes_before`. -/
def insert_nodes_chain (t : Tree) (node : Nat) : List Nat → Option Tree
  | [] => some t
  | v :: vs =>
    let pos := make_insert_position node false
    let (t, n) := t.create_node v
    match t.link pos n with
    | some t => insert_nodes_chain t n vs
    | none => none

/-- `BasicTreeImpl::insert_nodes_before`: empty input returns a null
node; otherwise emplace the first value before `node` and chain the
rest as right children of the previous insertion. -/
def insert_nodes_before (t : Tree) (node : Option Nat) (vs : List Nat) :
    Option (Tree × Option Nat) :=
  match vs with
  | [] => some (t, none)
  | v :: vs =>
    match emplace_node_before t node v with
    | none => none
    | some (t, first_new_node) =>
      match insert_nodes_chain t first_new_node vs with
      | none => none
      | some t => some (t, some first_new_node)

/-- `BasicTreeImpl::erase_front`. -/
def erase_front (t : Tree) : Option Tree :=
  match t.first with
  | none => none
  | some f =>
    match t.erase f with
    | some (t, _, _) => some t
    | none => none

/-- `BasicTreeImpl::erase_back`. -/
def erase_back (t : Tree) : Option Tree :=
  match t.last with
  | none => none
  | some l =>
    match t.erase l with
    | some (t, _, _) => some t
    | none => none

/-- `BasicTreeImpl::erase_node`: erase, returning the former
successor. -/
def erase_node (t : Tree) (node : Nat) : Option (Tree × Option Nat) :=
  let next_node := find_next_node t.heap node t.fuel
  match t.erase node with
  | some (t, _, _) => some (t, next_node)
  | none => none

/-- The loop of `BasicTreeImpl::erase_nodes`, with fuel. -/
def erase_nodes_loop (t : Tree) (b e : Option Nat) : Nat → Option Tree
  | 0 => none
  | fuel+1 =>
    if b = e then some t
    else
      match b with
      | none => none
      | some bn =>
        let next := find_next_node t.heap bn t.fuel
        match t.erase bn with
        | some (t, _, _) => erase_nodes_loop t next e fuel
        | none => none

/-- `BasicTreeImpl::erase_nodes(begin, end)`: point-erase every node of
`[begin, end)` in order; returns `end`. -/
def erase_nodes (t : Tree) (b e : Option Nat) : Option (Tree × Option Nat) :=
  match erase_nodes_loop t b e t.fuel with
  | some t => some (t, e)
  | none => none

end Basic

namespace Splay

/-- `SplayTreeImpl::find_node_at_index`: rank-descend, then splay the
hit to the root. -/
def find_node_at_index (t : Tree) (index : Nat) : Option (Tree × Option Nat) :=
  match t.find_node_at_index index with
  | some n =>
    match t.splay n with
    | some t => some (t, some n)
    | none => none
  | none => some (t, none)

/-- `SplayTreeImpl::emplace_front`: create the root when empty,
otherwise splay `first` and attach at the first insert position. -/
def emplace_front (t : Tree) (v : Nat) : Option (Tree × Nat) :=
  if t.isEmpty then t.emplace {} v
  else
    match t.first with
    | none => none
    | some f =>
      match t.splay f with
      | none => none
      | some t => t.emplace t.get_first_insert_position v

/-- `SplayTreeImpl::emplace_back`. -/
def emplace_back (t : Tree) (v : Nat) : Option (Tree × Nat) :=
  if t.isEmpty then t.emplace {} v
  else
    match t.last with
    | none => none
    | some l =>
      match t.splay l with
      | none => none
      | some t => t.emplace t.get_last_insert_position v

/-- `SplayTreeImpl::emplace_node_before(node)`: insert as the basic
strategy does, then splay the new node. -/
def emplace_node_before (t : Tree) (node : Option Nat) (v : Nat) :
    Option (Tree × Nat) :=
  match Basic.emplace_node_before t node v with
  | none => none
  | some (t, n) =>
    match t.splay n with
    | none => none
    | some t => some (t, n)

/-- The chaining loop of `SplayTreeImpl::insert_nodes_before`,
tracking the last inserted node. -/
def insert_nodes_chain (t : Tree) (node : Nat) (last_node : Nat) :
    List Nat → Option (Tree × Nat)
  | [] => some (t, last_node)
  | v :: vs =>
    let pos := make_insert_position node false
    let (t, n) := t.create_node v
    match t.link pos n with
    | some t => insert_nodes_chain t n n vs
    | none => none

/-- `SplayTreeImpl::insert_nodes_before`: empty input returns `node`;
otherwise insert as in the basic strategy (the first value through
`Super::emplace_node_before`) and finally splay the last node. -/
def insert_nodes_before (t : Tree) (node : Option Nat) (vs : List Nat) :
    Option (Tree × Option Nat) :=
  match vs with
  | [] => some (t, node)
  | v :: vs =>
    match Basic.emplace_node_before t node v with
    | none => none
    | some (t, first_new_node) =>
      match insert_nodes_chain t first_new_node first_new_node vs with
      | none => none
      | some (t, last_node) =>
        match t.splay last_node with
        | none => none
        | some t => some (t, some first_new_node)

/-- `SplayTreeImpl::erase_front`: splay `first`, then erase it. -/
def erase_front (t : Tree) : Option Tree :=
  match t.first with
  | none => none
  | some f =>
    match t.splay f with
    | none => none
    | some t =>
      match t.first with
      | none => none
      | some f =>
        match t.erase f with
        | some (t, _, _) => some t
        | none => none

/-- `SplayTreeImpl::erase_back`. -/
def erase_back (t : Tree) : Option Tree :=
  match t.last with
  | none => none
  | some l =>
    match t.splay l with
    | none => none
    | some t =>
      match t.last with
      | none => none
      | some l =>
        match t.erase l with
        | some (t, _, _) => some t
        | none => none

/-- `SplayTreeImpl::erase_node`: erase, then splay the node whose data
needed refreshing (when there is one); returns the former successor. -/
def erase_node (t : Tree) (node : Nat) : Option (Tree × Option Nat) :=
  let next_node := find_next_node t.heap node t.fuel
  match t.erase node with
  | none => none
  | some (t, _, p) =>
    match p with
    | some p =>
      match t.splay p with
      | none => none
      | some t => some (t, next_node)
    | none => some (t, next_node)

/-- `SplayTreeImpl::erase_nodes(begin, end)`: splay `end` (when it is a
node), splay `begin`'s predecessor below it (when there is one); the
doomed range is then a single subtree (`prev->right_child`,
`end->left_child`, or the whole tree), which is unlinked and destroyed
in one post-order walk. -/
def erase_nodes (t : Tree) (b e : Option Nat) : Option (Tree × Option Nat) :=
  if b = e then some (t, e)
  else
    match b with
    | none => none
    | some bn =>
      let step : Option Tree :=
        match e with
        | some en => t.splay en
        | none => some t
      match step with
      | none => none
      | some t =>
        let prev := find_prev_node t.heap bn t.fuel
        let sub : Option (Tree × Option Nat) :=
          match prev with
          | some pn =>
            match t.splay pn e with
            | none => none
            | some t => some (t, (t.heap pn).right)
          | none =>
            match e with
            | some en => some (t, (t.heap en).left)
            | none => some (t, t.root)
        match sub with
        | none => none
        | some (t, sub) =>
          match sub with
          | none => some ((t.unlink 0).1, e)  -- unreachable: the range is non-empty
          | some s => some ((t.unlink s).1, e)

end Splay

/-! ### The façade (`ManagedTree`)

The façade owns one tree handle and dispatches through a compile-time
strategy; an iterator is its node pointer (`none` = past-the-end). -/

/-- The strategy parameter of `ManagedTree`. -/
inductive Strat where
  | basic
  | splay
  deriving DecidableEq

namespace MT

/-- `ManagedTree::size()`. -/
def size (t : Tree) : Nat := t.size

/-- `ManagedTree::operator[]` (a pure read: it uses the tree handle's
`find_node_at_index`, which does not splay under either strategy).
`none` models the null dereference on an out-of-range index. -/
def getElem (t : Tree) (index : Nat) : Option Nat :=
  match t.find_node_at_index index with
  | some n => some ((t.heap n).data)
  | none => none

/-- `ManagedTree::at(pos)`: bounds-checked access; `Except.error`
models the thrown `std::out_of_range`.  (`at` is a const member: it
cannot change the container.) -/
def atPos (t : Tree) (pos : Nat) : Except Unit Nat :=
  if pos ≥ t.size then Except.error ()
  else
    match getElem t pos with
    | some v => Except.ok v
    | none => Except.error ()

/-- `ManagedTree::get_iterator_at_index(index)`: the iterator's node
pointer (`none` when `index ≥ size`, i.e. the past-the-end iterator). -/
def get_iterator_at_index (t : Tree) (index : Nat) : Option Nat :=
  t.find_node_at_index index

/-- `ManagedTree::insert(pos, value)` / `emplace(pos, args...)`. -/
def insert (s : Strat) (t : Tree) (pos : Option Nat) (v : Nat) :
    Option (Tree × Option Nat) :=
  match s with
  | Strat.basic =>
    match Basic.emplace_node_before t pos v with
    | some (t, n) => some (t, some n)
    | none => none
  | Strat.splay =>
    match Splay.emplace_node_before t pos v with
    | some (t, n) => some (t, some n)
    | none => none

/-- `ManagedTree::insert(pos, first, last)` (bulk insert). -/
def insertList (s : Strat) (t : Tree) (pos : Option Nat) (vs : List Nat) :
    Option (Tree × Option Nat) :=
  match s with
  | Strat.basic => Basic.insert_nodes_before t pos vs
  | Strat.splay => Splay.insert_nodes_before t pos vs

/-- `ManagedTree::push_front` / `emplace_front`. -/
def push_front (s : Strat) (t : Tree) (v : Nat) : Option Tree :=
  match s with
  | Strat.basic =>
    match Basic.emplace_front t v with
    | some (t, _) => some t
    | none => none
  | Strat.splay =>
    match Splay.emplace_front t v with
    | some (t, _) => some t
    | none => none

/-- `ManagedTree::push_back` / `emplace_back`. -/
def push_back (s : Strat) (t : Tree) (v : Nat) : Option Tree :=
  match s with
  | Strat.basic =>
    match Basic.emplace_back t v with
    | some (t, _) => some t
    | none => none
  | Strat.splay =>
    match Splay.emplace_back t v with
    | some (t, _) => some t
    | none => none

/-- `ManagedTree::erase(pos)` (asserts a non-null node). -/
def erase (s : Strat) (t : Tree) (pos : Option Nat) : Option (Tree × Option Nat) :=
  match pos with
  | none => none
  | some n =>
    match s with
    | Strat.basic => Basic.erase_node t n
    | Strat.splay => Splay.erase_node t n

/-- `ManagedTree::erase(first, last)`. -/
def eraseRange (s : Strat) (t : Tree) (b e : Option Nat) : Option (Tree × Option Nat) :=
  match s with
  | Strat.basic => Basic.erase_nodes t b e
  | Strat.splay => Splay.erase_nodes t b e

/-- `ManagedTree::pop_front` (asserts non-emptiness). -/
def pop_front (s : Strat) (t : Tree) : Option Tree :=
  if t.isEmpty then none
  else
    match s with
    | Strat.basic => Basic.erase_front t
    | Strat.splay => Splay.erase_front t

/-- `ManagedTree::pop_back`. -/
def pop_back (s : Strat) (t : Tree) : Option Tree :=
  if t.isEmpty then none
  else
    match s with
    | Strat.basic => Basic.erase_back t
    | Strat.splay => Splay.erase_back t

/-- `ManagedTree::clear()`. -/
def clear (t : Tree) : Tree :=
  t.destroy_all_nodes

/-- The copy constructor: a deep clone. -/
def copy (t : Tree) : Option Tree :=
  t.clone

/-- The move constructor: the handle is transferred verbatim (the
source is then cleared; we follow the moved-to tree). -/
def move (t : Tree) : Tree :=
  t

end MT

/-- In-order data of the subtree under a node (the observable element
sequence), with fuel. -/
def inorder (h : Heap) : Nat → Option Nat → List Nat
  | 0, _ => []
  | _, none => []
  | fuel+1, some n =>
    inorder h fuel (h n).left ++ (h n).data :: inorder h fuel (h n).right

/-- The element sequence of a tree. -/
def Tree.toList (t : Tree) : List Nat :=
  inorder t.heap (t.nextId + 1) t.root

/-- In-order `(id, data)` pairs of the subtree under a node. -/
def inorderIds (h : Heap) : Nat → Option Nat → List (Nat × Nat)
  | 0, _ => []
  | _, none => []
  | fuel+1, some n =>
    inorderIds h fuel (h n).left ++ (n, (h n).data) :: inorderIds h fuel (h n).right

/-- Checker for the per-node invariants of a subtree: parent
back-pointers of the children and the size augmentation
(`size = 1 + size(left) + size(right)`). -/
def subtree_ok (h : Heap) : Nat → Nat → Option Nat → Bool
  | 0, _, _ => false
  | fuel+1, n, par =>
    ((h n).parent == par) &&
    (match (h n).left with
      | some l => subtree_ok h fuel l (some n)
      | none => true) &&
    (match (h n).right with
      | some r => subtree_ok h fuel r (some n)
      | none => true) &&
    ((h n).size == 1 + get_size h (h n).left + get_size h (h n).right)

/-- Full validity of a tree handle: the subtree invariants from the
root, plus the endpoint caches (`first` = leftmost, `last` = rightmost,
all three cached pointers absent together exactly on the empty tree). -/
def checkTree (t : Tree) : Bool :=
  match t.root with
  | none => t.first == none && t.last == none
  | some r =>
    subtree_ok t.heap t.fuel r none &&
    (t.first == find_first_node t.heap t.fuel r) &&
    (t.last == find_last_node t.heap t.fuel r)

/-! ### Concrete scenarios used by the claims -/

/-- Positional-insert ladder through `emplace_at_index`, starting from
the empty tree. -/
def insertLadder (l : List (Nat × Nat)) : Option Tree :=
  l.foldlM (fun t kv => (Tree.emplace_at_index t kv.1 kv.2).map Prod.fst) {}

/-- Scenario 1 of the spec: `insert_at(0,a), insert_at(0,b),
insert_at(0,c), insert_at(0,d), insert_at(1,e), insert_at(1,f),
insert_at(3,g), insert_at(3,h), insert_at(8,i), insert_at(9,j)` with
the letters `a..j` encoded as `0..9`. -/
def scenTree : Option Tree :=
  insertLadder [(0,0),(0,1),(0,2),(0,3),(1,4),(1,5),(3,6),(3,7),(8,8),(9,9)]

/-- `n` consecutive integers inserted at the back through the façade:
the first through `insert` at the end iterator (the basic strategy's
`push_back` cannot create a root, see C9), the rest through
`push_back`. -/
def backLadder (s : Strat) (n : Nat) : Option Tree := do
  match n with
  | 0 => some {}
  | m+1 =>
    let (t, _) ← MT.insertList s {} none [0]
    (List.range m).foldlM (fun t v => MT.push_back s t (v + 1)) t

/-- Erase the range `[i, j)` through the façade, with the two
iterators obtained by index. -/
def eraseRangeAt (s : Strat) (t : Tree) (i j : Nat) : Option Tree := do
  let b := MT.get_iterator_at_index t i
  let e := MT.get_iterator_at_index t j
  let (t, _) ← MT.eraseRange s t b e
  pure t

/-- Erase the element at index `k` through the façade, `n` times in
succession. -/
def eraseAtTimes (s : Strat) (t : Tree) (k : Nat) : Nat → Option Tree
  | 0 => some t
  | m+1 => do
    let (t, _) ← MT.erase s t (MT.get_iterator_at_index t k)
    eraseAtTimes s t k m

/-- Scenario 4 of the spec, range-erase side: build 64 consecutive
integers at the back, erase the range `[20, 30)`. -/
def c4Range (s : Strat) : Option (List Nat) := do
  let t ← backLadder s 64
  let t ← eraseRangeAt s t 20 30
  pure t.toList

/-- Scenario 4 of the spec, point-erase side: erase index `20` ten
times in succession. -/
def c4Point (s : Strat) : Option (List Nat) := do
  let t ← backLadder s 64
  let t ← eraseAtTimes s t 20 10
  pure t.toList

/-- Swap the nodes at ordinals `i` and `j` of a tree (the
`swap_nodes` entry point used by scenario 3). -/
def swapAt (t : Tree) (i j : Nat) : Option Tree := do
  let a ← t.find_node_at_index i
  let b ← t.find_node_at_index j
  pure (t.swap_nodes a b)

/-- The three-node tree `[11, 10, 12]` whose root carries both
children (`insert_at(0,10); insert_at(0,11); insert_at(2,12)`). -/
def c6Tree : Option Tree :=
  insertLadder [(0,10),(0,11),(2,12)]

/-- The four structural fields of a node (`left_child`, `right_child`,
`parent`, `size`). -/
def fieldsOf (h : Heap) (n : Nat) : Option Nat × Option Nat × Option Nat × Nat :=
  ((h n).left, (h n).right, (h n).parent, (h n).size)

/-! ### Abstract trees

`NTree` is the abstract shape of a well-formed pointer subtree: every
node records its heap id, its `data` and its *stored* `size` field
(which may be stale, e.g. between a rotation and the size refresh).
`reprB` says that a heap region faithfully stores an `NTree`; `Ctx` is
a one-hole context used to talk about a node in the middle of a tree. -/

inductive NTree where
  | nil
  | node (i : Nat) (d : Nat) (sz : Nat) (l r : NTree)
  deriving DecidableEq

namespace NTree

/-- Id of the subtree root (`none` for the empty subtree). -/
def rootId : NTree → Option Nat
  | nil => none
  | node i _ _ _ _ => some i

/-- In-order `(id, data)` sequence. -/
def entries : NTree → List (Nat × Nat)
  | nil => []
  | node i d _ l r => entries l ++ (i, d) :: entries r

/-- In-order ids. -/
def idsOf (T : NTree) : List Nat :=
  (entries T).map Prod.fst

/-- In-order data (the user-visible sequence). -/
def dataOf (T : NTree) : List Nat :=
  (entries T).map Prod.snd

/-- Number of nodes. -/
def cnt (T : NTree) : Nat :=
  (entries T).length

/-- The stored size field of the root (`0` for the empty subtree). -/
def szF : NTree → Nat
  | nil => 0
  | node _ _ sz _ _ => sz

/-- All stored size fields are correct
(`size = 1 + size(left) + size(right)`). -/
def sizesOK : NTree → Bool
  | nil => true
  | node _ _ sz l r => (sz == 1 + szF l + szF r) && sizesOK l && sizesOK r

/-- Id of the leftmost node. -/
def leftmostId : NTree → Option Nat
  | nil => none
  | node i _ _ l _ => match l with
    | nil => some i
    | node .. => leftmostId l

/-- Id of the rightmost node. -/
def rightmostId : NTree → Option Nat
  | nil => none
  | node i _ _ _ r => match r with
    | nil => some i
    | node .. => rightmostId r

end NTree

open NTree in
/-- The heap region rooted at `rootId T` (whose parent pointer is
`par`) stores exactly the tree `T`. -/
def reprB (h : Heap) : Option Nat → NTree → Bool
  | _, NTree.nil => true
  | par, NTree.node i d sz l r =>
    ((h i).parent == par) && ((h i).left == rootId l) && ((h i).right == rootId r) &&
    ((h i).size == sz) && ((h i).data == d) &&
    reprB h (some i) l && reprB h (some i) r

/-- One-hole contexts over `NTree`: the hole is the left (`inL`) or
right (`inR`) child slot of the recorded node. -/
inductive Ctx where
  | top
  | inL (i : Nat) (d : Nat) (sz : Nat) (c : Ctx) (r : NTree)
  | inR (i : Nat) (d : Nat) (sz : Nat) (l : NTree) (c : Ctx)
  deriving DecidableEq

namespace Ctx

/-- Fill the hole. -/
def plug : Ctx → NTree → NTree
  | top, s => s
  | inL i d sz c r, s => plug c (NTree.node i d sz s r)
  | inR i d sz l c, s => plug c (NTree.node i d sz l s)

/-- The node whose child slot is the hole (`par0` when the context is
empty, i.e. the parent of the whole region). -/
def holePar (par0 : Option Nat) : Ctx → Option Nat
  | top => par0
  | inL i _ _ _ _ => some i
  | inR i _ _ _ _ => some i

/-- Entries strictly to the left of the hole. -/
def leftEntries : Ctx → List (Nat × Nat)
  | top => []
  | inL _ _ _ c _ => leftEntries c
  | inR i d _ l c => leftEntries c ++ NTree.entries l ++ [(i, d)]

/-- Entries strictly to the right of the hole. -/
def rightEntries : Ctx → List (Nat × Nat)
  | top => []
  | inL i d _ c r => (i, d) :: NTree.entries r ++ rightEntries c
  | inR _ _ _ _ c => rightEntries c

/-- Number of context frames above the hole. -/
def depth : Ctx → Nat
  | top => 0
  | inL _ _ _ c _ => depth c + 1
  | inR _ _ _ _ c => depth c + 1

/-- The context part of the `reprB` decomposition of `plug c s`: every
frame node's fields are stored correctly, with `x` the id stored in the
hole's child slot. -/
def ctxOk (h : Heap) (par0 : Option Nat) : Ctx → Option Nat → Bool
  | top, _ => true
  | inL i d sz c r, x =>
    ((h i).parent == holePar par0 c) && ((h i).left == x) &&
    ((h i).right == NTree.rootId r) && ((h i).size == sz) && ((h i).data == d) &&
    reprB h (some i) r && ctxOk h par0 c (some i)
  | inR i d sz l c, x =>
    ((h i).parent == holePar par0 c) && ((h i).left == NTree.rootId l) &&
    ((h i).right == x) && ((h i).size == sz) && ((h i).data == d) &&
    reprB h (some i) l && ctxOk h par0 c (some i)

/-- The context part of the `sizesOK` decomposition of `plug c s`:
`hs` is the stored size of the subtree in the hole. -/
def ctxSizesOK : Ctx → Nat → Bool
  | top, _ => true
  | inL _ _ sz c r, hs => (sz == 1 + hs + NTree.szF r) && NTree.sizesOK r && ctxSizesOK c sz
  | inR _ _ sz l c, hs => (sz == 1 + NTree.szF l + hs) && NTree.sizesOK l && ctxSizesOK c sz

/-- Composition: `c₂` nested inside `c₁`
(`plug (comp c₁ c₂) s = plug c₁ (plug c₂ s)`). -/
def comp (c₁ : Ctx) : Ctx → Ctx
  | top => c₁
  | inL i d sz c r => inL i d sz (comp c₁ c) r
  | inR i d sz l c => inR i d sz l (comp c₁ c)

end Ctx

/-- The master invariant tying a tree handle to its abstract tree:
the heap region under `root` stores `T`, all node ids are distinct and
below the allocator counter, every stored size is correct, and the
`first`/`last` caches point at the leftmost/rightmost nodes. -/
structure Inv (t : Tree) (T : NTree) : Prop where
  hroot : t.root = T.rootId
  hrepr : reprB t.heap none T = true
  hsz : T.sizesOK = true
  hnd : T.idsOf.Nodup
  hbound : ∀ j ∈ T.idsOf, j < t.nextId
  hfirst : t.first = T.leftmostId
  hlast : t.last = T.rightmostId


/-! ### A small concrete tree used by witnesses -/

/-- Heap of a three-node balanced tree (`[10, 20, 30]`, root id `0`
with children `1` and `2`). -/
def wHeap : Heap :=
  hset (hset (hset emptyHeap
    0 { left := some 1, right := some 2, parent := none, size := 3, data := 20 })
    1 { parent := some 0, data := 10 })
    2 { parent := some 0, data := 30 }

/-- The three-node tree handle. -/
def wTree : Tree :=
  { heap := wHeap, root := some 0, first := some 1, last := some 2, nextId := 3 }

/-- Its abstract tree. -/
def wNT : NTree :=
  NTree.node 0 20 3 (NTree.node 1 10 1 NTree.nil NTree.nil)
    (NTree.node 2 30 1 NTree.nil NTree.nil)


/-- Increment every context frame's stored size by one: the net effect
of `update_sizes_upwards` on the ancestors of a freshly linked node. -/
def Ctx.bump : Ctx → Ctx
  | Ctx.top => Ctx.top
  | Ctx.inL i d sz c r => Ctx.inL i d (sz + 1) (Ctx.bump c) r
  | Ctx.inR i d sz l c => Ctx.inR i d (sz + 1) l (Ctx.bump c)

/-- A context whose hole is reached through left child slots only
(the hole sits on the leftmost path). -/
def Ctx.allInL : Ctx → Bool
  | Ctx.top => true
  | Ctx.inL _ _ _ c _ => Ctx.allInL c
  | Ctx.inR _ _ _ _ _ => false

/-- A context whose hole is reached through right child slots only
(the hole sits on the rightmost path). -/
def Ctx.allInR : Ctx → Bool
  | Ctx.top => true
  | Ctx.inR _ _ _ _ c => Ctx.allInR c
  | Ctx.inL _ _ _ _ _ => false

/-- The defaulted (empty) tree handle. -/
def eTree : Tree :=
  { heap := emptyHeap, root := none, first := none, last := none, nextId := 0 }


/-- The chain of ancestors of a node (by following `parent` pointers),
as visited by `traverse_upwards`. -/
def ancestors (h : Heap) : Nat → Nat → List Nat
  | 0, _ => []
  | fuel+1, n =>
    match (h n).parent with
    | none => []
    | some p => p :: ancestors h fuel p

/-- The `(id, data)` pairs of a freshly inserted block: consecutive ids
starting at `start` paired with the inserted values. -/
def freshEntries : Nat → List Nat → List (Nat × Nat)
  | _, [] => []
  | start, v :: vs => (start, v) :: freshEntries (start + 1) vs

/-- The context with every frame size decreased by one (the effect of
the size-refresh walk after one node left the hole's subtree). -/
def Ctx.drop : Ctx → Ctx
  | Ctx.top => Ctx.top
  | Ctx.inL i d sz c r => Ctx.inL i d (sz - 1) (Ctx.drop c) r
  | Ctx.inR i d sz l c => Ctx.inR i d (sz - 1) l (Ctx.drop c)

/-! ## Theorems -/

@[simp] theorem hset_self (h : Heap) (i : Nat) (x : HNode) : hset h i x i = x := by
  simp [hset, Heap.read]

@[simp] theorem hset_ne (h : Heap) (i : Nat) (x : HNode) {j : Nat} (hj : j ≠ i) :
    hset h i x j = h j := by
  simp [hset, Heap.read, hj]

namespace NTree

theorem cnt_nil : cnt nil = 0 := rfl

theorem cnt_node (i d sz : Nat) (l r : NTree) :
    cnt (node i d sz l r) = cnt l + 1 + cnt r := by
  simp [cnt, entries]; omega

theorem szF_eq_cnt {T : NTree} (hs : sizesOK T = true) : szF T = cnt T := by
  induction T with
  | nil => rfl
  | node i d sz l r ihl ihr =>
    simp only [sizesOK, Bool.and_eq_true, beq_iff_eq] at hs
    show sz = cnt (node i d sz l r)
    rw [cnt_node, ← ihl hs.1.2, ← ihr hs.2, hs.1.1]
    omega

theorem idsOf_nil : idsOf nil = [] := rfl

theorem idsOf_node (i d sz : Nat) (l r : NTree) :
    idsOf (node i d sz l r) = idsOf l ++ i :: idsOf r := by
  simp [idsOf, entries]

theorem dataOf_node (i d sz : Nat) (l r : NTree) :
    dataOf (node i d sz l r) = dataOf l ++ d :: dataOf r := by
  simp [dataOf, entries]

theorem rootId_mem {T : NTree} {i : Nat} (hr : rootId T = some i) :
    i ∈ idsOf T := by
  cases T with
  | nil => simp [rootId] at hr
  | node j d sz l r =>
    simp [rootId] at hr
    simp [idsOf_node, hr]

end NTree

namespace Ctx

open NTree

theorem entries_plug (c : Ctx) (s : NTree) :
    entries (plug c s) = leftEntries c ++ entries s ++ rightEntries c := by
  induction c generalizing s with
  | top => simp [plug, leftEntries, rightEntries]
  | inL i d sz c r ih => simp [plug, leftEntries, rightEntries, ih, entries]
  | inR i d sz l c ih => simp [plug, leftEntries, rightEntries, ih, entries]

theorem reprB_plug (h : Heap) (par0 : Option Nat) (c : Ctx) (s : NTree) :
    reprB h par0 (plug c s) =
      (ctxOk h par0 c (rootId s) && reprB h (holePar par0 c) s) := by
  induction c generalizing s with
  | top => simp [plug, ctxOk, holePar]
  | inL i d sz c r ih =>
    simp only [plug, ctxOk, ih, reprB, rootId, holePar]
    refine Bool.eq_iff_iff.mpr ?_
    simp only [Bool.and_eq_true]
    tauto
  | inR i d sz l c ih =>
    simp only [plug, ctxOk, ih, reprB, rootId, holePar]
    refine Bool.eq_iff_iff.mpr ?_
    simp only [Bool.and_eq_true]
    tauto

theorem sizesOK_plug (c : Ctx) (s : NTree) :
    sizesOK (plug c s) = (ctxSizesOK c (szF s) && sizesOK s) := by
  induction c generalizing s with
  | top => simp [plug, ctxSizesOK]
  | inL i d sz c r ih =>
    simp only [plug, ctxSizesOK, ih, sizesOK, szF]
    refine Bool.eq_iff_iff.mpr ?_
    simp only [Bool.and_eq_true]
    tauto
  | inR i d sz l c ih =>
    simp only [plug, ctxSizesOK, ih, sizesOK, szF]
    refine Bool.eq_iff_iff.mpr ?_
    simp only [Bool.and_eq_true]
    tauto

/-- Ids of the context part. -/
def ctxIds : Ctx → List Nat
  | top => []
  | inL i _ _ c r => i :: NTree.idsOf r ++ ctxIds c
  | inR i _ _ l c => i :: NTree.idsOf l ++ ctxIds c

theorem mem_ctxIds {j : Nat} (c : Ctx) :
    j ∈ ctxIds c ↔
      (j ∈ (leftEntries c).map Prod.fst ∨ j ∈ (rightEntries c).map Prod.fst) := by
  induction c with
  | top => simp [ctxIds, leftEntries, rightEntries]
  | inL i d sz c r ih =>
    simp only [ctxIds, leftEntries, rightEntries, List.mem_cons, List.mem_append,
      List.map_append, List.map_cons, ih, NTree.idsOf]
    tauto
  | inR i d sz l c ih =>
    simp only [ctxIds, leftEntries, rightEntries, List.mem_cons, List.mem_append,
      List.map_append, List.map_cons, ih, NTree.idsOf]
    tauto

theorem idsOf_plug (c : Ctx) (s : NTree) :
    NTree.idsOf (plug c s) = (leftEntries c).map Prod.fst ++ NTree.idsOf s ++
      (rightEntries c).map Prod.fst := by
  simp [NTree.idsOf, entries_plug]

end Ctx

theorem reprB_frame {h h' : Heap} {T : NTree} {par : Option Nat}
    (hf : ∀ j ∈ T.idsOf, h' j = h j) : reprB h' par T = reprB h par T := by
  induction T generalizing par with
  | nil => rfl
  | node i d sz l r ihl ihr =>
    have hi : h' i = h i := hf i (by simp [NTree.idsOf_node])
    have hll := @ihl (some i) fun j hj => hf j (by simp [NTree.idsOf_node, hj])
    have hrr := @ihr (some i) fun j hj => hf j (by simp [NTree.idsOf_node, hj])
    simp [reprB, hi, hll, hrr]

theorem ctxOk_frame {h h' : Heap} {c : Ctx} {par0 x : Option Nat}
    (hf : ∀ j ∈ c.ctxIds, h' j = h j) :
    Ctx.ctxOk h' par0 c x = Ctx.ctxOk h par0 c x := by
  induction c generalizing x with
  | top => rfl
  | inL i d sz c r ih =>
    have hi : h' i = h i := hf i (by simp [Ctx.ctxIds])
    have hr : reprB h' (some i) r = reprB h (some i) r :=
      reprB_frame fun j hj => hf j (by simp [Ctx.ctxIds, hj])
    have hc := ih (x := some i) fun j hj => hf j (by simp [Ctx.ctxIds, hj])
    simp [Ctx.ctxOk, hi, hr, hc]
  | inR i d sz l c ih =>
    have hi : h' i = h i := hf i (by simp [Ctx.ctxIds])
    have hl : reprB h' (some i) l = reprB h (some i) l :=
      reprB_frame fun j hj => hf j (by simp [Ctx.ctxIds, hj])
    have hc := ih (x := some i) fun j hj => hf j (by simp [Ctx.ctxIds, hj])
    simp [Ctx.ctxOk, hi, hl, hc]

theorem get_size_rootId {h : Heap} {T : NTree} {par : Option Nat}
    (hr : reprB h par T = true) : get_size h T.rootId = T.szF := by
  cases T with
  | nil => rfl
  | node i d sz l r =>
    simp only [reprB, Bool.and_eq_true, beq_iff_eq] at hr
    simp [NTree.rootId, NTree.szF, get_size, hr.1.1.1.2]

namespace NTree

theorem length_idsOf (T : NTree) : T.idsOf.length = T.cnt := by
  simp [idsOf, cnt]

theorem length_dataOf (T : NTree) : T.dataOf.length = T.cnt := by
  simp [dataOf, cnt]

end NTree

namespace Ctx

theorem plug_comp (c₁ c₂ : Ctx) (s : NTree) :
    plug (comp c₁ c₂) s = plug c₁ (plug c₂ s) := by
  induction c₂ generalizing s with
  | top => rfl
  | inL i d sz c r ih => simp [comp, plug, ih]
  | inR i d sz l c ih => simp [comp, plug, ih]

theorem leftEntries_comp (c₁ c₂ : Ctx) :
    leftEntries (comp c₁ c₂) = leftEntries c₁ ++ leftEntries c₂ := by
  induction c₂ with
  | top => simp [comp, leftEntries]
  | inL i d sz c r ih => simp [comp, leftEntries, ih]
  | inR i d sz l c ih => simp [comp, leftEntries, ih]

theorem rightEntries_comp (c₁ c₂ : Ctx) :
    rightEntries (comp c₁ c₂) = rightEntries c₂ ++ rightEntries c₁ := by
  induction c₂ with
  | top => simp [comp, rightEntries]
  | inL i d sz c r ih => simp [comp, rightEntries, ih]
  | inR i d sz l c ih => simp [comp, rightEntries, ih]

end Ctx

/-- Nodup is inherited by the subtree in the hole. -/
theorem nodup_plug_sub {c : Ctx} {s : NTree}
    (hnd : (NTree.idsOf (Ctx.plug c s)).Nodup) : s.idsOf.Nodup := by
  rw [Ctx.idsOf_plug] at hnd
  exact ((List.nodup_append.mp (List.nodup_append.mp hnd).1).2).1

/-- Locate the node at ordinal `k`: a context decomposition whose
left part has exactly `k` entries. -/
theorem locate_index {T : NTree} {k : Nat} (hk : k < T.cnt) :
    ∃ c i d sz l r, T = Ctx.plug c (NTree.node i d sz l r) ∧
      (Ctx.leftEntries c).length + NTree.cnt l = k ∧
      T.entries.get? k = some (i, d) := by
  induction T generalizing k with
  | nil => simp [NTree.cnt, NTree.entries] at hk
  | node i d sz l r ihl ihr =>
    rcases Nat.lt_trichotomy k l.cnt with hlt | heq | hgt
    · obtain ⟨c', i', d', sz', l', r', hpl, hlen, hget⟩ := ihl hlt
      refine ⟨Ctx.comp (Ctx.inL i d sz Ctx.top r) c', i', d', sz', l', r', ?_, ?_, ?_⟩
      · rw [Ctx.plug_comp, ← hpl]; rfl
      · simp only [Ctx.leftEntries_comp, Ctx.leftEntries, List.length_append]
        simpa using hlen
      · show (NTree.entries l ++ (i, d) :: NTree.entries r).get? k = _
        rw [List.get?_append (by show k < (NTree.entries l).length; exact hlt)]
        exact hget
    · refine ⟨Ctx.top, i, d, sz, l, r, rfl, by simpa [Ctx.leftEntries] using heq.symm, ?_⟩
      show (NTree.entries l ++ (i, d) :: NTree.entries r).get? k = _
      rw [List.get?_append_right (by show (NTree.entries l).length ≤ k
                                     show l.cnt ≤ k
                                     omega)]
      show ((i, d) :: NTree.entries r).get? (k - l.cnt) = _
      simp [← heq]
    · have hk' : k - l.cnt - 1 < r.cnt := by
        rw [NTree.cnt_node] at hk; omega
      obtain ⟨c', i', d', sz', l', r', hpl, hlen, hget⟩ := ihr hk'
      refine ⟨Ctx.comp (Ctx.inR i d sz l Ctx.top) c', i', d', sz', l', r', ?_, ?_, ?_⟩
      · rw [Ctx.plug_comp, ← hpl]; rfl
      · simp only [Ctx.leftEntries_comp, Ctx.leftEntries, List.length_append,
          List.length_cons, List.length_nil]
        have hle : (NTree.entries l).length = l.cnt := rfl
        omega
      · show (NTree.entries l ++ (i, d) :: NTree.entries r).get? k = _
        rw [List.get?_append_right (by show (NTree.entries l).length ≤ k
                                       show l.cnt ≤ k
                                       omega)]
        show ((i, d) :: NTree.entries r).get? (k - l.cnt) = _
        have hkk : k - l.cnt = (k - l.cnt - 1) + 1 := by omega
        rw [hkk]
        simpa using hget

/-- `find_first_node` returns the leftmost node of a represented
subtree. -/
theorem find_first_spec {h : Heap} {par : Option Nat} {T : NTree} {i : Nat}
    (hr : reprB h par T = true) (hroot : T.rootId = some i) {fuel : Nat}
    (hf : T.cnt ≤ fuel) : find_first_node h fuel i = T.leftmostId := by
  induction T generalizing par i fuel with
  | nil => simp [NTree.rootId] at hroot
  | node j d sz l r ihl ihr =>
    simp only [NTree.rootId, Option.some.injEq] at hroot
    subst hroot
    simp only [reprB, Bool.and_eq_true, beq_iff_eq] at hr
    cases fuel with
    | zero => rw [NTree.cnt_node] at hf; omega
    | succ f =>
      rw [find_first_node, hr.1.1.1.1.1.2]
      cases l with
      | nil => rfl
      | node li ld lsz ll lr =>
        have hrl : reprB h (some j) (NTree.node li ld lsz ll lr) = true := hr.1.2
        have hres := @ihl _ _ hrl rfl f (by
          rw [NTree.cnt_node] at hf
          rw [NTree.cnt_node]
          rw [NTree.cnt_node] at hf
          omega)
        simpa [NTree.rootId, NTree.leftmostId] using hres

/-- `find_last_node` returns the rightmost node of a represented
subtree. -/
theorem find_last_spec {h : Heap} {par : Option Nat} {T : NTree} {i : Nat}
    (hr : reprB h par T = true) (hroot : T.rootId = some i) {fuel : Nat}
    (hf : T.cnt ≤ fuel) : find_last_node h fuel i = T.rightmostId := by
  induction T generalizing par i fuel with
  | nil => simp [NTree.rootId] at hroot
  | node j d sz l r ihl ihr =>
    simp only [NTree.rootId, Option.some.injEq] at hroot
    subst hroot
    simp only [reprB, Bool.and_eq_true, beq_iff_eq] at hr
    cases fuel with
    | zero => rw [NTree.cnt_node] at hf; omega
    | succ f =>
      rw [find_last_node, hr.1.1.1.1.2]
      cases r with
      | nil => rfl
      | node ri rd rsz rl rr =>
        have hrr : reprB h (some j) (NTree.node ri rd rsz rl rr) = true := hr.2
        have hres := @ihr _ _ hrr rfl f (by
          rw [NTree.cnt_node] at hf
          rw [NTree.cnt_node]
          rw [NTree.cnt_node] at hf
          omega)
        simpa [NTree.rootId, NTree.rightmostId] using hres

/-- The rank-descent loop returns the id at ordinal `index` of a
represented subtree with correct sizes. -/
theorem find_node_at_index_loop_spec {h : Heap} {par : Option Nat} {T : NTree}
    {j : Nat} (hr : reprB h par T = true) (hs : T.sizesOK = true)
    (hroot : T.rootId = some j) {k fuel : Nat} (hk : k < T.cnt)
    (hf : T.cnt ≤ fuel) :
    find_node_at_index_loop h fuel j k = T.idsOf.get? k := by
  induction T generalizing par j k fuel with
  | nil => simp [NTree.rootId] at hroot
  | node i d sz l r ihl ihr =>
    simp only [NTree.rootId, Option.some.injEq] at hroot
    subst hroot
    simp only [reprB, Bool.and_eq_true, beq_iff_eq] at hr
    cases fuel with
    | zero => rw [NTree.cnt_node] at hf; omega
    | succ f =>
      rw [find_node_at_index_loop]
      have hflr : l.cnt ≤ f ∧ r.cnt ≤ f := by
        rw [NTree.cnt_node] at hf; omega
      have hsplit : (NTree.sizesOK l = true ∧ NTree.sizesOK r = true) ∧
          sz = 1 + NTree.szF l + NTree.szF r := by
        simp only [NTree.sizesOK, Bool.and_eq_true, beq_iff_eq] at hs
        exact ⟨⟨hs.1.2, hs.2⟩, hs.1.1⟩
      cases l with
      | nil =>
        have hleft : (h i).left = none := by
          have h2 := hr.1.1.1.1.1.2
          simpa [NTree.rootId] using h2
        simp only [hleft]
        simp only [NTree.idsOf_node, NTree.idsOf_nil, List.nil_append]
        by_cases h0 : k = 0
        · subst h0; simp
        · rw [if_neg h0]
          have hkr : k - 1 < r.cnt := by
            rw [NTree.cnt_node, NTree.cnt_nil] at hk; omega
          cases r with
          | nil => simp [NTree.cnt_nil] at hkr
          | node ri rd rsz rl rr =>
            have hright : (h i).right = some ri := by
              have h2 := hr.1.1.1.1.2
              simpa [NTree.rootId] using h2
            simp only [hright]
            show find_node_at_index_loop h f ri (k - 1) = _
            rw [ihr hr.2 hsplit.1.2 rfl hkr hflr.2]
            cases k with
            | zero => omega
            | succ k2 => simp
      | node li ld lsz ll lr =>
        have hleft : (h i).left = some li := by
          have h2 := hr.1.1.1.1.1.2
          simpa [NTree.rootId] using h2
        simp only [hleft]
        have hrl : reprB h (some i) (NTree.node li ld lsz ll lr) = true := hr.1.2
        have hszl : (h li).size = (NTree.node li ld lsz ll lr).cnt := by
          have h1 : (h li).size = lsz := by
            simp only [reprB, Bool.and_eq_true, beq_iff_eq] at hrl
            exact hrl.1.1.1.2
          rw [h1, ← NTree.szF_eq_cnt hsplit.1.1]
          rfl
        by_cases hlt : k < (NTree.node li ld lsz ll lr).cnt
        · have hcond : k < (h li).size := by rw [hszl]; exact hlt
          rw [if_pos hcond]
          rw [ihl hrl hsplit.1.1 rfl hlt hflr.1]
          rw [NTree.idsOf_node i d sz (NTree.node li ld lsz ll lr) r,
            List.get?_append (by rw [NTree.length_idsOf]; exact hlt)]
        · have hcond : ¬ (k < (h li).size) := by rw [hszl]; omega
          rw [if_neg hcond, hszl]
          by_cases h0 : k - (NTree.node li ld lsz ll lr).cnt = 0
          · rw [if_pos h0]
            rw [NTree.idsOf_node i d sz (NTree.node li ld lsz ll lr) r,
              List.get?_append_right (by rw [NTree.length_idsOf]; omega)]
            rw [NTree.length_idsOf, h0]
            rfl
          · rw [if_neg h0]
            have hkr : k - (NTree.node li ld lsz ll lr).cnt - 1 < r.cnt := by
              rw [NTree.cnt_node] at hk; omega
            cases r with
            | nil => simp [NTree.cnt_nil] at hkr
            | node ri rd rsz rl rr =>
              have hright : (h i).right = some ri := by
                have h2 := hr.1.1.1.1.2
                simpa [NTree.rootId] using h2
              simp only [hright]
              show find_node_at_index_loop h f ri _ = _
              rw [ihr hr.2 hsplit.1.2 rfl hkr hflr.2]
              rw [NTree.idsOf_node i d sz (NTree.node li ld lsz ll lr)
                  (NTree.node ri rd rsz rl rr),
                List.get?_append_right (by rw [NTree.length_idsOf]; omega)]
              rw [NTree.length_idsOf]
              have hm : k - (NTree.node li ld lsz ll lr).cnt =
                  (k - (NTree.node li ld lsz ll lr).cnt - 1) + 1 := by omega
              rw [hm]
              simp

theorem nodup_len_le {l : List Nat} {n : Nat} (hnd : l.Nodup)
    (hb : ∀ j ∈ l, j < n) : l.length ≤ n := by
  classical
  calc l.length = l.toFinset.card := (List.toFinset_card_of_nodup hnd).symm
    _ ≤ (Finset.range n).card := by
        apply Finset.card_le_card
        intro x hx
        rw [List.mem_toFinset] at hx
        rw [Finset.mem_range]
        exact hb x hx
    _ = n := Finset.card_range n

theorem depth_cnt_le (c : Ctx) (s : NTree) :
    Ctx.depth c + NTree.cnt s ≤ NTree.cnt (Ctx.plug c s) := by
  induction c generalizing s with
  | top => simp [Ctx.plug, Ctx.depth]
  | inL i d sz c r ih =>
    have h1 := ih (s := NTree.node i d sz s r)
    rw [NTree.cnt_node] at h1
    simp only [Ctx.plug, Ctx.depth]
    omega
  | inR i d sz l c ih =>
    have h1 := ih (s := NTree.node i d sz l s)
    rw [NTree.cnt_node] at h1
    simp only [Ctx.plug, Ctx.depth]
    omega

/-- The upward rank-accumulation loop of `get_index`, for a node
located by a context whose outermost parent is the tree root
(`par0 = none`): the final accumulator counts all entries strictly to
the left of the hole. -/
theorem get_index_loop_spec {h : Heap} {c : Ctx} {s : NTree} {i : Nat}
    (hroot : s.rootId = some i)
    (hpar : (h i).parent = Ctx.holePar none c)
    (hc : Ctx.ctxOk h none c (some i) = true)
    (hsz : Ctx.ctxSizesOK c s.szF = true)
    (hnd : (NTree.idsOf (Ctx.plug c s)).Nodup)
    {fuel acc : Nat} (hf : Ctx.depth c + 1 ≤ fuel) :
    get_index_loop h fuel i acc = some (acc + (Ctx.leftEntries c).length) := by
  induction c generalizing s i acc fuel with
  | top =>
    cases fuel with
    | zero => simp [Ctx.depth] at hf
    | succ f =>
      rw [get_index_loop]
      simp only [Ctx.holePar] at hpar
      simp [hpar, Ctx.leftEntries]
  | inL j d sz c r ih =>
    cases fuel with
    | zero => simp [Ctx.depth] at hf
    | succ f =>
      rw [get_index_loop]
      simp only [Ctx.holePar] at hpar
      simp only [hpar]
      simp only [Ctx.ctxOk, Bool.and_eq_true, beq_iff_eq] at hc
      have hnotr : ¬ ((h j).right = some i) := by
        intro hcontr
        rw [hc.1.1.1.1.2] at hcontr
        have hir : i ∈ NTree.idsOf r := NTree.rootId_mem hcontr
        have his : i ∈ NTree.idsOf s := NTree.rootId_mem hroot
        have hnd2 : (NTree.idsOf (NTree.node j d sz s r)).Nodup :=
          nodup_plug_sub (c := c) hnd
        rw [NTree.idsOf_node] at hnd2
        have hd := (List.nodup_append.mp hnd2).2.2
        exact hd his (by simp [hir])
      rw [if_neg hnotr]
      have hrec := @ih (NTree.node j d sz s r) j rfl
        hc.1.1.1.1.1.1
        hc.2
        (by
          show Ctx.ctxSizesOK c sz = true
          simp only [Ctx.ctxSizesOK, Bool.and_eq_true] at hsz
          exact hsz.2)
        (by
          show (NTree.idsOf (Ctx.plug c (NTree.node j d sz s r))).Nodup
          exact hnd)
        f acc
        (by simp only [Ctx.depth] at hf; omega)
      rw [hrec]
      simp [Ctx.leftEntries]
  | inR j d sz l c ih =>
    cases fuel with
    | zero => simp [Ctx.depth] at hf
    | succ f =>
      rw [get_index_loop]
      simp only [Ctx.holePar] at hpar
      simp only [hpar]
      simp only [Ctx.ctxOk, Bool.and_eq_true, beq_iff_eq] at hc
      rw [if_pos hc.1.1.1.1.2]
      simp only [Ctx.ctxSizesOK, Bool.and_eq_true, beq_iff_eq] at hsz
      have hszl : get_size h (h j).left = l.cnt := by
        rw [hc.1.1.1.1.1.2, get_size_rootId hc.1.2, NTree.szF_eq_cnt hsz.1.2]
      have hrec := @ih (NTree.node j d sz l s) j rfl
        hc.1.1.1.1.1.1
        hc.2
        (by
          show Ctx.ctxSizesOK c sz = true
          exact hsz.2)
        (by
          show (NTree.idsOf (Ctx.plug c (NTree.node j d sz l s))).Nodup
          exact hnd)
        f (acc + get_size h (h j).left + 1)
        (by simp only [Ctx.depth] at hf; omega)
      rw [hrec, hszl]
      simp only [Ctx.leftEntries, List.length_append, List.length_cons,
        List.length_nil]
      have : (NTree.entries l).length = l.cnt := rfl
      congr 1
      omega

/-- `get_index` of a located node is the number of entries to its
left: the length of the context's left part plus the size of its own
left subtree. -/
theorem get_index_spec {h : Heap} {c : Ctx} {i d sz : Nat} {l r : NTree}
    (hr : reprB h none (Ctx.plug c (NTree.node i d sz l r)) = true)
    (hszT : (Ctx.plug c (NTree.node i d sz l r)).sizesOK = true)
    (hnd : (Ctx.plug c (NTree.node i d sz l r)).idsOf.Nodup)
    {fuel : Nat} (hf : Ctx.depth c + 1 ≤ fuel) :
    get_index h i fuel = some ((Ctx.leftEntries c).length + l.cnt) := by
  rw [Ctx.reprB_plug, Bool.and_eq_true] at hr
  rw [Ctx.sizesOK_plug, Bool.and_eq_true] at hszT
  have hnode := hr.2
  simp only [reprB, Bool.and_eq_true, beq_iff_eq] at hnode
  have hsl : NTree.sizesOK l = true := by
    have h2 := hszT.2
    simp only [NTree.sizesOK, Bool.and_eq_true, beq_iff_eq] at h2
    exact h2.1.2
  rw [get_index]
  have hacc : get_size h (h i).left = l.cnt := by
    rw [hnode.1.1.1.1.1.2, get_size_rootId hnode.1.2, NTree.szF_eq_cnt hsl]
  rw [hacc]
  have hres := @get_index_loop_spec h c (NTree.node i d sz l r)
    i rfl hnode.1.1.1.1.1.1 hr.1 hszT.1 hnd fuel l.cnt hf
  rw [hres]
  congr 1
  omega

theorem cnt_le_nextId {t : Tree} {T : NTree} (hInv : Inv t T) :
    T.cnt ≤ t.nextId := by
  rw [← NTree.length_idsOf]
  exact nodup_len_le hInv.hnd hInv.hbound

theorem size_eq_cnt {t : Tree} {T : NTree} (hInv : Inv t T) :
    t.size = T.cnt := by
  rw [Tree.size, hInv.hroot]
  cases T with
  | nil => rfl
  | node i d sz l r =>
    have hr := hInv.hrepr
    simp only [reprB, Bool.and_eq_true, beq_iff_eq] at hr
    show (t.heap i).size = _
    rw [hr.1.1.1.2, ← NTree.szF_eq_cnt hInv.hsz]
    rfl

/-- C3: with correct sizes, rank descent and rank query are mutually
inverse: for `k < size`, `find_node_at_index` returns the node at
ordinal `k` and `get_index` on it returns `k`; for `k ≥ size`,
`find_node_at_index` returns the absent node. -/
theorem c3_rank_descent_and_rank_query {t : Tree} {T : NTree} (hInv : Inv t T) :
    (∀ k, k < t.size →
      ∃ n, t.find_node_at_index k = some n ∧ T.idsOf.get? k = some n ∧
        get_index t.heap n t.fuel = some k) ∧
    (∀ k, t.size ≤ k → t.find_node_at_index k = none) := by
  have hsize := size_eq_cnt hInv
  have hcnt : T.cnt ≤ t.nextId := cnt_le_nextId hInv
  cases T with
  | nil =>
    constructor
    · intro k hk
      rw [hsize] at hk
      simp [NTree.cnt, NTree.entries] at hk
    · intro k hk
      rw [Tree.find_node_at_index, hInv.hroot]
      rfl
  | node i0 d0 sz0 l0 r0 =>
    have hsz0 : (t.heap i0).size = (NTree.node i0 d0 sz0 l0 r0).cnt := by
      have hr := hInv.hrepr
      simp only [reprB, Bool.and_eq_true, beq_iff_eq] at hr
      rw [hr.1.1.1.2, ← NTree.szF_eq_cnt hInv.hsz]
      rfl
    constructor
    · intro k hk
      rw [hsize] at hk
      obtain ⟨c, i, d, sz, l, r, hT, hlen, hgetE⟩ := locate_index hk
      have hget : (NTree.node i0 d0 sz0 l0 r0).idsOf.get? k = some i := by
        rw [NTree.idsOf, List.get?_map, hgetE]
        rfl
      refine ⟨i, ?_, hget, ?_⟩
      · rw [Tree.find_node_at_index, hInv.hroot]
        show find_node_at_index t.heap (some i0) k t.fuel = some i
        rw [find_node_at_index]
        have hc1 : ¬ ((t.heap i0).size ≤ k) := by rw [hsz0]; omega
        rw [if_neg hc1]
        rw [find_node_at_index_loop_spec hInv.hrepr hInv.hsz rfl hk (by simp only [Tree.fuel]; omega)]
        exact hget
      · have hrepr2 := hInv.hrepr
        have hsz2 := hInv.hsz
        have hnd2 := hInv.hnd
        rw [hT] at hrepr2 hsz2 hnd2
        have hfu2 : Ctx.depth c + 1 ≤ t.fuel := by
          have hd := depth_cnt_le c (NTree.node i d sz l r)
          rw [NTree.cnt_node] at hd
          rw [← hT] at hd
          show Ctx.depth c + 1 ≤ t.nextId + 1
          omega
        have hres := get_index_spec (c := c) (i := i) (d := d)
          (l := l) (r := r) hrepr2 hsz2 hnd2 hfu2
        rw [hres]
        exact congrArg some hlen
    · intro k hk
      rw [Tree.find_node_at_index, hInv.hroot]
      show find_node_at_index t.heap (some i0) k t.fuel = none
      rw [find_node_at_index]
      have hc1 : (t.heap i0).size ≤ k := by rw [hsz0, ← hsize]; omega
      rw [if_pos hc1]

theorem wInv : Inv wTree wNT :=
  ⟨by decide, by decide, by decide, by decide, by decide, by decide, by decide⟩

/-- Witness for C3 on the concrete three-node tree: index `1` is found
and ranks back to `1`; index `7` (≥ size) yields the absent node. -/
theorem c3_rank_witness :
    (∃ n, wTree.find_node_at_index 1 = some n ∧ wNT.idsOf.get? 1 = some n ∧
      get_index wTree.heap n wTree.fuel = some 1) ∧
    wTree.find_node_at_index 7 = none :=
  ⟨(c3_rank_descent_and_rank_query wInv).1 1 (by decide),
   (c3_rank_descent_and_rank_query wInv).2 7 (by decide)⟩

/-- C7: `at(k)` signals the out-of-range error exactly when `k ≥
size()` (in particular at `k = size()`), and otherwise returns the
element at ordinal `k`.  (`at` is a `const` member built on the pure
`find_node_at_index`; it performs no mutation, which the model
reflects by typing it as a pure function of the tree.) -/
theorem c7_at_out_of_range {t : Tree} {T : NTree} (hInv : Inv t T) :
    (∀ k, (∃ e, MT.atPos t k = Except.error e) ↔ t.size ≤ k) ∧
    MT.atPos t t.size = Except.error () ∧
    (∀ k, k < t.size →
      ∃ v, T.dataOf.get? k = some v ∧ MT.atPos t k = Except.ok v) := by
  have hok : ∀ k, k < t.size →
      ∃ v, T.dataOf.get? k = some v ∧ MT.atPos t k = Except.ok v := by
    intro k hk
    have hk' : k < T.cnt := by rw [← size_eq_cnt hInv]; exact hk
    obtain ⟨c, i, d, sz, l, r, hT, hlen, hgetE⟩ := locate_index hk'
    refine ⟨d, ?_, ?_⟩
    · rw [NTree.dataOf, List.get?_map, hgetE]
      rfl
    · rw [MT.atPos, if_neg (by omega)]
      have hfind := (c3_rank_descent_and_rank_query hInv).1 k hk
      obtain ⟨n, hfind1, hfind2, _⟩ := hfind
      have hni : n = i := by
        rw [NTree.idsOf, List.get?_map, hgetE] at hfind2
        simpa using hfind2.symm
      rw [MT.getElem, hfind1]
      subst hni
      have hdata : (t.heap n).data = d := by
        have hrepr2 := hInv.hrepr
        rw [hT, Ctx.reprB_plug, Bool.and_eq_true] at hrepr2
        have hnode := hrepr2.2
        simp only [reprB, Bool.and_eq_true, beq_iff_eq] at hnode
        exact hnode.1.1.2
      simp [hdata]
  refine ⟨?_, ?_, hok⟩
  · intro k
    constructor
    · intro ⟨e, he⟩
      by_contra hlt
      push_neg at hlt
      obtain ⟨v, _, hv⟩ := hok k hlt
      rw [hv] at he
      cases he
    · intro hge
      refine ⟨(), ?_⟩
      rw [MT.atPos, if_pos hge]
  · rw [MT.atPos, if_pos (le_refl _)]

/-- Witness for C7 on the concrete three-node tree. -/
theorem c7_at_witness :
    ((∃ e, MT.atPos wTree 3 = Except.error e) ↔ wTree.size ≤ 3) ∧
    MT.atPos wTree wTree.size = Except.error () ∧
    (∃ v, wNT.dataOf.get? 1 = some v ∧ MT.atPos wTree 1 = Except.ok v) :=
  ⟨(c7_at_out_of_range wInv).1 3, (c7_at_out_of_range wInv).2.1,
    (c7_at_out_of_range wInv).2.2 1 (by decide)⟩

/-- C2 (counterexample): the positional insert ladder of scenario 1
does *not* produce the sequence `d, f, h, e, b, a, g, c, i, j` claimed
by the spec (letters `a..j` encoded as `0..9`). -/
theorem c2_claimed_sequence_wrong :
    scenTree.map Tree.toList ≠ some [3, 5, 7, 4, 1, 0, 6, 2, 8, 9] := by
  decide

/-- C2 (amended): the ladder `insert_at(0,a), insert_at(0,b),
insert_at(0,c), insert_at(0,d), insert_at(1,e), insert_at(1,f),
insert_at(3,g), insert_at(3,h), insert_at(8,i), insert_at(9,j)`,
realised by `emplace_at_index`, yields the in-order sequence
`d, f, e, h, g, c, b, a, i, j` (each `insert_at(k, v)` places `v` at
ordinal `k`, exactly as inserting into a reference list); the result
is moreover a valid tree. -/
theorem c2_ladder_sequence :
    scenTree.map Tree.toList = some [3, 5, 4, 7, 6, 2, 1, 0, 8, 9] ∧
    scenTree.map checkTree = some true :=
  ⟨by decide, by decide⟩

/-- C5 (counterexample): under `BasicTreeImpl`, bulk `insert` of an
empty range does not return the given position: on the one-element
tree with `pos` = the begin iterator (node `0`), it returns the
past-the-end iterator (`none`) instead of `pos`. -/
theorem c5_basic_returns_end_not_pos :
    (do
      let (t, _) ← MT.insertList Strat.basic {} (none : Option Nat) [7]
      MT.insertList Strat.basic t (some 0) []) =
      some ({ heap := Heap.set Heap.base 0 { size := 1, data := 7 },
              root := some 0, first := some 0, last := some 0, nextId := 1 }, none) ∧
    (none : Option Nat) ≠ some 0 := by
  exact ⟨by decide, by decide⟩

/-- C5 (amended): bulk `insert` with an empty input range never
mutates the container (the very same handle is returned, no node
allocated); under `SplayTreeImpl` it returns the given position `pos`,
but under `BasicTreeImpl` it returns the past-the-end iterator (the
null node `insert_nodes_before` hands back). -/
theorem c5_insert_empty_range (t : Tree) (pos : Option Nat) :
    MT.insertList Strat.basic t pos [] = some (t, none) ∧
    MT.insertList Strat.splay t pos [] = some (t, pos) :=
  ⟨rfl, rfl⟩

/-- C6 (counterexample): when the erased node has both children,
`Node::erase()` does modify the node's own fields: on the three-node
tree `[11, 10, 12]` with root `0` (left child `1`, right child `2`),
after `erase()` of the root, node `0`'s
`(left_child, right_child, parent, size)` change from
`(some 1, some 2, none, 3)` to `(none, none, some 2, 1)`. -/
theorem c6_both_children_fields_change :
    (do
      let t ← c6Tree
      let r ← t.root
      let (h', _, _) ← node_erase t.heap r t.fuel
      pure (fieldsOf t.heap r, fieldsOf h' r)) =
      some ((some 1, some 2, none, 3), (none, none, some 2, 1)) ∧
    ((some 1, some 2, none, 3) : Option Nat × Option Nat × Option Nat × Nat) ≠
      (none, none, some 2, 1) := by
  exact ⟨by decide, by decide⟩

set_option maxRecDepth 1000000 in
set_option maxHeartbeats 2000000 in
/-- C4: range erase matches point erase.  On the tree of the 64
integers `0..63` built at the back (under each strategy), erasing the
range `[20, 30)` through the façade yields `0..19, 30..63`, and so
does erasing the element at index `20` ten times in succession; and
the splay strategy's `erase_nodes` routes all four boundary cases
(`begin` at `first` or not, `end` past-the-end or not) correctly, here
on the eight-element tree `0..7` with ranges `[2,5)`, `[0,5)`,
`[2,8)`, `[0,8)`, in every case leaving a valid tree. -/
theorem c4_range_erase_matches_point_erase :
    (c4Range Strat.basic = some (List.range 20 ++ (List.range 64).drop 30) ∧
     c4Point Strat.basic = some (List.range 20 ++ (List.range 64).drop 30)) ∧
    (c4Range Strat.splay = some (List.range 20 ++ (List.range 64).drop 30) ∧
     c4Point Strat.splay = some (List.range 20 ++ (List.range 64).drop 30)) ∧
    ((do
        let t ← backLadder Strat.splay 8
        let t ← eraseRangeAt Strat.splay t 2 5
        pure (t.toList, checkTree t)) = some ([0, 1, 5, 6, 7], true) ∧
     (do
        let t ← backLadder Strat.splay 8
        let t ← eraseRangeAt Strat.splay t 0 5
        pure (t.toList, checkTree t)) = some ([5, 6, 7], true) ∧
     (do
        let t ← backLadder Strat.splay 8
        let t ← eraseRangeAt Strat.splay t 2 8
        pure (t.toList, checkTree t)) = some ([0, 1], true) ∧
     (do
        let t ← backLadder Strat.splay 8
        let t ← eraseRangeAt Strat.splay t 0 8
        pure (t.toList, checkTree t, t.root, t.first, t.last)) =
        some ([], true, none, none, none)) :=
  ⟨⟨by decide, by decide⟩, ⟨by decide, by decide⟩,
    by decide, by decide, by decide, by decide⟩

/-- C8: swap stability.  On the ten-element tree of scenario 1, for
every ordered pair `(i, j)` with `0 ≤ i, j < 10`, swapping the nodes
at ordinals `i` and `j` in place (`swap_nodes`) yields a valid tree
(sizes, parent links and endpoints intact) whose in-order sequence is
the reference sequence with positions `i` and `j` transposed, and no
node's `data` field moves (every id keeps its data) — including
adjacent and identical node pairs. -/
theorem c8_swap_stability :
    ((List.range 10).all fun i =>
      (List.range 10).all fun j =>
        match scenTree with
        | some t =>
          match swapAt t i j with
          | some t' =>
            checkTree t' &&
            (t'.toList ==
              ((t.toList.set i (t.toList.getD j 0)).set j (t.toList.getD i 0))) &&
            ((List.range 10).all fun id => (t'.heap id).data == (t.heap id).data)
          | none => false
        | none => false) = true := by
  decide


theorem cnt_plug (c : Ctx) (s : NTree) :
    (Ctx.plug c s).cnt =
      (Ctx.leftEntries c).length + s.cnt + (Ctx.rightEntries c).length := by
  simp [NTree.cnt, Ctx.entries_plug]
  omega

theorem plug_entries_get_center (c : Ctx) (i d sz : Nat) (l r : NTree) :
    (Ctx.plug c (NTree.node i d sz l r)).entries.get?
      ((Ctx.leftEntries c).length + l.cnt) = some (i, d) := by
  rw [Ctx.entries_plug]
  have hlen : (NTree.entries (NTree.node i d sz l r)).length =
      l.cnt + 1 + r.cnt := by
    show NTree.cnt (NTree.node i d sz l r) = _
    rw [NTree.cnt_node]
  rw [List.get?_append (by simp only [List.length_append, hlen]; omega)]
  rw [List.get?_append_right (by omega)]
  have h1 : (Ctx.leftEntries c).length + l.cnt - (Ctx.leftEntries c).length =
      l.cnt := by omega
  rw [h1]
  show (NTree.entries l ++ (i, d) :: NTree.entries r).get? l.cnt = _
  rw [List.get?_append_right (by show (NTree.entries l).length ≤ l.cnt
                                 show l.cnt ≤ l.cnt
                                 omega)]
  have h2 : l.cnt - (NTree.entries l).length = 0 := by
    show l.cnt - l.cnt = 0
    omega
  rw [h2]
  rfl

theorem plug_entries_get_right (c : Ctx) (i d sz : Nat) (l r : NTree)
    {m : Nat} (hm : m < r.cnt) :
    (Ctx.plug c (NTree.node i d sz l r)).entries.get?
      ((Ctx.leftEntries c).length + l.cnt + 1 + m) = r.entries.get? m := by
  rw [Ctx.entries_plug]
  have hlen : (NTree.entries (NTree.node i d sz l r)).length =
      l.cnt + 1 + r.cnt := by
    show NTree.cnt (NTree.node i d sz l r) = _
    rw [NTree.cnt_node]
  rw [List.get?_append (by simp only [List.length_append, hlen]; omega)]
  rw [List.get?_append_right (by omega)]
  have h1 : (Ctx.leftEntries c).length + l.cnt + 1 + m -
      (Ctx.leftEntries c).length = l.cnt + (m + 1) := by omega
  rw [h1]
  show (NTree.entries l ++ (i, d) :: NTree.entries r).get? _ = _
  rw [List.get?_append_right (by show (NTree.entries l).length ≤ _
                                 show l.cnt ≤ _
                                 omega)]
  have h2 : l.cnt + (m + 1) - (NTree.entries l).length = m + 1 := by
    show _ - l.cnt = m + 1
    omega
  rw [h2]
  rfl

theorem plug_entries_get_left (c : Ctx) (i d sz : Nat) (l r : NTree)
    {m : Nat} (hm : m < l.cnt) :
    (Ctx.plug c (NTree.node i d sz l r)).entries.get?
      ((Ctx.leftEntries c).length + m) = l.entries.get? m := by
  rw [Ctx.entries_plug]
  have hlen : (NTree.entries (NTree.node i d sz l r)).length =
      l.cnt + 1 + r.cnt := by
    show NTree.cnt (NTree.node i d sz l r) = _
    rw [NTree.cnt_node]
  rw [List.get?_append (by simp only [List.length_append, hlen]; omega)]
  rw [List.get?_append_right (by omega)]
  have h1 : (Ctx.leftEntries c).length + m - (Ctx.leftEntries c).length = m := by
    omega
  rw [h1]
  show (NTree.entries l ++ (i, d) :: NTree.entries r).get? m = _
  rw [List.get?_append (by show m < (NTree.entries l).length
                           show m < l.cnt
                           omega)]

/-- The inner downward loop of `find_next_node(n, steps)`: entered at
the root of a represented subtree whose entries occupy the global
index interval `(base, base + cnt]` when counted with `displacement =
index + 1 - base`, it lands on the node at global step index
`steps - 1 - base` of the subtree. -/
theorem find_next_down_spec {h : Heap} {par : Option Nat} {n dn szn : Nat}
    {l r : NTree}
    (hr : reprB h par (NTree.node n dn szn l r) = true)
    (hs : NTree.sizesOK (NTree.node n dn szn l r) = true)
    {fuel steps base : Nat}
    (hf : NTree.cnt (NTree.node n dn szn l r) ≤ fuel)
    (hlo : base + 1 ≤ steps)
    (hhi : steps ≤ base + NTree.cnt (NTree.node n dn szn l r)) :
    find_next_down h fuel n steps (base + NTree.cnt l + 1) =
      (NTree.node n dn szn l r).idsOf.get? (steps - 1 - base) := by
  induction fuel generalizing par n dn szn l r steps base with
  | zero => rw [NTree.cnt_node] at hf; omega
  | succ f ih =>
    simp only [reprB, Bool.and_eq_true, beq_iff_eq] at hr
    simp only [NTree.sizesOK, Bool.and_eq_true, beq_iff_eq] at hs
    rw [find_next_down]
    rcases Nat.lt_trichotomy steps (base + NTree.cnt l + 1) with hc | hc | hc
    · -- descend left
      rw [if_neg (by omega), if_pos hc]
      have hlpos : 0 < l.cnt := by omega
      cases l with
      | nil => simp [NTree.cnt_nil] at hlpos
      | node li ld lsz ll lr =>
        have hleft : (h n).left = some li := by
          have h2 := hr.1.1.1.1.1.2
          simpa [NTree.rootId] using h2
        simp only [hleft]
        have hrl : reprB h (some n) (NTree.node li ld lsz ll lr) = true := hr.1.2
        have hsl : NTree.sizesOK (NTree.node li ld lsz ll lr) = true := hs.1.2
        have hszlr : get_size h (h li).right = lr.cnt := by
          have hrl2 := hrl
          have hsl2 := hsl
          simp only [reprB, Bool.and_eq_true, beq_iff_eq] at hrl2
          simp only [NTree.sizesOK, Bool.and_eq_true, beq_iff_eq] at hsl2
          rw [hrl2.1.1.1.1.2, get_size_rootId hrl2.2]
          exact NTree.szF_eq_cnt hsl2.2
        have harith : base + NTree.cnt (NTree.node li ld lsz ll lr) + 1 -
            (get_size h (h li).right + 1) = base + ll.cnt + 1 := by
          rw [hszlr, NTree.cnt_node]
          omega
        rw [harith]
        have hres := @ih (some n) _ _ _ _ _ hrl hsl
          steps base
          (by
            have e1 := NTree.cnt_node n dn szn (NTree.node li ld lsz ll lr) r
            have e2 := NTree.cnt_node li ld lsz ll lr
            omega)
          hlo
          (by
            have e2 := NTree.cnt_node li ld lsz ll lr
            omega)
        rw [hres]
        rw [NTree.idsOf_node n dn szn (NTree.node li ld lsz ll lr) r]
        rw [List.get?_append (by rw [NTree.length_idsOf]; omega)]
    · -- found
      rw [if_neg (by omega), if_neg (by omega)]
      rw [NTree.idsOf_node]
      rw [List.get?_append_right (by rw [NTree.length_idsOf]; omega)]
      rw [NTree.length_idsOf]
      have h1 : steps - 1 - base - l.cnt = 0 := by omega
      rw [h1]
      rfl
    · -- descend right
      rw [if_pos hc]
      have hrpos : 0 < r.cnt := by rw [NTree.cnt_node] at hhi; omega
      cases r with
      | nil => simp [NTree.cnt_nil] at hrpos
      | node ri rd rsz rl rr =>
        have hright : (h n).right = some ri := by
          have h2 := hr.1.1.1.1.2
          simpa [NTree.rootId] using h2
        simp only [hright]
        have hrr : reprB h (some n) (NTree.node ri rd rsz rl rr) = true := hr.2
        have hsr : NTree.sizesOK (NTree.node ri rd rsz rl rr) = true := hs.2
        have hszrl : get_size h (h ri).left = rl.cnt := by
          have hrr2 := hrr
          have hsr2 := hsr
          simp only [reprB, Bool.and_eq_true, beq_iff_eq] at hrr2
          simp only [NTree.sizesOK, Bool.and_eq_true, beq_iff_eq] at hsr2
          rw [hrr2.1.1.1.1.1.2, get_size_rootId hrr2.1.2]
          exact NTree.szF_eq_cnt hsr2.1.2
        have harith : base + NTree.cnt l + 1 + get_size h (h ri).left + 1 =
            base + NTree.cnt l + 1 + rl.cnt + 1 := by
          rw [hszrl]
        rw [harith]
        have hres := @ih (some n) _ _ _ _ _ hrr hsr
          steps (base + NTree.cnt l + 1)
          (by
            have e1 := NTree.cnt_node n dn szn l (NTree.node ri rd rsz rl rr)
            have e2 := NTree.cnt_node ri rd rsz rl rr
            omega)
          (by omega)
          (by
            have e1 := NTree.cnt_node n dn szn l (NTree.node ri rd rsz rl rr)
            omega)
        rw [hres]
        rw [NTree.idsOf_node n dn szn l (NTree.node ri rd rsz rl rr)]
        rw [List.get?_append_right (by rw [NTree.length_idsOf]; omega)]
        rw [NTree.length_idsOf]
        have h1 : steps - 1 - base - l.cnt =
            (steps - 1 - (base + NTree.cnt l + 1)) + 1 := by omega
        rw [h1]
        rfl

/-- `find_next_node(n, steps)`: from the node at ordinal
`leftEntries(c).length + cnt l`, reach the node `steps` positions later
in the in-order sequence, or the absent node when that overshoots. -/
theorem find_next_steps_spec {h : Heap} {c : Ctx} {i d sz : Nat} {l r : NTree}
    (hr : reprB h none (Ctx.plug c (NTree.node i d sz l r)) = true)
    (hs : (Ctx.plug c (NTree.node i d sz l r)).sizesOK = true)
    (hnd : (Ctx.plug c (NTree.node i d sz l r)).idsOf.Nodup)
    {fuel steps : Nat}
    (hf : Ctx.depth c + (Ctx.plug c (NTree.node i d sz l r)).cnt + 1 ≤ fuel) :
    find_next_node_steps h fuel i steps =
      (if (Ctx.leftEntries c).length + l.cnt + steps <
          (Ctx.plug c (NTree.node i d sz l r)).cnt then
        (Ctx.plug c (NTree.node i d sz l r)).idsOf.get?
          ((Ctx.leftEntries c).length + l.cnt + steps)
      else none) := by
  induction fuel generalizing c i d sz l r steps with
  | zero => omega
  | succ f ih =>
    have hcp := cnt_plug c (NTree.node i d sz l r)
    have hcn := NTree.cnt_node i d sz l r
    have hdec := hr
    rw [Ctx.reprB_plug, Bool.and_eq_true] at hdec
    have hnode := hdec.2
    simp only [reprB, Bool.and_eq_true, beq_iff_eq] at hnode
    have hsdec := hs
    rw [Ctx.sizesOK_plug, Bool.and_eq_true] at hsdec
    have hsn : (NTree.szF l = NTree.cnt l ∧ NTree.szF r = NTree.cnt r) ∧
        NTree.sizesOK l = true ∧ NTree.sizesOK r = true := by
      have h2 := hsdec.2
      simp only [NTree.sizesOK, Bool.and_eq_true, beq_iff_eq] at h2
      exact ⟨⟨NTree.szF_eq_cnt h2.1.2, NTree.szF_eq_cnt h2.2⟩, h2.1.2, h2.2⟩
    have hgr : get_size h (h i).right = r.cnt := by
      rw [hnode.1.1.1.1.2, get_size_rootId hnode.2, hsn.1.2]
    have hgl : get_size h (h i).left = l.cnt := by
      rw [hnode.1.1.1.1.1.2, get_size_rootId hnode.1.2, hsn.1.1]
    rw [find_next_node_steps]
    by_cases h0 : steps = 0
    · subst h0
      rw [if_pos rfl, if_pos (by omega)]
      have hc1 := plug_entries_get_center c i d sz l r
      rw [NTree.idsOf, List.get?_map, Nat.add_zero, hc1]
      rfl
    · rw [if_neg h0]
      by_cases hdesc : steps ≤ get_size h (h i).right
      · rw [if_pos hdesc]
        rw [hgr] at hdesc
        have hrpos : 0 < r.cnt := by omega
        cases r with
        | nil => simp [NTree.cnt_nil] at hrpos
        | node ri rd rsz rl rr =>
          have hright : (h i).right = some ri := by
            have h2 := hnode.1.1.1.1.2
            simpa [NTree.rootId] using h2
          simp only [hright]
          have hrr : reprB h (some i) (NTree.node ri rd rsz rl rr) = true :=
            hnode.2
          have hgrl : get_size h (h ri).left = rl.cnt := by
            have hrr2 := hrr
            simp only [reprB, Bool.and_eq_true, beq_iff_eq] at hrr2
            rw [hrr2.1.1.1.1.1.2, get_size_rootId hrr2.1.2]
            have h3 := hsn.2.2
            simp only [NTree.sizesOK, Bool.and_eq_true, beq_iff_eq] at h3
            exact NTree.szF_eq_cnt h3.1.2
          have hdown := @find_next_down_spec h (some i) _ _ _ _ _ hrr hsn.2.2
            f steps 0
            (by
              have e2 := NTree.cnt_node ri rd rsz rl rr
              omega)
            (by omega) (by simpa using hdesc)
          have hdisp : get_size h (h ri).left + 1 = 0 + rl.cnt + 1 := by
            rw [hgrl]
            omega
          rw [hdisp, hdown]
          rw [if_pos (by
            have e2 := NTree.cnt_node ri rd rsz rl rr
            omega)]
          have hget := plug_entries_get_right c i d sz l
            (NTree.node ri rd rsz rl rr) (m := steps - 1)
            (by have e2 := NTree.cnt_node ri rd rsz rl rr; omega)
          have harith : (Ctx.leftEntries c).length + l.cnt + steps =
              (Ctx.leftEntries c).length + l.cnt + 1 + (steps - 1) := by omega
          rw [harith]
          simp only [NTree.idsOf, List.get?_map]
          rw [hget]
          have h4 : steps - 1 - 0 = steps - 1 := by omega
          rw [h4]
      · rw [if_neg hdesc]
        rw [hgr] at hdesc
        cases c with
        | top =>
          have hpar : (h i).parent = none := hnode.1.1.1.1.1.1
          rw [hpar]
          rw [if_neg (by
            simp only [Ctx.leftEntries, List.length_nil, Ctx.plug] at *
            omega)]
        | inL j dj szj c2 rj =>
          have hpar : (h i).parent = some j := hnode.1.1.1.1.1.1
          simp only [hpar]
          have hcL := hdec.1
          simp only [Ctx.ctxOk, Bool.and_eq_true, beq_iff_eq] at hcL
          have hcond : (h j).left = some i := hcL.1.1.1.1.1.2
          rw [if_pos hcond]
          rw [hgr]
          have hres := @ih c2 j dj szj
            (NTree.node i d sz l r) rj hr hs hnd
            (steps - (r.cnt + 1))
            (by
              have hd : Ctx.depth (Ctx.inL j dj szj c2 rj) = Ctx.depth c2 + 1 := rfl
              have he2 : (Ctx.inL j dj szj c2 rj).plug (NTree.node i d sz l r) =
                  c2.plug (NTree.node j dj szj (NTree.node i d sz l r) rj) := rfl
              have hf2 := hf
              rw [hd, he2] at hf2
              omega)
          rw [hres]
          have hidx : (Ctx.leftEntries c2).length +
              (NTree.node i d sz l r).cnt + (steps - (r.cnt + 1)) =
              (Ctx.leftEntries (Ctx.inL j dj szj c2 rj)).length + l.cnt + steps := by
            have he : Ctx.leftEntries (Ctx.inL j dj szj c2 rj) =
              Ctx.leftEntries c2 := rfl
            rw [he]
            omega
          rw [hidx]
          rfl
        | inR j dj szj lj c2 =>
          have hpar : (h i).parent = some j := hnode.1.1.1.1.1.1
          simp only [hpar]
          have hcL := hdec.1
          simp only [Ctx.ctxOk, Bool.and_eq_true, beq_iff_eq] at hcL
          have hnotl : ¬ ((h j).left = some i) := by
            intro hcontr
            rw [hcL.1.1.1.1.1.2] at hcontr
            have hil : i ∈ NTree.idsOf lj := NTree.rootId_mem hcontr
            have his : i ∈ NTree.idsOf (NTree.node i d sz l r) := by
              simp [NTree.idsOf_node]
            have hnd2 : (NTree.idsOf (NTree.node j dj szj lj
                (NTree.node i d sz l r))).Nodup :=
              nodup_plug_sub (c := c2) hnd
            rw [NTree.idsOf_node] at hnd2
            have hd2 := (List.nodup_append.mp hnd2).2.2
            exact hd2 hil (by simp [his])
          rw [if_neg hnotl]
          rw [hgl]
          have hres := @ih c2 j dj szj
            lj (NTree.node i d sz l r) hr hs hnd
            (steps + l.cnt + 1)
            (by
              have hd : Ctx.depth (Ctx.inR j dj szj lj c2) = Ctx.depth c2 + 1 := rfl
              have he2 : (Ctx.inR j dj szj lj c2).plug (NTree.node i d sz l r) =
                  c2.plug (NTree.node j dj szj lj (NTree.node i d sz l r)) := rfl
              have hf2 := hf
              rw [hd, he2] at hf2
              omega)
          rw [hres]
          have hidx : (Ctx.leftEntries c2).length + lj.cnt +
              (steps + l.cnt + 1) =
              (Ctx.leftEntries (Ctx.inR j dj szj lj c2)).length + l.cnt + steps := by
            have he : (Ctx.leftEntries (Ctx.inR j dj szj lj c2)).length =
                (Ctx.leftEntries c2).length + lj.cnt + 1 := by
              simp only [Ctx.leftEntries, List.length_append, List.length_cons,
                List.length_nil]
              have h5 : (NTree.entries lj).length = lj.cnt := rfl
              omega
            omega
          rw [hidx]
          rfl

/-- The inner downward loop of `find_prev_node(n, steps)`: entered at
the root of a represented subtree whose entries are counted from the
right end with `displacement = cnt - index - base`, it lands on the
node at global step index `cnt - (steps - base)` of the subtree. -/
theorem find_prev_down_spec {h : Heap} {par : Option Nat} {n dn szn : Nat}
    {l r : NTree}
    (hr : reprB h par (NTree.node n dn szn l r) = true)
    (hs : NTree.sizesOK (NTree.node n dn szn l r) = true)
    {fuel steps base : Nat}
    (hf : NTree.cnt (NTree.node n dn szn l r) ≤ fuel)
    (hlo : base + 1 ≤ steps)
    (hhi : steps ≤ base + NTree.cnt (NTree.node n dn szn l r)) :
    find_prev_down h fuel n steps (base + NTree.cnt r + 1) =
      (NTree.node n dn szn l r).idsOf.get?
        (NTree.cnt (NTree.node n dn szn l r) - (steps - base)) := by
  induction fuel generalizing par n dn szn l r steps base with
  | zero => rw [NTree.cnt_node] at hf; omega
  | succ f ih =>
    simp only [reprB, Bool.and_eq_true, beq_iff_eq] at hr
    simp only [NTree.sizesOK, Bool.and_eq_true, beq_iff_eq] at hs
    rw [find_prev_down]
    rcases Nat.lt_trichotomy steps (base + NTree.cnt r + 1) with hc | hc | hc
    · -- descend right
      rw [if_neg (by omega), if_pos hc]
      have hrpos : 0 < r.cnt := by omega
      cases r with
      | nil => simp [NTree.cnt_nil] at hrpos
      | node ri rd rsz rl rr =>
        have hright : (h n).right = some ri := by
          have h2 := hr.1.1.1.1.2
          simpa [NTree.rootId] using h2
        simp only [hright]
        have hrr : reprB h (some n) (NTree.node ri rd rsz rl rr) = true := hr.2
        have hsr : NTree.sizesOK (NTree.node ri rd rsz rl rr) = true := hs.2
        have hszrl : get_size h (h ri).left = rl.cnt := by
          have hrr2 := hrr
          have hsr2 := hsr
          simp only [reprB, Bool.and_eq_true, beq_iff_eq] at hrr2
          simp only [NTree.sizesOK, Bool.and_eq_true, beq_iff_eq] at hsr2
          rw [hrr2.1.1.1.1.1.2, get_size_rootId hrr2.1.2]
          exact NTree.szF_eq_cnt hsr2.1.2
        have harith : base + NTree.cnt (NTree.node ri rd rsz rl rr) + 1 -
            (get_size h (h ri).left + 1) = base + rr.cnt + 1 := by
          rw [hszrl, NTree.cnt_node]
          omega
        rw [harith]
        have hres := @ih (some n) _ _ _ _ _ hrr hsr
          steps base
          (by
            have e1 := NTree.cnt_node n dn szn l (NTree.node ri rd rsz rl rr)
            have e2 := NTree.cnt_node ri rd rsz rl rr
            omega)
          hlo
          (by
            have e2 := NTree.cnt_node ri rd rsz rl rr
            omega)
        rw [hres]
        rw [NTree.idsOf_node n dn szn l (NTree.node ri rd rsz rl rr)]
        rw [List.get?_append_right (by
          rw [NTree.length_idsOf]
          have e1 := NTree.cnt_node n dn szn l (NTree.node ri rd rsz rl rr)
          have e2 := NTree.cnt_node ri rd rsz rl rr
          omega)]
        rw [NTree.length_idsOf]
        have h1 : NTree.cnt (NTree.node n dn szn l (NTree.node ri rd rsz rl rr)) -
            (steps - base) - l.cnt =
            (NTree.cnt (NTree.node ri rd rsz rl rr) - (steps - base)) + 1 := by
          have e1 := NTree.cnt_node n dn szn l (NTree.node ri rd rsz rl rr)
          have e2 := NTree.cnt_node ri rd rsz rl rr
          omega
        rw [h1]
        rfl
    · -- found
      rw [if_neg (by omega), if_neg (by omega)]
      rw [NTree.idsOf_node]
      rw [List.get?_append_right (by
        rw [NTree.length_idsOf]
        have e1 := NTree.cnt_node n dn szn l r
        omega)]
      rw [NTree.length_idsOf]
      have h1 : NTree.cnt (NTree.node n dn szn l r) - (steps - base) - l.cnt = 0 := by
        have e1 := NTree.cnt_node n dn szn l r
        omega
      rw [h1]
      rfl
    · -- descend left
      rw [if_pos hc]
      have hlpos : 0 < l.cnt := by rw [NTree.cnt_node] at hhi; omega
      cases l with
      | nil => simp [NTree.cnt_nil] at hlpos
      | node li ld lsz ll lr =>
        have hleft : (h n).left = some li := by
          have h2 := hr.1.1.1.1.1.2
          simpa [NTree.rootId] using h2
        simp only [hleft]
        have hrl : reprB h (some n) (NTree.node li ld lsz ll lr) = true := hr.1.2
        have hsl : NTree.sizesOK (NTree.node li ld lsz ll lr) = true := hs.1.2
        have hszlr : get_size h (h li).right = lr.cnt := by
          have hrl2 := hrl
          have hsl2 := hsl
          simp only [reprB, Bool.and_eq_true, beq_iff_eq] at hrl2
          simp only [NTree.sizesOK, Bool.and_eq_true, beq_iff_eq] at hsl2
          rw [hrl2.1.1.1.1.2, get_size_rootId hrl2.2]
          exact NTree.szF_eq_cnt hsl2.2
        rw [hszlr]
        have hres := @ih (some n) _ _ _ _ _ hrl hsl
          steps (base + NTree.cnt r + 1)
          (by
            have e1 := NTree.cnt_node n dn szn (NTree.node li ld lsz ll lr) r
            have e2 := NTree.cnt_node li ld lsz ll lr
            omega)
          (by omega)
          (by
            have e1 := NTree.cnt_node n dn szn (NTree.node li ld lsz ll lr) r
            omega)
        rw [hres]
        rw [NTree.idsOf_node n dn szn (NTree.node li ld lsz ll lr) r]
        rw [List.get?_append (by
          rw [NTree.length_idsOf]
          have e1 := NTree.cnt_node n dn szn (NTree.node li ld lsz ll lr) r
          have e2 := NTree.cnt_node li ld lsz ll lr
          omega)]
        have h1 : NTree.cnt (NTree.node n dn szn (NTree.node li ld lsz ll lr) r) -
            (steps - base) =
            NTree.cnt (NTree.node li ld lsz ll lr) -
              (steps - (base + NTree.cnt r + 1)) := by
          have e1 := NTree.cnt_node n dn szn (NTree.node li ld lsz ll lr) r
          have e2 := NTree.cnt_node li ld lsz ll lr
          omega
        rw [h1]

/-- `find_prev_node(n, steps)`: from the node at ordinal
`leftEntries(c).length + cnt l`, reach the node `steps` positions
earlier in the in-order sequence, or the absent node when that
undershoots. -/
theorem find_prev_steps_spec {h : Heap} {c : Ctx} {i d sz : Nat} {l r : NTree}
    (hr : reprB h none (Ctx.plug c (NTree.node i d sz l r)) = true)
    (hs : (Ctx.plug c (NTree.node i d sz l r)).sizesOK = true)
    (hnd : (Ctx.plug c (NTree.node i d sz l r)).idsOf.Nodup)
    {fuel steps : Nat}
    (hf : Ctx.depth c + (Ctx.plug c (NTree.node i d sz l r)).cnt + 1 ≤ fuel) :
    find_prev_node_steps h fuel i steps =
      (if steps ≤ (Ctx.leftEntries c).length + l.cnt then
        (Ctx.plug c (NTree.node i d sz l r)).idsOf.get?
          ((Ctx.leftEntries c).length + l.cnt - steps)
      else none) := by
  induction fuel generalizing c i d sz l r steps with
  | zero => omega
  | succ f ih =>
    have hcp := cnt_plug c (NTree.node i d sz l r)
    have hcn := NTree.cnt_node i d sz l r
    have hdec := hr
    rw [Ctx.reprB_plug, Bool.and_eq_true] at hdec
    have hnode := hdec.2
    simp only [reprB, Bool.and_eq_true, beq_iff_eq] at hnode
    have hsdec := hs
    rw [Ctx.sizesOK_plug, Bool.and_eq_true] at hsdec
    have hsn : (NTree.szF l = NTree.cnt l ∧ NTree.szF r = NTree.cnt r) ∧
        NTree.sizesOK l = true ∧ NTree.sizesOK r = true := by
      have h2 := hsdec.2
      simp only [NTree.sizesOK, Bool.and_eq_true, beq_iff_eq] at h2
      exact ⟨⟨NTree.szF_eq_cnt h2.1.2, NTree.szF_eq_cnt h2.2⟩, h2.1.2, h2.2⟩
    have hgr : get_size h (h i).right = r.cnt := by
      rw [hnode.1.1.1.1.2, get_size_rootId hnode.2, hsn.1.2]
    have hgl : get_size h (h i).left = l.cnt := by
      rw [hnode.1.1.1.1.1.2, get_size_rootId hnode.1.2, hsn.1.1]
    rw [find_prev_node_steps]
    by_cases h0 : steps = 0
    · subst h0
      rw [if_pos rfl, if_pos (Nat.zero_le _)]
      have hc1 := plug_entries_get_center c i d sz l r
      rw [NTree.idsOf, List.get?_map, Nat.sub_zero, hc1]
      rfl
    · rw [if_neg h0]
      by_cases hdesc : steps ≤ get_size h (h i).left
      · rw [if_pos hdesc]
        rw [hgl] at hdesc
        have hlpos : 0 < l.cnt := by omega
        cases l with
        | nil => simp [NTree.cnt_nil] at hlpos
        | node li ld lsz ll lr =>
          have hleft : (h i).left = some li := by
            have h2 := hnode.1.1.1.1.1.2
            simpa [NTree.rootId] using h2
          simp only [hleft]
          have hrl : reprB h (some i) (NTree.node li ld lsz ll lr) = true :=
            hnode.1.2
          have hglr : get_size h (h li).right = lr.cnt := by
            have hrl2 := hrl
            simp only [reprB, Bool.and_eq_true, beq_iff_eq] at hrl2
            rw [hrl2.1.1.1.1.2, get_size_rootId hrl2.2]
            have h3 := hsn.2.1
            simp only [NTree.sizesOK, Bool.and_eq_true, beq_iff_eq] at h3
            exact NTree.szF_eq_cnt h3.2
          have hdown := @find_prev_down_spec h (some i) _ _ _ _ _ hrl hsn.2.1
            f steps 0
            (by
              have e2 := NTree.cnt_node li ld lsz ll lr
              omega)
            (by omega) (by simpa using hdesc)
          have hdisp : get_size h (h li).right + 1 = 0 + lr.cnt + 1 := by
            rw [hglr]
            omega
          rw [hdisp, hdown]
          rw [if_pos (by omega)]
          have hget := plug_entries_get_left c i d sz
            (NTree.node li ld lsz ll lr) r (m := NTree.cnt (NTree.node li ld lsz ll lr) - steps)
            (by omega)
          have harith : (Ctx.leftEntries c).length +
              NTree.cnt (NTree.node li ld lsz ll lr) - steps =
              (Ctx.leftEntries c).length +
                (NTree.cnt (NTree.node li ld lsz ll lr) - steps) := by omega
          rw [harith]
          simp only [NTree.idsOf, List.get?_map]
          rw [hget]
          have h4 : NTree.cnt (NTree.node li ld lsz ll lr) - (steps - 0) =
              NTree.cnt (NTree.node li ld lsz ll lr) - steps := by omega
          rw [h4]
      · rw [if_neg hdesc]
        rw [hgl] at hdesc
        cases c with
        | top =>
          have hpar : (h i).parent = none := hnode.1.1.1.1.1.1
          rw [hpar]
          rw [if_neg (by
            simp only [Ctx.leftEntries, List.length_nil, Ctx.plug] at *
            omega)]
        | inL j dj szj c2 rj =>
          have hpar : (h i).parent = some j := hnode.1.1.1.1.1.1
          simp only [hpar]
          have hcL := hdec.1
          simp only [Ctx.ctxOk, Bool.and_eq_true, beq_iff_eq] at hcL
          have hcond : (h j).left = some i := hcL.1.1.1.1.1.2
          rw [if_pos hcond]
          rw [hgr]
          have hres := @ih c2 j dj szj
            (NTree.node i d sz l r) rj hr hs hnd
            (steps + r.cnt + 1)
            (by
              have hd : Ctx.depth (Ctx.inL j dj szj c2 rj) = Ctx.depth c2 + 1 := rfl
              have he2 : (Ctx.inL j dj szj c2 rj).plug (NTree.node i d sz l r) =
                  c2.plug (NTree.node j dj szj (NTree.node i d sz l r) rj) := rfl
              have hf2 := hf
              rw [hd, he2] at hf2
              omega)
          rw [hres]
          have he : Ctx.leftEntries (Ctx.inL j dj szj c2 rj) =
              Ctx.leftEntries c2 := rfl
          rw [he]
          refine if_congr ?_ ?_ rfl
          · omega
          · have hidx : (Ctx.leftEntries c2).length +
                (NTree.node i d sz l r).cnt - (steps + r.cnt + 1) =
                (Ctx.leftEntries c2).length + l.cnt - steps := by omega
            rw [hidx]
            rfl
        | inR j dj szj lj c2 =>
          have hpar : (h i).parent = some j := hnode.1.1.1.1.1.1
          simp only [hpar]
          have hcL := hdec.1
          simp only [Ctx.ctxOk, Bool.and_eq_true, beq_iff_eq] at hcL
          have hnotl : ¬ ((h j).left = some i) := by
            intro hcontr
            rw [hcL.1.1.1.1.1.2] at hcontr
            have hil : i ∈ NTree.idsOf lj := NTree.rootId_mem hcontr
            have his : i ∈ NTree.idsOf (NTree.node i d sz l r) := by
              simp [NTree.idsOf_node]
            have hnd2 : (NTree.idsOf (NTree.node j dj szj lj
                (NTree.node i d sz l r))).Nodup :=
              nodup_plug_sub (c := c2) hnd
            rw [NTree.idsOf_node] at hnd2
            have hd2 := (List.nodup_append.mp hnd2).2.2
            exact hd2 hil (by simp [his])
          rw [if_neg hnotl]
          rw [hgl]
          have hres := @ih c2 j dj szj
            lj (NTree.node i d sz l r) hr hs hnd
            (steps - (l.cnt + 1))
            (by
              have hd : Ctx.depth (Ctx.inR j dj szj lj c2) = Ctx.depth c2 + 1 := rfl
              have he2 : (Ctx.inR j dj szj lj c2).plug (NTree.node i d sz l r) =
                  c2.plug (NTree.node j dj szj lj (NTree.node i d sz l r)) := rfl
              have hf2 := hf
              rw [hd, he2] at hf2
              omega)
          rw [hres]
          have he : (Ctx.leftEntries (Ctx.inR j dj szj lj c2)).length =
              (Ctx.leftEntries c2).length + lj.cnt + 1 := by
            simp only [Ctx.leftEntries, List.length_append, List.length_cons,
              List.length_nil]
            have h5 : (NTree.entries lj).length = lj.cnt := rfl
            omega
          refine if_congr ?_ ?_ rfl
          · rw [he]
            omega
          · have hidx : (Ctx.leftEntries c2).length + lj.cnt -
                (steps - (l.cnt + 1)) =
                (Ctx.leftEntries (Ctx.inR j dj szj lj c2)).length + l.cnt - steps := by
              rw [he]
              omega
            rw [hidx]
            rfl

/-- C10: on a tree with correct sizes and distinct ids (`Inv`), for
the node `n` at ordinal `i` and any step count `s`,
`find_next_node(n, s)` returns the node at ordinal `i + s` when
`i + s < size` and the absent node otherwise; symmetrically
`find_prev_node(n, s)` returns the node at ordinal `i - s` when
`s ≤ i` and the absent node otherwise.  The allotted fuel
(`2 · (nextId + 1)`, an upper bound on the climb plus the descent)
is never exhausted: the walks stop exactly at these results. -/
theorem c10_find_next_prev_steps {t : Tree} {T : NTree} (hInv : Inv t T)
    {i n : Nat} (hn : T.idsOf.get? i = some n) (s : Nat) :
    find_next_node_steps t.heap (t.fuel + t.fuel) n s =
      (if i + s < t.size then T.idsOf.get? (i + s) else none) ∧
    find_prev_node_steps t.heap (t.fuel + t.fuel) n s =
      (if s ≤ i then T.idsOf.get? (i - s) else none) := by
  have hi : i < T.cnt := by
    by_contra hcon
    push_neg at hcon
    rw [List.get?_eq_none.mpr (by rw [NTree.length_idsOf]; omega)] at hn
    exact Option.noConfusion hn
  obtain ⟨c, i0, d, sz, l, r, hT, hlen, hgetE⟩ := locate_index hi
  have hid : T.idsOf.get? i = some i0 := by
    rw [NTree.idsOf, List.get?_map, hgetE]
    rfl
  have hn0 : n = i0 := Option.some.inj (hn.symm.trans hid)
  subst hn0
  have hsize := size_eq_cnt hInv
  have hrepr2 := hInv.hrepr
  have hsz2 := hInv.hsz
  have hnd2 := hInv.hnd
  rw [hT] at hrepr2 hsz2 hnd2
  have hfuel : Ctx.depth c + (Ctx.plug c (NTree.node n d sz l r)).cnt + 1 ≤
      t.fuel + t.fuel := by
    have hd := depth_cnt_le c (NTree.node n d sz l r)
    have hc := cnt_le_nextId hInv
    rw [hT] at hc
    have hcn := NTree.cnt_node n d sz l r
    show _ ≤ (t.nextId + 1) + (t.nextId + 1)
    omega
  constructor
  · rw [find_next_steps_spec hrepr2 hsz2 hnd2 hfuel]
    rw [hlen, hsize, hT]
  · rw [find_prev_steps_spec hrepr2 hsz2 hnd2 hfuel]
    rw [hlen, hT]

/-- Witness for C10 on the concrete three-node tree: from the node at
ordinal `0` (id `1`), two steps forward reach ordinal `2` and one step
backward overshoots to the absent node. -/
theorem c10_witness :
    wNT.idsOf.get? 0 = some 1 ∧
    find_next_node_steps wTree.heap (wTree.fuel + wTree.fuel) 1 2 =
      (if 0 + 2 < wTree.size then wNT.idsOf.get? (0 + 2) else none) ∧
    find_prev_node_steps wTree.heap (wTree.fuel + wTree.fuel) 1 1 =
      (if 1 ≤ 0 then wNT.idsOf.get? (0 - 1) else none) :=
  ⟨by decide,
   (c10_find_next_prev_steps (i := 0) (n := 1) wInv (by decide) 2).1,
   (c10_find_next_prev_steps (i := 0) (n := 1) wInv (by decide) 1).2⟩


theorem bump_leftEntries (c : Ctx) :
    (Ctx.bump c).leftEntries = c.leftEntries := by
  induction c with
  | top => rfl
  | inL i d sz c r ih => simp [Ctx.bump, Ctx.leftEntries, ih]
  | inR i d sz l c ih => simp [Ctx.bump, Ctx.leftEntries, ih]

theorem bump_rightEntries (c : Ctx) :
    (Ctx.bump c).rightEntries = c.rightEntries := by
  induction c with
  | top => rfl
  | inL i d sz c r ih => simp [Ctx.bump, Ctx.rightEntries, ih]
  | inR i d sz l c ih => simp [Ctx.bump, Ctx.rightEntries, ih]

theorem bump_ctxIds (c : Ctx) : (Ctx.bump c).ctxIds = c.ctxIds := by
  induction c with
  | top => rfl
  | inL i d sz c r ih => simp [Ctx.bump, Ctx.ctxIds, ih]
  | inR i d sz l c ih => simp [Ctx.bump, Ctx.ctxIds, ih]

theorem bump_ctxSizesOK {c : Ctx} {hs : Nat}
    (h : Ctx.ctxSizesOK c hs = true) :
    Ctx.ctxSizesOK (Ctx.bump c) (hs + 1) = true := by
  induction c generalizing hs with
  | top => rfl
  | inL i d sz c r ih =>
    simp only [Ctx.ctxSizesOK, Bool.and_eq_true, beq_iff_eq] at h
    simp only [Ctx.bump, Ctx.ctxSizesOK, Bool.and_eq_true, beq_iff_eq]
    exact ⟨⟨by omega, h.1.2⟩, ih h.2⟩
  | inR i d sz l c ih =>
    simp only [Ctx.ctxSizesOK, Bool.and_eq_true, beq_iff_eq] at h
    simp only [Ctx.bump, Ctx.ctxSizesOK, Bool.and_eq_true, beq_iff_eq]
    exact ⟨⟨by omega, h.1.2⟩, ih h.2⟩

theorem allInL_leftEntries {c : Ctx} (h : Ctx.allInL c = true) :
    c.leftEntries = [] := by
  induction c with
  | top => rfl
  | inL i d sz c r ih => exact ih h
  | inR i d sz l c ih => simp [Ctx.allInL] at h

theorem allInR_rightEntries {c : Ctx} (h : Ctx.allInR c = true) :
    c.rightEntries = [] := by
  induction c with
  | top => rfl
  | inL i d sz c r ih => simp [Ctx.allInR] at h
  | inR i d sz l c ih => exact ih h

theorem bump_allInL {c : Ctx} (h : Ctx.allInL c = true) :
    Ctx.allInL (Ctx.bump c) = true := by
  induction c with
  | top => rfl
  | inL i d sz c r ih => exact ih h
  | inR i d sz l c ih => simp [Ctx.allInL] at h

theorem bump_allInR {c : Ctx} (h : Ctx.allInR c = true) :
    Ctx.allInR (Ctx.bump c) = true := by
  induction c with
  | top => rfl
  | inL i d sz c r ih => simp [Ctx.allInR] at h
  | inR i d sz l c ih => exact ih h

theorem allInL_comp {c₁ c₂ : Ctx} (h1 : Ctx.allInL c₁ = true)
    (h2 : Ctx.allInL c₂ = true) : Ctx.allInL (Ctx.comp c₁ c₂) = true := by
  induction c₂ with
  | top => exact h1
  | inL i d sz c r ih => exact ih h2
  | inR i d sz l c ih => simp [Ctx.allInL] at h2

theorem allInR_comp {c₁ c₂ : Ctx} (h1 : Ctx.allInR c₁ = true)
    (h2 : Ctx.allInR c₂ = true) : Ctx.allInR (Ctx.comp c₁ c₂) = true := by
  induction c₂ with
  | top => exact h1
  | inL i d sz c r ih => simp [Ctx.allInR] at h2
  | inR i d sz l c ih => exact ih h2

theorem rootId_plug_congr {Y Z : NTree} (h : Y.rootId = Z.rootId) (c : Ctx) :
    (Ctx.plug c Y).rootId = (Ctx.plug c Z).rootId := by
  induction c generalizing Y Z with
  | top => exact h
  | inL i d sz c r ih => exact ih rfl
  | inR i d sz l c ih => exact ih rfl

theorem rootId_plug_bump (c : Ctx) (X : NTree) :
    (Ctx.plug (Ctx.bump c) X).rootId = (Ctx.plug c X).rootId := by
  induction c generalizing X with
  | top => rfl
  | inL i d sz c r ih =>
    show (Ctx.plug (Ctx.bump c) (NTree.node i d (sz + 1) X r)).rootId =
      (Ctx.plug c (NTree.node i d sz X r)).rootId
    rw [ih]
    exact rootId_plug_congr (Y := NTree.node i d (sz + 1) X r)
      (Z := NTree.node i d sz X r) rfl c
  | inR i d sz l c ih =>
    show (Ctx.plug (Ctx.bump c) (NTree.node i d (sz + 1) l X)).rootId =
      (Ctx.plug c (NTree.node i d sz l X)).rootId
    rw [ih]
    exact rootId_plug_congr (Y := NTree.node i d (sz + 1) l X)
      (Z := NTree.node i d sz l X) rfl c

theorem leftmost_plug_allInL {c : Ctx} (h : Ctx.allInL c = true)
    (f df s : Nat) (l rf : NTree) :
    (Ctx.plug c (NTree.node f df s l rf)).leftmostId =
      (NTree.node f df s l rf).leftmostId := by
  induction c generalizing f df s l rf with
  | top => rfl
  | inL j dj szj c2 rj ih =>
    show (Ctx.plug c2 (NTree.node j dj szj (NTree.node f df s l rf) rj)).leftmostId = _
    rw [ih h]
    rfl
  | inR j dj szj lj c2 ih => simp [Ctx.allInL] at h

theorem rightmost_plug_allInR {c : Ctx} (h : Ctx.allInR c = true)
    (f df s : Nat) (lf r : NTree) :
    (Ctx.plug c (NTree.node f df s lf r)).rightmostId =
      (NTree.node f df s lf r).rightmostId := by
  induction c generalizing f df s lf r with
  | top => rfl
  | inL j dj szj c2 rj ih => simp [Ctx.allInR] at h
  | inR j dj szj lj c2 ih =>
    show (Ctx.plug c2 (NTree.node j dj szj lj (NTree.node f df s lf r))).rightmostId = _
    rw [ih h]
    rfl

theorem rightmostId_node_indep (f df s t1 : Nat) (l l2 rf : NTree) :
    (NTree.node f df s l rf).rightmostId = (NTree.node f df t1 l2 rf).rightmostId := by
  cases rf <;> rfl

theorem leftmostId_node_indep (f df s t1 : Nat) (lf r r2 : NTree) :
    (NTree.node f df s lf r).leftmostId = (NTree.node f df t1 lf r2).leftmostId := by
  cases lf <;> rfl

theorem rightmost_plug_bump {c : Ctx} (h : Ctx.allInL c = true)
    {f df s t1 : Nat} {l l2 rf : NTree} :
    (Ctx.plug (Ctx.bump c) (NTree.node f df t1 l2 rf)).rightmostId =
      (Ctx.plug c (NTree.node f df s l rf)).rightmostId := by
  induction c generalizing f df s t1 l l2 rf with
  | top => exact (rightmostId_node_indep f df t1 s l2 l rf)
  | inL j dj szj c2 rj ih =>
    show (Ctx.plug (Ctx.bump c2)
        (NTree.node j dj (szj + 1) (NTree.node f df t1 l2 rf) rj)).rightmostId =
      (Ctx.plug c2 (NTree.node j dj szj (NTree.node f df s l rf) rj)).rightmostId
    exact ih h
  | inR j dj szj lj c2 ih => simp [Ctx.allInL] at h

theorem leftmost_plug_bump {c : Ctx} (h : Ctx.allInR c = true)
    {f df s t1 : Nat} {lf r r2 : NTree} :
    (Ctx.plug (Ctx.bump c) (NTree.node f df t1 lf r2)).leftmostId =
      (Ctx.plug c (NTree.node f df s lf r)).leftmostId := by
  induction c generalizing f df s t1 lf r r2 with
  | top => exact (leftmostId_node_indep f df t1 s lf r2 r)
  | inL j dj szj c2 rj ih => simp [Ctx.allInR] at h
  | inR j dj szj lj c2 ih =>
    show (Ctx.plug (Ctx.bump c2)
        (NTree.node j dj (szj + 1) lj (NTree.node f df t1 lf r2))).leftmostId =
      (Ctx.plug c2 (NTree.node j dj szj lj (NTree.node f df s lf r))).leftmostId
    exact ih h

theorem idsOf_plug_sz (c : Ctx) (j dj s1 s2 : Nat) (A B : NTree) :
    (Ctx.plug c (NTree.node j dj s1 A B)).idsOf =
      (Ctx.plug c (NTree.node j dj s2 A B)).idsOf := by
  simp [Ctx.idsOf_plug, NTree.idsOf_node]

theorem locate_leftmost (i d sz : Nat) (l r : NTree) :
    ∃ c f df szf rf, NTree.node i d sz l r =
        Ctx.plug c (NTree.node f df szf NTree.nil rf) ∧
      Ctx.allInL c = true := by
  induction l generalizing i d sz r with
  | nil => exact ⟨Ctx.top, i, d, sz, r, rfl, rfl⟩
  | node i1 d1 sz1 l1 r1 ih =>
    obtain ⟨c, f, df, szf, rf, hpl, hall⟩ := ih i1 d1 sz1 r1
    refine ⟨Ctx.comp (Ctx.inL i d sz Ctx.top r) c, f, df, szf, rf, ?_, ?_⟩
    · rw [Ctx.plug_comp, ← hpl]
      rfl
    · exact allInL_comp rfl hall

theorem locate_rightmost (i d sz : Nat) (l r : NTree) :
    ∃ c f df szf lf, NTree.node i d sz l r =
        Ctx.plug c (NTree.node f df szf lf NTree.nil) ∧
      Ctx.allInR c = true := by
  induction r generalizing i d sz l with
  | nil => exact ⟨Ctx.top, i, d, sz, l, rfl, rfl⟩
  | node i1 d1 sz1 l1 r1 ihl ihr =>
    obtain ⟨c, f, df, szf, lf, hpl, hall⟩ := ihr i1 d1 sz1 l1
    refine ⟨Ctx.comp (Ctx.inR i d sz l Ctx.top) c, f, df, szf, lf, ?_, ?_⟩
    · rw [Ctx.plug_comp, ← hpl]
      rfl
    · exact allInR_comp rfl hall

theorem ctx_sep {c : Ctx} {j dj szj : Nat} {A B : NTree}
    (hnd : (Ctx.plug c (NTree.node j dj szj A B)).idsOf.Nodup) :
    ¬ j ∈ A.idsOf ∧ ¬ j ∈ B.idsOf ∧ ¬ j ∈ Ctx.ctxIds c := by
  rw [Ctx.idsOf_plug, NTree.idsOf_node] at hnd
  obtain ⟨h12, hR, hdis⟩ := List.nodup_append.mp hnd
  obtain ⟨hL, hM, hdis2⟩ := List.nodup_append.mp h12
  obtain ⟨hA, hJB, hdis3⟩ := List.nodup_append.mp hM
  have hjB : ¬ j ∈ B.idsOf := (List.nodup_cons.mp hJB).1
  have hjA : ¬ j ∈ A.idsOf := fun hja => hdis3 hja (by simp)
  have hjM : j ∈ A.idsOf ++ j :: B.idsOf := by simp
  have hjL : ¬ j ∈ (Ctx.leftEntries c).map Prod.fst := fun hjl => hdis2 hjl hjM
  have hjR : ¬ j ∈ (Ctx.rightEntries c).map Prod.fst :=
    fun hjr => hdis (List.mem_append.mpr (Or.inr hjM)) hjr
  refine ⟨hjA, hjB, ?_⟩
  rw [Ctx.mem_ctxIds]
  rintro (hc | hc)
  · exact hjL hc
  · exact hjR hc

theorem reprB_setSize_hole {h : Heap} {c : Ctx} {j dj szj sznew : Nat}
    {A B : NTree}
    (hrep : reprB h none (Ctx.plug c (NTree.node j dj szj A B)) = true)
    (hnd : (Ctx.plug c (NTree.node j dj szj A B)).idsOf.Nodup) :
    reprB (setSize h j sznew) none
      (Ctx.plug c (NTree.node j dj sznew A B)) = true := by
  obtain ⟨hjA, hjB, hjc⟩ := ctx_sep hnd
  rw [Ctx.reprB_plug, Bool.and_eq_true] at hrep
  obtain ⟨hctx, hnode⟩ := hrep
  simp only [reprB, Bool.and_eq_true, beq_iff_eq] at hnode
  rw [Ctx.reprB_plug, Bool.and_eq_true]
  have hne : ∀ k, k ≠ j → (setSize h j sznew) k = h k := by
    intro k hk
    exact hset_ne h j _ hk
  have hj : (setSize h j sznew) j = { h j with size := sznew } :=
    hset_self h j _
  constructor
  · rw [ctxOk_frame (fun k hk => hne k (fun he => hjc (he ▸ hk)))]
    exact hctx
  · simp only [reprB, Bool.and_eq_true, beq_iff_eq]
    refine ⟨⟨⟨⟨⟨⟨?_, ?_⟩, ?_⟩, ?_⟩, ?_⟩, ?_⟩, ?_⟩
    · rw [hj]
      exact hnode.1.1.1.1.1.1
    · rw [hj]
      exact hnode.1.1.1.1.1.2
    · rw [hj]
      exact hnode.1.1.1.1.2
    · rw [hj]
    · rw [hj]
      exact hnode.1.1.2
    · rw [reprB_frame (fun k hk => hne k (fun he => hjA (he ▸ hk)))]
      exact hnode.1.2
    · rw [reprB_frame (fun k hk => hne k (fun he => hjB (he ▸ hk)))]
      exact hnode.2

/-- The upward size-refresh loop after one node is inserted below the
hole: every ancestor recomputes to its old size plus one, so the walk
reaches the root and the final heap stores the bumped context. Nodes
outside the context frames are untouched. -/
theorem usw_loop_spec {h : Heap} {c : Ctx} {i d sz : Nat} {l r : NTree}
    (hrep : reprB h none (Ctx.plug c (NTree.node i d sz l r)) = true)
    (hsub : NTree.sizesOK (NTree.node i d sz l r) = true)
    (hstale : Ctx.ctxSizesOK c (sz - 1) = true)
    (hnd : (Ctx.plug c (NTree.node i d sz l r)).idsOf.Nodup)
    {fuel : Nat} (hf : Ctx.depth c + 1 ≤ fuel) :
    reprB (update_sizes_upwards_loop h i fuel).1 none
      (Ctx.plug (Ctx.bump c) (NTree.node i d sz l r)) = true ∧
    ∀ k, ¬ k ∈ Ctx.ctxIds c →
      (update_sizes_upwards_loop h i fuel).1 k = h k := by
  induction c generalizing h i d sz l r fuel with
  | top =>
    cases fuel with
    | zero => omega
    | succ fu =>
      have h2 : reprB h none (NTree.node i d sz l r) = true := hrep
      simp only [reprB, Bool.and_eq_true, beq_iff_eq] at h2
      have hpar : (h i).parent = none := h2.1.1.1.1.1.1
      have hloop : update_sizes_upwards_loop h i (fu + 1) = (h, some i) := by
        rw [update_sizes_upwards_loop]
        simp only [hpar]
      rw [hloop]
      exact ⟨hrep, fun k _ => rfl⟩
  | inL j dj szj c2 rj ih =>
    cases fuel with
    | zero => simp only [Ctx.depth] at hf; omega
    | succ fu =>
      have hrep2 := hrep
      rw [Ctx.reprB_plug, Bool.and_eq_true] at hrep2
      obtain ⟨hctx, hnodeSub⟩ := hrep2
      simp only [Ctx.ctxOk, Bool.and_eq_true, beq_iff_eq] at hctx
      simp only [reprB, Bool.and_eq_true, beq_iff_eq] at hnodeSub
      have hpar : (h i).parent = some j := hnodeSub.1.1.1.1.1.1
      have hleft : (h j).left = some i := hctx.1.1.1.1.1.2
      have hright : (h j).right = NTree.rootId rj := hctx.1.1.1.1.2
      have hsizej : (h j).size = szj := hctx.1.1.1.2
      have hgl : get_size h (h j).left = sz := by
        rw [hleft]
        exact hnodeSub.1.1.1.2
      have hgr : get_size h (h j).right = NTree.szF rj := by
        rw [hright, get_size_rootId hctx.1.2]
      simp only [Ctx.ctxSizesOK, Bool.and_eq_true, beq_iff_eq] at hstale
      have hsz1 : 1 ≤ sz := by
        simp only [NTree.sizesOK, Bool.and_eq_true, beq_iff_eq] at hsub
        omega
      have hup : update_size h j = (setSize h j (szj + 1), true) := by
        have hraw : update_size h j =
            if (1 + get_size h (h j).left + get_size h (h j).right) ≠ (h j).size
            then (setSize h j
                (1 + get_size h (h j).left + get_size h (h j).right), true)
            else (h, false) := rfl
        rw [hraw, hgl, hgr, hsizej]
        have hval : 1 + sz + NTree.szF rj = szj + 1 := by omega
        rw [hval, if_pos (by omega)]
      have hloop : update_sizes_upwards_loop h i (fu + 1) =
          update_sizes_upwards_loop (setSize h j (szj + 1)) j fu := by
        rw [update_sizes_upwards_loop]
        simp only [hpar, hup]
      have hrep' : reprB (setSize h j (szj + 1)) none
          (Ctx.plug c2 (NTree.node j dj (szj + 1)
            (NTree.node i d sz l r) rj)) = true :=
        reprB_setSize_hole (c := c2) (j := j)
          (A := NTree.node i d sz l r) (B := rj) hrep hnd
      have hsub' : NTree.sizesOK
          (NTree.node j dj (szj + 1) (NTree.node i d sz l r) rj) = true := by
        show ((szj + 1 == 1 + NTree.szF (NTree.node i d sz l r) + NTree.szF rj) &&
          NTree.sizesOK (NTree.node i d sz l r) && NTree.sizesOK rj) = true
        rw [Bool.and_eq_true, Bool.and_eq_true]
        refine ⟨⟨?_, hsub⟩, hstale.1.2⟩
        rw [beq_iff_eq]
        show szj + 1 = 1 + sz + NTree.szF rj
        omega
      have hnd' : (Ctx.plug c2 (NTree.node j dj (szj + 1)
          (NTree.node i d sz l r) rj)).idsOf.Nodup := by
        rw [idsOf_plug_sz c2 j dj (szj + 1) szj (NTree.node i d sz l r) rj]
        exact hnd
      have hres := @ih (setSize h j (szj + 1)) j dj
        (szj + 1) (NTree.node i d sz l r) rj
        hrep' hsub' hstale.2 hnd'
        fu (by simp only [Ctx.depth] at hf; omega)
      constructor
      · rw [hloop]
        exact hres.1
      · intro k hk
        have hk2 : ¬ k ∈ Ctx.ctxIds c2 ∧ k ≠ j := by
          constructor
          · intro hin
            exact hk (by simp [Ctx.ctxIds, hin])
          · intro he
            exact hk (by simp [Ctx.ctxIds, he])
        rw [hloop, hres.2 k hk2.1]
        exact hset_ne h j _ hk2.2
  | inR j dj szj lj c2 ih =>
    cases fuel with
    | zero => simp only [Ctx.depth] at hf; omega
    | succ fu =>
      have hrep2 := hrep
      rw [Ctx.reprB_plug, Bool.and_eq_true] at hrep2
      obtain ⟨hctx, hnodeSub⟩ := hrep2
      simp only [Ctx.ctxOk, Bool.and_eq_true, beq_iff_eq] at hctx
      simp only [reprB, Bool.and_eq_true, beq_iff_eq] at hnodeSub
      have hpar : (h i).parent = some j := hnodeSub.1.1.1.1.1.1
      have hleft : (h j).left = NTree.rootId lj := hctx.1.1.1.1.1.2
      have hright : (h j).right = some i := hctx.1.1.1.1.2
      have hsizej : (h j).size = szj := hctx.1.1.1.2
      have hgr : get_size h (h j).right = sz := by
        rw [hright]
        exact hnodeSub.1.1.1.2
      have hgl : get_size h (h j).left = NTree.szF lj := by
        rw [hleft, get_size_rootId hctx.1.2]
      simp only [Ctx.ctxSizesOK, Bool.and_eq_true, beq_iff_eq] at hstale
      have hsz1 : 1 ≤ sz := by
        simp only [NTree.sizesOK, Bool.and_eq_true, beq_iff_eq] at hsub
        omega
      have hup : update_size h j = (setSize h j (szj + 1), true) := by
        have hraw : update_size h j =
            if (1 + get_size h (h j).left + get_size h (h j).right) ≠ (h j).size
            then (setSize h j
                (1 + get_size h (h j).left + get_size h (h j).right), true)
            else (h, false) := rfl
        rw [hraw, hgl, hgr, hsizej]
        have hval : 1 + NTree.szF lj + sz = szj + 1 := by omega
        rw [hval, if_pos (by omega)]
      have hloop : update_sizes_upwards_loop h i (fu + 1) =
          update_sizes_upwards_loop (setSize h j (szj + 1)) j fu := by
        rw [update_sizes_upwards_loop]
        simp only [hpar, hup]
      have hrep' : reprB (setSize h j (szj + 1)) none
          (Ctx.plug c2 (NTree.node j dj (szj + 1) lj
            (NTree.node i d sz l r))) = true :=
        reprB_setSize_hole (c := c2) (j := j)
          (A := lj) (B := NTree.node i d sz l r) hrep hnd
      have hsub' : NTree.sizesOK
          (NTree.node j dj (szj + 1) lj (NTree.node i d sz l r)) = true := by
        show ((szj + 1 == 1 + NTree.szF lj + NTree.szF (NTree.node i d sz l r)) &&
          NTree.sizesOK lj && NTree.sizesOK (NTree.node i d sz l r)) = true
        rw [Bool.and_eq_true, Bool.and_eq_true]
        refine ⟨⟨?_, hstale.1.2⟩, hsub⟩
        rw [beq_iff_eq]
        show szj + 1 = 1 + NTree.szF lj + sz
        omega
      have hnd' : (Ctx.plug c2 (NTree.node j dj (szj + 1) lj
          (NTree.node i d sz l r))).idsOf.Nodup := by
        rw [idsOf_plug_sz c2 j dj (szj + 1) szj lj (NTree.node i d sz l r)]
        exact hnd
      have hres := @ih (setSize h j (szj + 1)) j dj
        (szj + 1) lj (NTree.node i d sz l r)
        hrep' hsub' hstale.2 hnd'
        fu (by simp only [Ctx.depth] at hf; omega)
      constructor
      · rw [hloop]
        exact hres.1
      · intro k hk
        have hk2 : ¬ k ∈ Ctx.ctxIds c2 ∧ k ≠ j := by
          constructor
          · intro hin
            exact hk (by simp [Ctx.ctxIds, hin])
          · intro he
            exact hk (by simp [Ctx.ctxIds, he])
        rw [hloop, hres.2 k hk2.1]
        exact hset_ne h j _ hk2.2

theorem idsOf_plug_bump (c : Ctx) (X : NTree) :
    (Ctx.plug (Ctx.bump c) X).idsOf = (Ctx.plug c X).idsOf := by
  simp [Ctx.idsOf_plug, bump_leftEntries, bump_rightEntries]

theorem entries_plug_bump (c : Ctx) (X : NTree) :
    (Ctx.plug (Ctx.bump c) X).entries = (Ctx.plug c X).entries := by
  simp [Ctx.entries_plug, bump_leftEntries, bump_rightEntries]

theorem emplace_eq (tt : Tree) (pos : InsertPosition) (v : Nat) :
    Tree.emplace tt pos v =
      (match Tree.link { tt with
          heap := hset tt.heap tt.nextId ⟨none, none, none, 1, v⟩,
          nextId := tt.nextId + 1 } pos tt.nextId with
        | some t2 => some (t2, tt.nextId)
        | none => none) := rfl

theorem link_front_eq (tt : Tree) (ff nn i00 : Nat)
    (hrt : tt.root = some i00) (hfs : tt.first = some ff) :
    Tree.link tt ⟨some ff, true⟩ nn =
      some { tt with
        heap := (update_sizes_upwards
          (setParent (setLeft tt.heap ff (some nn)) nn (some ff)) ff tt.fuel).1,
        first := find_first_node (update_sizes_upwards
          (setParent (setLeft tt.heap ff (some nn)) nn (some ff)) ff tt.fuel).1
          tt.fuel nn } := by
  rw [Tree.link]
  simp only [hrt, node_link, hfs]
  rw [show update_sizes_upwards
      (setParent (setLeft tt.heap ff (some nn)) nn (some ff)) ff tt.fuel =
      ((update_sizes_upwards
        (setParent (setLeft tt.heap ff (some nn)) nn (some ff)) ff tt.fuel).1,
       (update_sizes_upwards
        (setParent (setLeft tt.heap ff (some nn)) nn (some ff)) ff tt.fuel).2)
    from (Prod.mk.eta).symm]
  simp only [eq_self_iff_true, true_and, and_true, if_true, and_self]

theorem link_back_eq (tt : Tree) (ll nn i00 : Nat)
    (hrt : tt.root = some i00) (hls : tt.last = some ll) :
    Tree.link tt ⟨some ll, false⟩ nn =
      some { tt with
        heap := (update_sizes_upwards
          (setParent (setRight tt.heap ll (some nn)) nn (some ll)) ll tt.fuel).1,
        last := find_last_node (update_sizes_upwards
          (setParent (setRight tt.heap ll (some nn)) nn (some ll)) ll tt.fuel).1
          tt.fuel nn } := by
  rw [Tree.link]
  simp only [hrt, node_link, hls]
  rw [show update_sizes_upwards
      (setParent (setRight tt.heap ll (some nn)) nn (some ll)) ll tt.fuel =
      ((update_sizes_upwards
        (setParent (setRight tt.heap ll (some nn)) nn (some ll)) ll tt.fuel).1,
       (update_sizes_upwards
        (setParent (setRight tt.heap ll (some nn)) nn (some ll)) ll tt.fuel).2)
    from (Prod.mk.eta).symm]
  simp only [eq_self_iff_true, true_and, and_true, if_true, and_self,
    Bool.false_eq_true, false_and, if_false]
  rfl

theorem link_empty_eq (tt : Tree) (pos : InsertPosition) (nn : Nat)
    (hrt : tt.root = none) :
    Tree.link tt pos nn =
      some { tt with
        root := some nn,
        first := find_first_node tt.heap tt.fuel nn,
        last := find_last_node tt.heap tt.fuel nn } := by
  rw [Tree.link]
  simp only [hrt]

theorem setLeft_self (h : Heap) (i : Nat) (x : Option Nat) :
    (setLeft h i x) i = { h i with left := x } := hset_self h i _

theorem setLeft_ne (h : Heap) (i : Nat) (x : Option Nat) {j : Nat}
    (hj : j ≠ i) : (setLeft h i x) j = h j := hset_ne h i _ hj

theorem setRight_self (h : Heap) (i : Nat) (x : Option Nat) :
    (setRight h i x) i = { h i with right := x } := hset_self h i _

theorem setRight_ne (h : Heap) (i : Nat) (x : Option Nat) {j : Nat}
    (hj : j ≠ i) : (setRight h i x) j = h j := hset_ne h i _ hj

theorem setParent_self (h : Heap) (i : Nat) (x : Option Nat) :
    (setParent h i x) i = { h i with parent := x } := hset_self h i _

theorem setParent_ne (h : Heap) (i : Nat) (x : Option Nat) {j : Nat}
    (hj : j ≠ i) : (setParent h i x) j = h j := hset_ne h i _ hj

theorem setSize_self (h : Heap) (i : Nat) (x : Nat) :
    (setSize h i x) i = { h i with size := x } := hset_self h i _

theorem setSize_ne (h : Heap) (i : Nat) (x : Nat) {j : Nat}
    (hj : j ≠ i) : (setSize h i x) j = h j := hset_ne h i _ hj

/-- `BasicTreeImpl::emplace_front` on a non-empty tree: the fresh node
is linked into the left slot of `first`, sizes refresh up the leftmost
path, and the resulting tree represents the old sequence with the new
entry prepended. -/
theorem basic_emplace_front_spec {t : Tree} {T : NTree} (hInv : Inv t T)
    {i0 d0 sz0 : Nat} {l0 r0 : NTree} (hT : T = NTree.node i0 d0 sz0 l0 r0)
    (v : Nat) :
    ∃ t2 T2, Basic.emplace_front t v = some (t2, t.nextId) ∧ Inv t2 T2 ∧
      T2.entries = (t.nextId, v) :: T.entries := by
  obtain ⟨c, f, df, szf, rf, hdec, hall⟩ := locate_leftmost i0 d0 sz0 l0 r0
  have hTd : T = Ctx.plug c (NTree.node f df szf NTree.nil rf) := hT.trans hdec
  have hfirst : t.first = some f := by
    rw [hInv.hfirst, hTd, leftmost_plug_allInL hall]
    rfl
  have hroot : t.root = some i0 := by
    rw [hInv.hroot, hT]
    rfl
  have hbT : ∀ j ∈ (Ctx.plug c (NTree.node f df szf NTree.nil rf)).idsOf,
      j < t.nextId := by
    rw [← hTd]
    exact hInv.hbound
  have hndT : (Ctx.plug c (NTree.node f df szf NTree.nil rf)).idsOf.Nodup := by
    rw [← hTd]
    exact hInv.hnd
  have hszT : NTree.sizesOK (Ctx.plug c (NTree.node f df szf NTree.nil rf)) = true := by
    rw [← hTd]
    exact hInv.hsz
  have hrepT : reprB t.heap none (Ctx.plug c (NTree.node f df szf NTree.nil rf)) = true := by
    rw [← hTd]
    exact hInv.hrepr
  rw [Ctx.sizesOK_plug, Bool.and_eq_true] at hszT
  obtain ⟨hctxsz, hholes⟩ := hszT
  have hszf : szf = 1 + NTree.szF rf := by
    simp only [NTree.sizesOK, Bool.and_eq_true, beq_iff_eq] at hholes
    exact hholes.1.1
  have hsizOKrf : NTree.sizesOK rf = true := by
    simp only [NTree.sizesOK, Bool.and_eq_true, beq_iff_eq] at hholes
    exact hholes.2
  have hfmem : f ∈ (Ctx.plug c (NTree.node f df szf NTree.nil rf)).idsOf := by
    rw [Ctx.idsOf_plug]
    simp [NTree.idsOf_node]
  have hflt : f < t.nextId := hbT f hfmem
  have hfne : f ≠ t.nextId := Nat.ne_of_lt hflt
  have hnef : t.nextId ≠ f := fun he => hfne he.symm
  have hsep := ctx_sep (c := c) (j := f)
    (A := NTree.nil) (B := rf) hndT
  set Sub := NTree.node t.nextId v 1 NTree.nil NTree.nil with hSubDef
  set H2 := setParent (setLeft (hset t.heap t.nextId ⟨none, none, none, 1, v⟩)
    f (some t.nextId)) t.nextId (some f) with hH2def
  have hH2n : H2 t.nextId = ⟨none, none, some f, 1, v⟩ := by
    rw [hH2def, setParent_self, setLeft_ne _ _ _ hnef, hset_self]
  have hH2f : H2 f = { t.heap f with left := some t.nextId } := by
    rw [hH2def, setParent_ne _ _ _ hfne, setLeft_self, hset_ne _ _ _ hfne]
  have hH2k : ∀ k, k ≠ t.nextId → k ≠ f → H2 k = t.heap k := by
    intro k h1 h2
    rw [hH2def, setParent_ne _ _ _ h1, setLeft_ne _ _ _ h2, hset_ne _ _ _ h1]
  -- decompose the original representation
  have hrepT2 := hrepT
  rw [Ctx.reprB_plug, Bool.and_eq_true] at hrepT2
  obtain ⟨hctx0, hhole0⟩ := hrepT2
  have hh0 := hhole0
  simp only [reprB, Bool.and_eq_true, beq_iff_eq, and_true, true_and,
    eq_self_iff_true] at hh0
  -- ids of context and rf are old, hence below nextId and distinct from f
  have hctxmem : ∀ k ∈ Ctx.ctxIds c,
      k ∈ (Ctx.plug c (NTree.node f df szf NTree.nil rf)).idsOf := by
    intro k hk
    rw [Ctx.idsOf_plug]
    rcases (Ctx.mem_ctxIds c).mp hk with h | h
    · simp [h]
    · simp [h]
  have hrfmem : ∀ k ∈ rf.idsOf,
      k ∈ (Ctx.plug c (NTree.node f df szf NTree.nil rf)).idsOf := by
    intro k hk
    rw [Ctx.idsOf_plug]
    simp [NTree.idsOf_node, hk]
  have hfnotrf : ¬ f ∈ rf.idsOf := by
    have hsub := nodup_plug_sub (c := c) hndT
    rw [NTree.idsOf_node, NTree.idsOf_nil] at hsub
    exact (List.nodup_cons.mp hsub).1
  -- representation after the two pointer writes
  have hrfH2 : reprB H2 (some f) rf = true := by
    rw [reprB_frame (fun k hk => hH2k k
      (Nat.ne_of_lt (hbT k (hrfmem k hk)))
      (fun he => hfnotrf (he ▸ hk)))]
    exact hh0.2
  have hrep2 : reprB H2 none
      (Ctx.plug c (NTree.node f df szf Sub rf)) = true := by
    rw [Ctx.reprB_plug, Bool.and_eq_true]
    constructor
    · rw [ctxOk_frame (fun k hk => hH2k k
        (Nat.ne_of_lt (hbT k (hctxmem k hk)))
        (fun he => hsep.2.2 (he ▸ hk)))]
      exact hctx0
    · show (((H2 f).parent == Ctx.holePar none c) &&
        ((H2 f).left == NTree.rootId Sub) &&
        ((H2 f).right == NTree.rootId rf) &&
        ((H2 f).size == szf) &&
        ((H2 f).data == df) &&
        reprB H2 (some f) Sub &&
        reprB H2 (some f) rf) = true
      rw [Bool.and_eq_true, Bool.and_eq_true, Bool.and_eq_true,
        Bool.and_eq_true, Bool.and_eq_true, Bool.and_eq_true]
      refine ⟨⟨⟨⟨⟨⟨?_, ?_⟩, ?_⟩, ?_⟩, ?_⟩, ?_⟩, hrfH2⟩
      · rw [beq_iff_eq, hH2f]
        exact hh0.1.1.1.1.1
      · rw [beq_iff_eq, hH2f]
        rfl
      · rw [beq_iff_eq, hH2f]
        exact hh0.1.1.1.2
      · rw [beq_iff_eq, hH2f]
        exact hh0.1.1.2
      · rw [beq_iff_eq, hH2f]
        exact hh0.1.2
      · simp [reprB, hH2n, hSubDef, NTree.rootId]
  -- the size refresh at `first`
  set H3 := setSize H2 f (szf + 1) with hH3def
  have e2 : update_size H2 f = (H3, true) := by
    have hraw : update_size H2 f =
        (if (1 + get_size H2 (H2 f).left + get_size H2 (H2 f).right) ≠ (H2 f).size
        then (setSize H2 f
            (1 + get_size H2 (H2 f).left + get_size H2 (H2 f).right), true)
        else (H2, false)) := rfl
    rw [hraw]
    have hl : get_size H2 (H2 f).left = 1 := by
      rw [hH2f]
      show (H2 t.nextId).size = 1
      rw [hH2n]
    have hr : get_size H2 (H2 f).right = NTree.szF rf := by
      rw [hH2f]
      show get_size H2 ((t.heap f).right) = NTree.szF rf
      rw [hh0.1.1.1.2]
      exact get_size_rootId hrfH2
    have hs : (H2 f).size = szf := by
      rw [hH2f]
      exact hh0.1.1.2
    rw [hl, hr, hs]
    have hval : 1 + 1 + NTree.szF rf = szf + 1 := by omega
    rw [hval, if_pos (by omega)]
  -- nodup with the fresh id inserted
  have hnd1 : (Ctx.plug c (NTree.node f df szf Sub rf)).idsOf.Nodup := by
    have hndT2 := hndT
    rw [Ctx.idsOf_plug, NTree.idsOf_node, NTree.idsOf_nil] at hndT2
    rw [hSubDef, Ctx.idsOf_plug, NTree.idsOf_node, NTree.idsOf_node,
      NTree.idsOf_nil]
    simp only [List.nil_append, List.cons_append, List.append_assoc] at hndT2 ⊢
    rw [List.nodup_middle, List.nodup_cons]
    refine ⟨?_, hndT2⟩
    intro hmem
    have hmem2 : t.nextId ∈
        (Ctx.plug c (NTree.node f df szf NTree.nil rf)).idsOf := by
      rw [Ctx.idsOf_plug, NTree.idsOf_node, NTree.idsOf_nil]
      simp only [List.nil_append, List.cons_append, List.append_assoc]
      exact hmem
    have hlt := hbT t.nextId hmem2
    omega
  have hnd2 : (Ctx.plug c (NTree.node f df (szf + 1) Sub rf)).idsOf.Nodup := by
    rw [idsOf_plug_sz c f df (szf + 1) szf Sub rf]
    exact hnd1
  have hrep3 : reprB H3 none
      (Ctx.plug c (NTree.node f df (szf + 1) Sub rf)) = true :=
    reprB_setSize_hole hrep2 hnd1
  have hsub2 : NTree.sizesOK (NTree.node f df (szf + 1) Sub rf) = true := by
    show ((szf + 1 == 1 + NTree.szF Sub + NTree.szF rf) &&
      NTree.sizesOK Sub && NTree.sizesOK rf) = true
    rw [Bool.and_eq_true, Bool.and_eq_true]
    have hsubOK : NTree.sizesOK Sub = true := by rw [hSubDef]; rfl
    refine ⟨⟨?_, hsubOK⟩, hsizOKrf⟩
    rw [beq_iff_eq, hSubDef]
    show szf + 1 = 1 + 1 + NTree.szF rf
    omega
  have hfuel : Ctx.depth c + 1 ≤ t.nextId + 1 + 1 := by
    have hd := depth_cnt_le c (NTree.node f df szf NTree.nil rf)
    have hcnt : (Ctx.plug c (NTree.node f df szf NTree.nil rf)).cnt ≤ t.nextId := by
      rw [← NTree.length_idsOf]
      exact nodup_len_le hndT hbT
    have hc1 := NTree.cnt_node f df szf NTree.nil rf
    omega
  have hspec := usw_loop_spec (c := c) (i := f) (d := df)
    (l := Sub) (r := rf)
    hrep3 hsub2 hctxsz hnd2 hfuel
  have husw : update_sizes_upwards H2 f (t.nextId + 1 + 1) =
      ((update_sizes_upwards_loop H3 f (t.nextId + 1 + 1)).1,
       (update_sizes_upwards_loop H3 f (t.nextId + 1 + 1)).2) := by
    rw [update_sizes_upwards]
    simp only [e2]
  have husw1 : (update_sizes_upwards H2 f (t.nextId + 1 + 1)).1 =
      (update_sizes_upwards_loop H3 f (t.nextId + 1 + 1)).1 := by
    rw [husw]
  -- the fresh node is untouched by the upward loop
  have hnotctx : ¬ t.nextId ∈ Ctx.ctxIds c := by
    intro hm
    have hlt := hbT t.nextId (hctxmem t.nextId hm)
    omega
  have hHFn : (update_sizes_upwards_loop H3 f (t.nextId + 1 + 1)).1 t.nextId =
      ⟨none, none, some f, 1, v⟩ := by
    rw [hspec.2 t.nextId hnotctx, hH3def, setSize_ne _ _ _ hnef, hH2n]
  have hff : find_first_node
      (update_sizes_upwards_loop H3 f (t.nextId + 1 + 1)).1
      (t.nextId + 1 + 1) t.nextId = some t.nextId := by
    rw [find_first_node]
    simp only [hHFn]
  -- run the program
  have hlink : Tree.link { t with
      heap := hset t.heap t.nextId ⟨none, none, none, 1, v⟩,
      nextId := t.nextId + 1 } ⟨some f, true⟩ t.nextId =
      some { t with
        heap := (update_sizes_upwards H2 f (t.nextId + 1 + 1)).1,
        first := find_first_node
          (update_sizes_upwards H2 f (t.nextId + 1 + 1)).1
          (t.nextId + 1 + 1) t.nextId,
        nextId := t.nextId + 1 } :=
    link_front_eq _ f t.nextId i0 hroot hfirst
  rw [husw1, hff] at hlink
  have hrun : Basic.emplace_front t v =
      some ({ t with
        heap := (update_sizes_upwards_loop H3 f (t.nextId + 1 + 1)).1,
        first := some t.nextId,
        nextId := t.nextId + 1 }, t.nextId) := by
    have e0 : Basic.emplace_front t v = Tree.emplace t ⟨some f, true⟩ v := by
      rw [Basic.emplace_front, hfirst]
      rfl
    rw [e0, emplace_eq, hlink]
  refine ⟨_, Ctx.plug (Ctx.bump c) (NTree.node f df (szf + 1) Sub rf),
    hrun, ?_, ?_⟩
  · refine ⟨?_, hspec.1, ?_, ?_, ?_, ?_, ?_⟩
    · show t.root = (Ctx.plug (Ctx.bump c)
        (NTree.node f df (szf + 1) Sub rf)).rootId
      rw [rootId_plug_bump]
      rw [rootId_plug_congr (Y := NTree.node f df (szf + 1) Sub rf)
        (Z := NTree.node f df szf NTree.nil rf) rfl c]
      rw [← hTd]
      exact hInv.hroot
    · rw [Ctx.sizesOK_plug, Bool.and_eq_true]
      exact ⟨bump_ctxSizesOK hctxsz, hsub2⟩
    · rw [idsOf_plug_bump]
      exact hnd2
    · intro k hk
      rw [idsOf_plug_bump, idsOf_plug_sz c f df (szf + 1) szf Sub rf] at hk
      show k < t.nextId + 1
      rw [hSubDef, Ctx.idsOf_plug, NTree.idsOf_node, NTree.idsOf_node,
        NTree.idsOf_nil] at hk
      simp only [List.nil_append, List.cons_append, List.append_assoc,
        List.mem_append, List.mem_cons] at hk
      have hmem : k = t.nextId ∨
          k ∈ (Ctx.plug c (NTree.node f df szf NTree.nil rf)).idsOf := by
        rw [Ctx.idsOf_plug, NTree.idsOf_node, NTree.idsOf_nil]
        simp only [List.nil_append, List.cons_append, List.append_assoc,
          List.mem_append, List.mem_cons]
        tauto
      rcases hmem with h | h
      · omega
      · have := hbT k h
        omega
    · show some t.nextId = (Ctx.plug (Ctx.bump c)
        (NTree.node f df (szf + 1) Sub rf)).leftmostId
      rw [leftmost_plug_allInL (bump_allInL hall)]
      rw [hSubDef]
      rfl
    · show t.last = (Ctx.plug (Ctx.bump c)
        (NTree.node f df (szf + 1) Sub rf)).rightmostId
      rw [rightmost_plug_bump hall (s := szf) (l := NTree.nil)]
      rw [← hTd]
      exact hInv.hlast
  · rw [entries_plug_bump, Ctx.entries_plug, hTd, Ctx.entries_plug,
      allInL_leftEntries hall, hSubDef]
    simp [NTree.entries]

theorem nodup_insert_fresh {l₁ l₂ : List Nat} {a : Nat}
    (h : (l₁ ++ l₂).Nodup) (ha : ¬ a ∈ l₁ ++ l₂) : (l₁ ++ a :: l₂).Nodup :=
  List.Perm.nodup (List.perm_middle.symm) (List.nodup_cons.mpr ⟨ha, h⟩)

/-- `BasicTreeImpl::emplace_back` on a non-empty tree: the fresh node
is linked into the right slot of `last`, sizes refresh up the
rightmost path, and the resulting tree represents the old sequence
with the new entry appended. -/
theorem basic_emplace_back_spec {t : Tree} {T : NTree} (hInv : Inv t T)
    {i0 d0 sz0 : Nat} {l0 r0 : NTree} (hT : T = NTree.node i0 d0 sz0 l0 r0)
    (v : Nat) :
    ∃ t2 T2, Basic.emplace_back t v = some (t2, t.nextId) ∧ Inv t2 T2 ∧
      T2.entries = T.entries ++ [(t.nextId, v)] := by
  obtain ⟨c, f, df, szf, lf, hdec, hall⟩ := locate_rightmost i0 d0 sz0 l0 r0
  have hTd : T = Ctx.plug c (NTree.node f df szf lf NTree.nil) := hT.trans hdec
  have hlast : t.last = some f := by
    rw [hInv.hlast, hTd, rightmost_plug_allInR hall]
    rfl
  have hroot : t.root = some i0 := by
    rw [hInv.hroot, hT]
    rfl
  have hbT : ∀ j ∈ (Ctx.plug c (NTree.node f df szf lf NTree.nil)).idsOf,
      j < t.nextId := by
    rw [← hTd]
    exact hInv.hbound
  have hndT : (Ctx.plug c (NTree.node f df szf lf NTree.nil)).idsOf.Nodup := by
    rw [← hTd]
    exact hInv.hnd
  have hszT : NTree.sizesOK (Ctx.plug c (NTree.node f df szf lf NTree.nil)) = true := by
    rw [← hTd]
    exact hInv.hsz
  have hrepT : reprB t.heap none (Ctx.plug c (NTree.node f df szf lf NTree.nil)) = true := by
    rw [← hTd]
    exact hInv.hrepr
  rw [Ctx.sizesOK_plug, Bool.and_eq_true] at hszT
  obtain ⟨hctxsz, hholes⟩ := hszT
  have hszf : szf = 1 + NTree.szF lf := by
    simp only [NTree.sizesOK, Bool.and_eq_true, beq_iff_eq] at hholes
    exact hholes.1.1
  have hsizOKlf : NTree.sizesOK lf = true := by
    simp only [NTree.sizesOK, Bool.and_eq_true, beq_iff_eq] at hholes
    exact hholes.1.2
  have hfmem : f ∈ (Ctx.plug c (NTree.node f df szf lf NTree.nil)).idsOf := by
    rw [Ctx.idsOf_plug]
    simp [NTree.idsOf_node]
  have hflt : f < t.nextId := hbT f hfmem
  have hfne : f ≠ t.nextId := Nat.ne_of_lt hflt
  have hnef : t.nextId ≠ f := fun he => hfne he.symm
  have hsep := ctx_sep (c := c) (j := f)
    (A := lf) (B := NTree.nil) hndT
  set Sub := NTree.node t.nextId v 1 NTree.nil NTree.nil with hSubDef
  set H2 := setParent (setRight (hset t.heap t.nextId ⟨none, none, none, 1, v⟩)
    f (some t.nextId)) t.nextId (some f) with hH2def
  have hH2n : H2 t.nextId = ⟨none, none, some f, 1, v⟩ := by
    rw [hH2def, setParent_self, setRight_ne _ _ _ hnef, hset_self]
  have hH2f : H2 f = { t.heap f with right := some t.nextId } := by
    rw [hH2def, setParent_ne _ _ _ hfne, setRight_self, hset_ne _ _ _ hfne]
  have hH2k : ∀ k, k ≠ t.nextId → k ≠ f → H2 k = t.heap k := by
    intro k h1 h2
    rw [hH2def, setParent_ne _ _ _ h1, setRight_ne _ _ _ h2, hset_ne _ _ _ h1]
  -- decompose the original representation
  have hrepT2 := hrepT
  rw [Ctx.reprB_plug, Bool.and_eq_true] at hrepT2
  obtain ⟨hctx0, hhole0⟩ := hrepT2
  have hh0 := hhole0
  simp only [reprB, Bool.and_eq_true, beq_iff_eq, and_true, true_and,
    eq_self_iff_true] at hh0
  have hctxmem : ∀ k ∈ Ctx.ctxIds c,
      k ∈ (Ctx.plug c (NTree.node f df szf lf NTree.nil)).idsOf := by
    intro k hk
    rw [Ctx.idsOf_plug]
    rcases (Ctx.mem_ctxIds c).mp hk with h | h
    · simp [h]
    · simp [h]
  have hlfmem : ∀ k ∈ lf.idsOf,
      k ∈ (Ctx.plug c (NTree.node f df szf lf NTree.nil)).idsOf := by
    intro k hk
    rw [Ctx.idsOf_plug]
    simp [NTree.idsOf_node, hk]
  have hfnotlf : ¬ f ∈ lf.idsOf := hsep.1
  -- representation after the two pointer writes
  have hlfH2 : reprB H2 (some f) lf = true := by
    rw [reprB_frame (fun k hk => hH2k k
      (Nat.ne_of_lt (hbT k (hlfmem k hk)))
      (fun he => hfnotlf (he ▸ hk)))]
    exact hh0.2
  have hrep2 : reprB H2 none
      (Ctx.plug c (NTree.node f df szf lf Sub)) = true := by
    rw [Ctx.reprB_plug, Bool.and_eq_true]
    constructor
    · rw [ctxOk_frame (fun k hk => hH2k k
        (Nat.ne_of_lt (hbT k (hctxmem k hk)))
        (fun he => hsep.2.2 (he ▸ hk)))]
      exact hctx0
    · show (((H2 f).parent == Ctx.holePar none c) &&
        ((H2 f).left == NTree.rootId lf) &&
        ((H2 f).right == NTree.rootId Sub) &&
        ((H2 f).size == szf) &&
        ((H2 f).data == df) &&
        reprB H2 (some f) lf &&
        reprB H2 (some f) Sub) = true
      rw [Bool.and_eq_true, Bool.and_eq_true, Bool.and_eq_true,
        Bool.and_eq_true, Bool.and_eq_true, Bool.and_eq_true]
      refine ⟨⟨⟨⟨⟨⟨?_, ?_⟩, ?_⟩, ?_⟩, ?_⟩, hlfH2⟩, ?_⟩
      · rw [beq_iff_eq, hH2f]
        exact hh0.1.1.1.1.1
      · rw [beq_iff_eq, hH2f]
        exact hh0.1.1.1.1.2
      · rw [beq_iff_eq, hH2f]
        rfl
      · rw [beq_iff_eq, hH2f]
        exact hh0.1.1.2
      · rw [beq_iff_eq, hH2f]
        exact hh0.1.2
      · simp [reprB, hH2n, hSubDef, NTree.rootId]
  -- the size refresh at `last`
  set H3 := setSize H2 f (szf + 1) with hH3def
  have e2 : update_size H2 f = (H3, true) := by
    have hraw : update_size H2 f =
        (if (1 + get_size H2 (H2 f).left + get_size H2 (H2 f).right) ≠ (H2 f).size
        then (setSize H2 f
            (1 + get_size H2 (H2 f).left + get_size H2 (H2 f).right), true)
        else (H2, false)) := rfl
    rw [hraw]
    have hl : get_size H2 (H2 f).left = NTree.szF lf := by
      rw [hH2f]
      show get_size H2 ((t.heap f).left) = NTree.szF lf
      rw [hh0.1.1.1.1.2]
      exact get_size_rootId hlfH2
    have hr : get_size H2 (H2 f).right = 1 := by
      rw [hH2f]
      show (H2 t.nextId).size = 1
      rw [hH2n]
    have hs : (H2 f).size = szf := by
      rw [hH2f]
      exact hh0.1.1.2
    rw [hl, hr, hs]
    have hval : 1 + NTree.szF lf + 1 = szf + 1 := by omega
    rw [hval, if_pos (by omega)]
  -- nodup with the fresh id inserted
  have hnd1 : (Ctx.plug c (NTree.node f df szf lf Sub)).idsOf.Nodup := by
    have hndT2 := hndT
    rw [Ctx.idsOf_plug, NTree.idsOf_node, NTree.idsOf_nil] at hndT2
    rw [hSubDef, Ctx.idsOf_plug, NTree.idsOf_node, NTree.idsOf_node,
      NTree.idsOf_nil]
    simp only [List.nil_append, List.cons_append, List.append_assoc,
      List.append_nil] at hndT2 ⊢
    have heq : (Ctx.leftEntries c).map Prod.fst ++
        (NTree.idsOf lf ++ f :: t.nextId :: (Ctx.rightEntries c).map Prod.fst) =
        ((Ctx.leftEntries c).map Prod.fst ++ (NTree.idsOf lf ++ [f])) ++
          t.nextId :: (Ctx.rightEntries c).map Prod.fst := by
      simp
    have heq2 : ((Ctx.leftEntries c).map Prod.fst ++ (NTree.idsOf lf ++ [f])) ++
        (Ctx.rightEntries c).map Prod.fst =
        (Ctx.leftEntries c).map Prod.fst ++
          (NTree.idsOf lf ++ f :: (Ctx.rightEntries c).map Prod.fst) := by
      simp
    rw [heq]
    refine nodup_insert_fresh (by rw [heq2]; exact hndT2) ?_
    intro hmem
    rw [heq2] at hmem
    have hmem2 : t.nextId ∈
        (Ctx.plug c (NTree.node f df szf lf NTree.nil)).idsOf := by
      rw [Ctx.idsOf_plug, NTree.idsOf_node, NTree.idsOf_nil]
      simp only [List.nil_append, List.cons_append, List.append_assoc,
        List.append_nil]
      exact hmem
    have hlt := hbT t.nextId hmem2
    omega
  have hnd2 : (Ctx.plug c (NTree.node f df (szf + 1) lf Sub)).idsOf.Nodup := by
    rw [idsOf_plug_sz c f df (szf + 1) szf lf Sub]
    exact hnd1
  have hrep3 : reprB H3 none
      (Ctx.plug c (NTree.node f df (szf + 1) lf Sub)) = true :=
    reprB_setSize_hole hrep2 hnd1
  have hsub2 : NTree.sizesOK (NTree.node f df (szf + 1) lf Sub) = true := by
    show ((szf + 1 == 1 + NTree.szF lf + NTree.szF Sub) &&
      NTree.sizesOK lf && NTree.sizesOK Sub) = true
    rw [Bool.and_eq_true, Bool.and_eq_true]
    have hsubOK : NTree.sizesOK Sub = true := by rw [hSubDef]; rfl
    refine ⟨⟨?_, hsizOKlf⟩, hsubOK⟩
    rw [beq_iff_eq, hSubDef]
    show szf + 1 = 1 + NTree.szF lf + 1
    omega
  have hfuel : Ctx.depth c + 1 ≤ t.nextId + 1 + 1 := by
    have hd := depth_cnt_le c (NTree.node f df szf lf NTree.nil)
    have hcnt : (Ctx.plug c (NTree.node f df szf lf NTree.nil)).cnt ≤ t.nextId := by
      rw [← NTree.length_idsOf]
      exact nodup_len_le hndT hbT
    have hc1 := NTree.cnt_node f df szf lf NTree.nil
    omega
  have hspec := usw_loop_spec (c := c) (i := f) (d := df)
    (l := lf) (r := Sub)
    hrep3 hsub2 hctxsz hnd2 hfuel
  have husw : update_sizes_upwards H2 f (t.nextId + 1 + 1) =
      ((update_sizes_upwards_loop H3 f (t.nextId + 1 + 1)).1,
       (update_sizes_upwards_loop H3 f (t.nextId + 1 + 1)).2) := by
    rw [update_sizes_upwards]
    simp only [e2]
  have husw1 : (update_sizes_upwards H2 f (t.nextId + 1 + 1)).1 =
      (update_sizes_upwards_loop H3 f (t.nextId + 1 + 1)).1 := by
    rw [husw]
  have hnotctx : ¬ t.nextId ∈ Ctx.ctxIds c := by
    intro hm
    have hlt := hbT t.nextId (hctxmem t.nextId hm)
    omega
  have hHFn : (update_sizes_upwards_loop H3 f (t.nextId + 1 + 1)).1 t.nextId =
      ⟨none, none, some f, 1, v⟩ := by
    rw [hspec.2 t.nextId hnotctx, hH3def, setSize_ne _ _ _ hnef, hH2n]
  have hff : find_last_node
      (update_sizes_upwards_loop H3 f (t.nextId + 1 + 1)).1
      (t.nextId + 1 + 1) t.nextId = some t.nextId := by
    rw [find_last_node]
    simp only [hHFn]
  -- run the program
  have hlink : Tree.link { t with
      heap := hset t.heap t.nextId ⟨none, none, none, 1, v⟩,
      nextId := t.nextId + 1 } ⟨some f, false⟩ t.nextId =
      some { t with
        heap := (update_sizes_upwards H2 f (t.nextId + 1 + 1)).1,
        last := find_last_node
          (update_sizes_upwards H2 f (t.nextId + 1 + 1)).1
          (t.nextId + 1 + 1) t.nextId,
        nextId := t.nextId + 1 } :=
    link_back_eq _ f t.nextId i0 hroot hlast
  rw [husw1, hff] at hlink
  have hrun : Basic.emplace_back t v =
      some ({ t with
        heap := (update_sizes_upwards_loop H3 f (t.nextId + 1 + 1)).1,
        last := some t.nextId,
        nextId := t.nextId + 1 }, t.nextId) := by
    have e0 : Basic.emplace_back t v = Tree.emplace t ⟨some f, false⟩ v := by
      rw [Basic.emplace_back, hlast]
      rfl
    rw [e0, emplace_eq, hlink]
  refine ⟨_, Ctx.plug (Ctx.bump c) (NTree.node f df (szf + 1) lf Sub),
    hrun, ?_, ?_⟩
  · refine ⟨?_, hspec.1, ?_, ?_, ?_, ?_, ?_⟩
    · show t.root = (Ctx.plug (Ctx.bump c)
        (NTree.node f df (szf + 1) lf Sub)).rootId
      rw [rootId_plug_bump]
      rw [rootId_plug_congr (Y := NTree.node f df (szf + 1) lf Sub)
        (Z := NTree.node f df szf lf NTree.nil) rfl c]
      rw [← hTd]
      exact hInv.hroot
    · rw [Ctx.sizesOK_plug, Bool.and_eq_true]
      exact ⟨bump_ctxSizesOK hctxsz, hsub2⟩
    · rw [idsOf_plug_bump]
      exact hnd2
    · intro k hk
      rw [idsOf_plug_bump, idsOf_plug_sz c f df (szf + 1) szf lf Sub] at hk
      show k < t.nextId + 1
      rw [hSubDef, Ctx.idsOf_plug, NTree.idsOf_node, NTree.idsOf_node,
        NTree.idsOf_nil] at hk
      simp only [List.nil_append, List.cons_append, List.append_assoc,
        List.append_nil, List.mem_append, List.mem_cons] at hk
      have hmem : k = t.nextId ∨
          k ∈ (Ctx.plug c (NTree.node f df szf lf NTree.nil)).idsOf := by
        rw [Ctx.idsOf_plug, NTree.idsOf_node, NTree.idsOf_nil]
        simp only [List.nil_append, List.cons_append, List.append_assoc,
          List.append_nil, List.mem_append, List.mem_cons]
        tauto
      rcases hmem with h | h
      · omega
      · have := hbT k h
        omega
    · show t.first = (Ctx.plug (Ctx.bump c)
        (NTree.node f df (szf + 1) lf Sub)).leftmostId
      rw [leftmost_plug_bump hall (s := szf) (r := NTree.nil)]
      rw [← hTd]
      exact hInv.hfirst
    · show some t.nextId = (Ctx.plug (Ctx.bump c)
        (NTree.node f df (szf + 1) lf Sub)).rightmostId
      rw [rightmost_plug_allInR (bump_allInR hall)]
      rw [hSubDef]
      rfl
  · rw [entries_plug_bump, Ctx.entries_plug, hTd, Ctx.entries_plug,
      allInR_rightEntries hall, hSubDef]
    simp [NTree.entries]

/-- `emplace` at the default (root) position on an empty tree creates
the root node. -/
theorem emplace_empty_spec {t : Tree} (hInv : Inv t NTree.nil) (v : Nat) :
    ∃ t2, Tree.emplace t {} v = some (t2, t.nextId) ∧
      Inv t2 (NTree.node t.nextId v 1 NTree.nil NTree.nil) := by
  have hroot : t.root = none := by
    rw [hInv.hroot]
    rfl
  have hcn : (hset t.heap t.nextId ⟨none, none, none, 1, v⟩) t.nextId =
      ⟨none, none, none, 1, v⟩ := hset_self _ _ _
  have hf1 : find_first_node (hset t.heap t.nextId ⟨none, none, none, 1, v⟩)
      (t.nextId + 1 + 1) t.nextId = some t.nextId := by
    rw [find_first_node]
    simp only [hcn]
  have hl1 : find_last_node (hset t.heap t.nextId ⟨none, none, none, 1, v⟩)
      (t.nextId + 1 + 1) t.nextId = some t.nextId := by
    rw [find_last_node]
    simp only [hcn]
  have hlink : Tree.link { t with
      heap := hset t.heap t.nextId ⟨none, none, none, 1, v⟩,
      nextId := t.nextId + 1 } {} t.nextId =
      some { t with
        heap := hset t.heap t.nextId ⟨none, none, none, 1, v⟩,
        root := some t.nextId,
        first := find_first_node (hset t.heap t.nextId ⟨none, none, none, 1, v⟩)
          (t.nextId + 1 + 1) t.nextId,
        last := find_last_node (hset t.heap t.nextId ⟨none, none, none, 1, v⟩)
          (t.nextId + 1 + 1) t.nextId,
        nextId := t.nextId + 1 } :=
    link_empty_eq _ {} t.nextId hroot
  rw [hf1, hl1] at hlink
  refine ⟨{ t with
      heap := hset t.heap t.nextId ⟨none, none, none, 1, v⟩,
      root := some t.nextId,
      first := some t.nextId,
      last := some t.nextId,
      nextId := t.nextId + 1 }, ?_, ?_⟩
  · rw [emplace_eq, hlink]
  · refine ⟨rfl, ?_, rfl, ?_, ?_, rfl, rfl⟩
    · simp [reprB, hcn, NTree.rootId]
    · simp [NTree.idsOf, NTree.entries]
    · intro k hk
      simp [NTree.idsOf, NTree.entries] at hk
      show k < t.nextId + 1
      omega

theorem eInv : Inv eTree NTree.nil := by
  refine ⟨rfl, rfl, rfl, List.nodup_nil, ?_, rfl, rfl⟩
  intro j hj
  simp [NTree.idsOf, NTree.entries] at hj

/-- C9: the baseline strategy's `emplace_front`/`emplace_back` need a
non-empty tree: on an empty tree they dereference the absent `first`
(resp. `last`) handle (modelled as the absent result), while the splay
strategy creates a root node holding the value.  On a non-empty tree
the basic strategy links the new node at `first`'s left slot (resp.
`last`'s right slot), giving the new element ordinal `0` (resp.
`size - 1`, i.e. appended) with all previous elements in their old
relative order, and the invariant holds afterwards. -/
theorem c9_emplace_front_back {t : Tree} {T : NTree} (hInv : Inv t T) (v : Nat) :
    (T = NTree.nil →
      Basic.emplace_front t v = none ∧ Basic.emplace_back t v = none ∧
      (∃ t2, Splay.emplace_front t v = some (t2, t.nextId) ∧
        Inv t2 (NTree.node t.nextId v 1 NTree.nil NTree.nil)) ∧
      (∃ t2, Splay.emplace_back t v = some (t2, t.nextId) ∧
        Inv t2 (NTree.node t.nextId v 1 NTree.nil NTree.nil))) ∧
    (∀ i0 d0 sz0 l0 r0, T = NTree.node i0 d0 sz0 l0 r0 →
      (∃ t2 T2, Basic.emplace_front t v = some (t2, t.nextId) ∧ Inv t2 T2 ∧
        T2.entries = (t.nextId, v) :: T.entries) ∧
      (∃ t2 T2, Basic.emplace_back t v = some (t2, t.nextId) ∧ Inv t2 T2 ∧
        T2.entries = T.entries ++ [(t.nextId, v)])) := by
  constructor
  · intro hTn
    subst hTn
    have hfirstnone : t.first = none := by
      rw [hInv.hfirst]
      rfl
    have hlastnone : t.last = none := by
      rw [hInv.hlast]
      rfl
    have hempty : t.isEmpty = true := by
      have hroot : t.root = none := by
        rw [hInv.hroot]
        rfl
      simp [Tree.isEmpty, hroot]
    obtain ⟨t2, he, hi⟩ := emplace_empty_spec hInv v
    refine ⟨?_, ?_, ⟨t2, ?_, hi⟩, ⟨t2, ?_, hi⟩⟩
    · rw [Basic.emplace_front, hfirstnone]
    · rw [Basic.emplace_back, hlastnone]
    · rw [Splay.emplace_front, if_pos hempty]
      exact he
    · rw [Splay.emplace_back, if_pos hempty]
      exact he
  · intro i0 d0 sz0 l0 r0 hTeq
    exact ⟨basic_emplace_front_spec hInv hTeq v,
      basic_emplace_back_spec hInv hTeq v⟩

/-- Witness for C9: on the empty tree the basic `emplace_front` yields
the absent result while the splay one creates the root; on the
three-node tree the basic `emplace_front` prepends. -/
theorem c9_witness :
    Basic.emplace_front eTree 5 = none ∧
    (∃ t2, Splay.emplace_front eTree 5 = some (t2, eTree.nextId) ∧
      Inv t2 (NTree.node eTree.nextId 5 1 NTree.nil NTree.nil)) ∧
    (∃ t2 T2, Basic.emplace_front wTree 7 = some (t2, wTree.nextId) ∧
      Inv t2 T2 ∧ T2.entries = (wTree.nextId, 7) :: wNT.entries) :=
  ⟨((c9_emplace_front_back eInv 5).1 rfl).1,
   ((c9_emplace_front_back eInv 5).1 rfl).2.2.1,
   ((c9_emplace_front_back wInv 7).2 0 20 3
     (NTree.node 1 10 1 NTree.nil NTree.nil)
     (NTree.node 2 30 1 NTree.nil NTree.nil) rfl).1⟩


theorem ancestors_congr {h h2 : Heap}
    (hp : ∀ m, (h2 m).parent = (h m).parent) :
    ∀ fuel n, ancestors h2 fuel n = ancestors h fuel n := by
  intro fuel
  induction fuel with
  | zero => intro n; rfl
  | succ fu ih =>
    intro n
    rw [ancestors, ancestors, hp n]
    cases (h n).parent with
    | none => rfl
    | some p => simp [ih p]

theorem ancestors_congr2 {h h2 : Heap} {bad : Nat}
    (hp : ∀ m, m ≠ bad → (h2 m).parent = (h m).parent) :
    ∀ fuel n, ¬ bad ∈ ancestors h fuel n → n ≠ bad →
      ancestors h2 fuel n = ancestors h fuel n := by
  intro fuel
  induction fuel with
  | zero => intro n _ _; rfl
  | succ fu ih =>
    intro n hb hn
    rw [ancestors, ancestors, hp n hn]
    cases hq : (h n).parent with
    | none => rfl
    | some q =>
      rw [ancestors, hq] at hb
      simp only [List.mem_cons] at hb
      push_neg at hb
      simp [ih q hb.2 (fun he => hb.1 he.symm)]

theorem update_size_cases (h : Heap) (p : Nat) :
    update_size h p = (setSize h p
      (1 + get_size h (h p).left + get_size h (h p).right), true) ∨
    update_size h p = (h, false) := by
  have hraw : update_size h p =
      (if (1 + get_size h (h p).left + get_size h (h p).right) ≠ (h p).size
      then (setSize h p
          (1 + get_size h (h p).left + get_size h (h p).right), true)
      else (h, false)) := rfl
  by_cases hc : (1 + get_size h (h p).left + get_size h (h p).right) ≠ (h p).size
  · left
    rw [hraw, if_pos hc]
  · right
    rw [hraw, if_neg hc]

theorem setSize_parent (h : Heap) (j x : Nat) :
    ∀ m, ((setSize h j x) m).parent = (h m).parent := by
  intro m
  by_cases hm : m = j
  · subst hm
    rw [setSize_self]
  · rw [setSize_ne _ _ _ hm]

theorem usw_loop_frame : ∀ (fuel : Nat) (h : Heap) (p k : Nat),
    ¬ k ∈ ancestors h fuel p →
    (update_sizes_upwards_loop h p fuel).1 k = h k := by
  intro fuel
  induction fuel with
  | zero => intro h p k _; rfl
  | succ fu ih =>
    intro h p k hk
    rw [update_sizes_upwards_loop]
    cases hq : (h p).parent with
    | none => rfl
    | some q =>
      simp only [hq]
      rw [ancestors, hq] at hk
      simp only [List.mem_cons] at hk
      push_neg at hk
      rcases update_size_cases h q with he | he
      · simp only [he]
        rw [ih (setSize h q _) q k ?_]
        · exact setSize_ne _ _ _ hk.1
        · rw [ancestors_congr (setSize_parent h q _) fu q]
          exact hk.2
      · simp only [he]
  -- the failed-update branch returns the heap unchanged

theorem usw_frame {h : Heap} {p fuel k : Nat}
    (hk1 : k ≠ p) (hk2 : ¬ k ∈ ancestors h fuel p) :
    (update_sizes_upwards h p fuel).1 k = h k := by
  rw [update_sizes_upwards]
  rcases update_size_cases h p with he | he
  · simp only [he]
    rw [usw_loop_frame fuel (setSize h p _) p k ?_]
    · exact setSize_ne _ _ _ hk1
    · rw [ancestors_congr (setSize_parent h p _) fuel p]
      exact hk2
  · simp only [he]

theorem hole_ctx_disjoint {c : Ctx} {s : NTree}
    (hnd : (Ctx.plug c s).idsOf.Nodup) :
    ∀ k ∈ s.idsOf, ¬ k ∈ Ctx.ctxIds c := by
  intro k hk hkc
  rw [Ctx.idsOf_plug] at hnd
  obtain ⟨h12, hR, hdis⟩ := List.nodup_append.mp hnd
  obtain ⟨hL, hM, hdis2⟩ := List.nodup_append.mp h12
  rcases (Ctx.mem_ctxIds c).mp hkc with h | h
  · exact hdis2 h hk
  · exact hdis (List.mem_append.mpr (Or.inr hk)) h

theorem ancestors_frames : ∀ {c : Ctx} {h : Heap} {x : Option Nat} {j : Nat},
    Ctx.ctxOk h none c x = true → Ctx.holePar none c = some j →
    ∀ fuel, ∀ k, k ∈ ancestors h fuel j → k ∈ Ctx.ctxIds c := by
  intro c
  induction c with
  | top =>
    intro h x j _ hj
    exact Option.noConfusion hj
  | inL j' dj szj c2 rj ih =>
    intro h x j hctx hj fuel k hk
    have hjj : j = j' := (Option.some.inj hj).symm
    subst hjj
    simp only [Ctx.ctxOk, Bool.and_eq_true, beq_iff_eq] at hctx
    have hp := hctx.1.1.1.1.1.1
    cases fuel with
    | zero => simp [ancestors] at hk
    | succ fu =>
      rw [ancestors, hp] at hk
      cases c2 with
      | top => simp [Ctx.holePar] at hk
      | inL q dq szq c3 rq =>
        have hq : Ctx.holePar none (Ctx.inL q dq szq c3 rq) = some q := rfl
        rw [hq] at hk
        simp only [List.mem_cons] at hk
        have hin : k ∈ Ctx.ctxIds (Ctx.inL q dq szq c3 rq) := by
          rcases hk with he | hm
          · subst he
            simp [Ctx.ctxIds]
          · exact ih hctx.2 hq fu k hm
        simp only [Ctx.ctxIds, List.mem_cons, List.mem_append] at hin ⊢
        tauto
      | inR q dq szq lq c3 =>
        have hq : Ctx.holePar none (Ctx.inR q dq szq lq c3) = some q := rfl
        rw [hq] at hk
        simp only [List.mem_cons] at hk
        have hin : k ∈ Ctx.ctxIds (Ctx.inR q dq szq lq c3) := by
          rcases hk with he | hm
          · subst he
            simp [Ctx.ctxIds]
          · exact ih hctx.2 hq fu k hm
        simp only [Ctx.ctxIds, List.mem_cons, List.mem_append] at hin ⊢
        tauto
  | inR j' dj szj lj c2 ih =>
    intro h x j hctx hj fuel k hk
    have hjj : j = j' := (Option.some.inj hj).symm
    subst hjj
    simp only [Ctx.ctxOk, Bool.and_eq_true, beq_iff_eq] at hctx
    have hp := hctx.1.1.1.1.1.1
    cases fuel with
    | zero => simp [ancestors] at hk
    | succ fu =>
      rw [ancestors, hp] at hk
      cases c2 with
      | top => simp [Ctx.holePar] at hk
      | inL q dq szq c3 rq =>
        have hq : Ctx.holePar none (Ctx.inL q dq szq c3 rq) = some q := rfl
        rw [hq] at hk
        simp only [List.mem_cons] at hk
        have hin : k ∈ Ctx.ctxIds (Ctx.inL q dq szq c3 rq) := by
          rcases hk with he | hm
          · subst he
            simp [Ctx.ctxIds]
          · exact ih hctx.2 hq fu k hm
        simp only [Ctx.ctxIds, List.mem_cons, List.mem_append] at hin ⊢
        tauto
      | inR q dq szq lq c3 =>
        have hq : Ctx.holePar none (Ctx.inR q dq szq lq c3) = some q := rfl
        rw [hq] at hk
        simp only [List.mem_cons] at hk
        have hin : k ∈ Ctx.ctxIds (Ctx.inR q dq szq lq c3) := by
          rcases hk with he | hm
          · subst he
            simp [Ctx.ctxIds]
          · exact ih hctx.2 hq fu k hm
        simp only [Ctx.ctxIds, List.mem_cons, List.mem_append] at hin ⊢
        tauto

theorem erase_usw_keeps {h h2 : Heap} {c : Ctx} {x : Option Nat}
    {j n bad fuel : Nat}
    (hctx : Ctx.ctxOk h none c x = true)
    (hj : Ctx.holePar none c = some j)
    (hnc : ¬ n ∈ Ctx.ctxIds c)
    (hbc : ¬ bad ∈ Ctx.ctxIds c)
    (hnj : n ≠ j) (hjb : j ≠ bad)
    (hpp : ∀ m, m ≠ bad → (h2 m).parent = (h m).parent) :
    (update_sizes_upwards h2 j fuel).1 n = h2 n := by
  apply usw_frame hnj
  rw [ancestors_congr2 hpp fuel j ?_ hjb]
  · intro hmem
    exact hnc (ancestors_frames hctx hj fuel n hmem)
  · intro hmem
    exact hbc (ancestors_frames hctx hj fuel bad hmem)

set_option maxHeartbeats 1000000 in
/-- C6 (amended): `Node::erase()` leaves the erased node's own
`parent`, `left_child`, `right_child` and `size` fields untouched when
the node lacks a left child (including the leaf case) or lacks a right
child; in the remaining case — both children present — the erase swaps
the node with its successor first and the fields do change (see the
accompanying counterexample). -/
theorem c6_erase_keeps_fields_one_child {t : Tree} {T : NTree}
    (hInv : Inv t T) {c : Ctx} {n d sz : Nat} {l r : NTree}
    (hT : T = Ctx.plug c (NTree.node n d sz l r))
    (hone : l = NTree.nil ∨ r = NTree.nil) :
    ∃ hp rest, node_erase t.heap n t.fuel = some (hp, rest) ∧
      hp n = t.heap n := by
  have hrepT : reprB t.heap none (Ctx.plug c (NTree.node n d sz l r)) = true := by
    rw [← hT]
    exact hInv.hrepr
  have hndT : (Ctx.plug c (NTree.node n d sz l r)).idsOf.Nodup := by
    rw [← hT]
    exact hInv.hnd
  have hdec := hrepT
  rw [Ctx.reprB_plug, Bool.and_eq_true] at hdec
  obtain ⟨hctx, hnodeN⟩ := hdec
  simp only [reprB, Bool.and_eq_true, beq_iff_eq] at hnodeN
  have hpar : (t.heap n).parent = Ctx.holePar none c := hnodeN.1.1.1.1.1.1
  have hleftN : (t.heap n).left = NTree.rootId l := hnodeN.1.1.1.1.1.2
  have hrightN : (t.heap n).right = NTree.rootId r := hnodeN.1.1.1.1.2
  have hsep := ctx_sep (c := c) (j := n)
    (A := l) (B := r) hndT
  by_cases hl : l = NTree.nil
  · -- no left child: first branch of erase
    subst hl
    have hleft' : (t.heap n).left = none := hleftN
    cases c with
    | top =>
      have hpar' : (t.heap n).parent = none := hpar
      have hct : get_child_type t.heap n = ChildType.notChild := by
        simp only [get_child_type, hpar']
      cases hrr : NTree.rootId r with
      | none =>
        have hright' : (t.heap n).right = none := by rw [hrightN, hrr]
        refine ⟨t.heap, (none, none), ?_, rfl⟩
        rw [node_erase]
        simp only [hleft', hct, hpar', hright']
      | some rr =>
        have hright' : (t.heap n).right = some rr := by rw [hrightN, hrr]
        have hnrr : n ≠ rr := by
          intro he
          exact hsep.2.1 (he ▸ NTree.rootId_mem hrr)
        refine ⟨setParent t.heap rr none, (some rr, none), ?_, ?_⟩
        · rw [node_erase]
          simp only [hleft', hct, hpar', hright']
        · rw [setParent_ne _ _ _ hnrr]
    | inL j dj szj c2 rj =>
      have hpar' : (t.heap n).parent = some j := hpar
      have hctx' := hctx
      simp only [Ctx.ctxOk, Bool.and_eq_true, beq_iff_eq] at hctx
      have hjleft : (t.heap j).left = some n := hctx.1.1.1.1.1.2
      have hct : get_child_type t.heap n = ChildType.leftChild := by
        simp only [get_child_type, hpar']
        rw [if_pos hjleft]
      have hjmem : j ∈ Ctx.ctxIds (Ctx.inL j dj szj c2 rj) := by
        simp [Ctx.ctxIds]
      have hnj : n ≠ j := fun he => hsep.2.2 (he ▸ hjmem)
      cases hrr : NTree.rootId r with
      | none =>
        have hright' : (t.heap n).right = none := by rw [hrightN, hrr]
        refine ⟨(update_sizes_upwards (setLeft t.heap j none) j t.fuel).1,
          (none, some j), ?_, ?_⟩
        · rw [node_erase]
          simp only [hleft', hct, hpar', hright']
        · rw [erase_usw_keeps hctx' rfl hsep.2.2 hsep.2.2 hnj
            (fun he => hnj he.symm) ?_]
          · exact setLeft_ne _ _ _ hnj
          · intro m hm
            by_cases hmj : m = j
            · subst hmj
              rw [setLeft_self]
            · rw [setLeft_ne _ _ _ hmj]
      | some rr =>
        have hright' : (t.heap n).right = some rr := by rw [hrightN, hrr]
        have hrrmem : rr ∈ r.idsOf := NTree.rootId_mem hrr
        have hnrr : n ≠ rr := fun he => hsep.2.1 (he ▸ hrrmem)
        have hrrhole : rr ∈ (NTree.node n d sz NTree.nil r).idsOf := by
          rw [NTree.idsOf_node]
          simp [hrrmem]
        have hrrctx : ¬ rr ∈ Ctx.ctxIds (Ctx.inL j dj szj c2 rj) :=
          hole_ctx_disjoint hndT rr hrrhole
        have hjrr : j ≠ rr := fun he => hrrctx (he ▸ hjmem)
        refine ⟨(update_sizes_upwards
          (setParent (setLeft t.heap j (some rr)) rr (some j)) j t.fuel).1,
          (some rr, some j), ?_, ?_⟩
        · rw [node_erase]
          simp only [hleft', hct, hpar', hright']
        · rw [erase_usw_keeps hctx' rfl hsep.2.2 hrrctx hnj hjrr ?_]
          · rw [setParent_ne _ _ _ hnrr, setLeft_ne _ _ _ hnj]
          · intro m hm
            by_cases hmj : m = j
            · subst hmj
              rw [setParent_ne _ _ _ hjrr, setLeft_self]
            · rw [setParent_ne _ _ _ hm, setLeft_ne _ _ _ hmj]
    | inR j dj szj lj c2 =>
      have hpar' : (t.heap n).parent = some j := hpar
      have hctx' := hctx
      simp only [Ctx.ctxOk, Bool.and_eq_true, beq_iff_eq] at hctx
      have hjleft : (t.heap j).left = NTree.rootId lj := hctx.1.1.1.1.1.2
      have hjmem : j ∈ Ctx.ctxIds (Ctx.inR j dj szj lj c2) := by
        simp [Ctx.ctxIds]
      have hnj : n ≠ j := fun he => hsep.2.2 (he ▸ hjmem)
      have hnotleft : ¬ ((t.heap j).left = some n) := by
        intro hcon
        rw [hjleft] at hcon
        have hmem : n ∈ lj.idsOf := NTree.rootId_mem hcon
        exact hsep.2.2 (by simp [Ctx.ctxIds, hmem])
      have hct : get_child_type t.heap n = ChildType.rightChild := by
        simp only [get_child_type, hpar']
        rw [if_neg hnotleft]
      cases hrr : NTree.rootId r with
      | none =>
        have hright' : (t.heap n).right = none := by rw [hrightN, hrr]
        refine ⟨(update_sizes_upwards (setRight t.heap j none) j t.fuel).1,
          (none, some j), ?_, ?_⟩
        · rw [node_erase]
          simp only [hleft', hct, hpar', hright']
        · rw [erase_usw_keeps hctx' rfl hsep.2.2 hsep.2.2 hnj
            (fun he => hnj he.symm) ?_]
          · exact setRight_ne _ _ _ hnj
          · intro m hm
            by_cases hmj : m = j
            · subst hmj
              rw [setRight_self]
            · rw [setRight_ne _ _ _ hmj]
      | some rr =>
        have hright' : (t.heap n).right = some rr := by rw [hrightN, hrr]
        have hrrmem : rr ∈ r.idsOf := NTree.rootId_mem hrr
        have hnrr : n ≠ rr := fun he => hsep.2.1 (he ▸ hrrmem)
        have hrrhole : rr ∈ (NTree.node n d sz NTree.nil r).idsOf := by
          rw [NTree.idsOf_node]
          simp [hrrmem]
        have hrrctx : ¬ rr ∈ Ctx.ctxIds (Ctx.inR j dj szj lj c2) :=
          hole_ctx_disjoint hndT rr hrrhole
        have hjrr : j ≠ rr := fun he => hrrctx (he ▸ hjmem)
        refine ⟨(update_sizes_upwards
          (setParent (setRight t.heap j (some rr)) rr (some j)) j t.fuel).1,
          (some rr, some j), ?_, ?_⟩
        · rw [node_erase]
          simp only [hleft', hct, hpar', hright']
        · rw [erase_usw_keeps hctx' rfl hsep.2.2 hrrctx hnj hjrr ?_]
          · rw [setParent_ne _ _ _ hnrr, setRight_ne _ _ _ hnj]
          · intro m hm
            by_cases hmj : m = j
            · subst hmj
              rw [setParent_ne _ _ _ hjrr, setRight_self]
            · rw [setParent_ne _ _ _ hm, setRight_ne _ _ _ hmj]
  · -- left child present, so the right child must be absent: second branch
    have hr : r = NTree.nil := by
      rcases hone with h1 | h1
      · exact absurd h1 hl
      · exact h1
    subst hr
    cases l with
    | nil => exact absurd rfl hl
    | node lc ld lsz ll lr =>
      have hleft' : (t.heap n).left = some lc := hleftN
      have hright' : (t.heap n).right = none := hrightN
      have hlcmem : lc ∈ (NTree.node lc ld lsz ll lr).idsOf := by
        rw [NTree.idsOf_node]
        simp
      have hnlc : n ≠ lc := fun he => hsep.1 (he ▸ hlcmem)
      have hlchole : lc ∈
          (NTree.node n d sz (NTree.node lc ld lsz ll lr) NTree.nil).idsOf := by
        rw [NTree.idsOf_node]
        simp [hlcmem]
      cases c with
      | top =>
        have hpar' : (t.heap n).parent = none := hpar
        have hct : get_child_type t.heap n = ChildType.notChild := by
          simp only [get_child_type, hpar']
        refine ⟨setParent t.heap lc none, (some lc, none), ?_, ?_⟩
        · rw [node_erase]
          simp only [hleft', hct, hpar', hright']
        · rw [setParent_ne _ _ _ hnlc]
      | inL j dj szj c2 rj =>
        have hpar' : (t.heap n).parent = some j := hpar
        have hctx' := hctx
        simp only [Ctx.ctxOk, Bool.and_eq_true, beq_iff_eq] at hctx
        have hjleft : (t.heap j).left = some n := hctx.1.1.1.1.1.2
        have hct : get_child_type t.heap n = ChildType.leftChild := by
          simp only [get_child_type, hpar']
          rw [if_pos hjleft]
        have hjmem : j ∈ Ctx.ctxIds (Ctx.inL j dj szj c2 rj) := by
          simp [Ctx.ctxIds]
        have hnj : n ≠ j := fun he => hsep.2.2 (he ▸ hjmem)
        have hlcctx : ¬ lc ∈ Ctx.ctxIds (Ctx.inL j dj szj c2 rj) :=
          hole_ctx_disjoint hndT lc hlchole
        have hjlc : j ≠ lc := fun he => hlcctx (he ▸ hjmem)
        refine ⟨(update_sizes_upwards
          (setParent (setLeft t.heap j (some lc)) lc (some j)) j t.fuel).1,
          (some lc, some j), ?_, ?_⟩
        · rw [node_erase]
          simp only [hleft', hct, hpar', hright']
        · rw [erase_usw_keeps hctx' rfl hsep.2.2 hlcctx hnj hjlc ?_]
          · rw [setParent_ne _ _ _ hnlc, setLeft_ne _ _ _ hnj]
          · intro m hm
            by_cases hmj : m = j
            · subst hmj
              rw [setParent_ne _ _ _ hjlc, setLeft_self]
            · rw [setParent_ne _ _ _ hm, setLeft_ne _ _ _ hmj]
      | inR j dj szj lj c2 =>
        have hpar' : (t.heap n).parent = some j := hpar
        have hctx' := hctx
        simp only [Ctx.ctxOk, Bool.and_eq_true, beq_iff_eq] at hctx
        have hjleft : (t.heap j).left = NTree.rootId lj := hctx.1.1.1.1.1.2
        have hjmem : j ∈ Ctx.ctxIds (Ctx.inR j dj szj lj c2) := by
          simp [Ctx.ctxIds]
        have hnj : n ≠ j := fun he => hsep.2.2 (he ▸ hjmem)
        have hnotleft : ¬ ((t.heap j).left = some n) := by
          intro hcon
          rw [hjleft] at hcon
          have hmem : n ∈ lj.idsOf := NTree.rootId_mem hcon
          exact hsep.2.2 (by simp [Ctx.ctxIds, hmem])
        have hct : get_child_type t.heap n = ChildType.rightChild := by
          simp only [get_child_type, hpar']
          rw [if_neg hnotleft]
        have hlcctx : ¬ lc ∈ Ctx.ctxIds (Ctx.inR j dj szj lj c2) :=
          hole_ctx_disjoint hndT lc hlchole
        have hjlc : j ≠ lc := fun he => hlcctx (he ▸ hjmem)
        refine ⟨(update_sizes_upwards
          (setParent (setRight t.heap j (some lc)) lc (some j)) j t.fuel).1,
          (some lc, some j), ?_, ?_⟩
        · rw [node_erase]
          simp only [hleft', hct, hpar', hright']
        · rw [erase_usw_keeps hctx' rfl hsep.2.2 hlcctx hnj hjlc ?_]
          · rw [setParent_ne _ _ _ hnlc, setRight_ne _ _ _ hnj]
          · intro m hm
            by_cases hmj : m = j
            · subst hmj
              rw [setParent_ne _ _ _ hjlc, setRight_self]
            · rw [setParent_ne _ _ _ hm, setRight_ne _ _ _ hmj]

/-- Witness for C6 on the concrete three-node tree: erasing the leaf
node `1` (no children) leaves that node's fields exactly as they were. -/
theorem c6_witness :
    ∃ hp rest, node_erase wTree.heap 1 wTree.fuel = some (hp, rest) ∧
      hp 1 = wTree.heap 1 :=
  c6_erase_keeps_fields_one_child wInv
    (c := Ctx.inL 0 20 3 Ctx.top (NTree.node 2 30 1 NTree.nil NTree.nil))
    (n := 1) (d := 10) (l := NTree.nil) (r := NTree.nil)
    rfl (Or.inl rfl)


theorem leftmost_plug_bump_congr : ∀ {c : Ctx} (i d s : Nat) (l r : NTree)
    (i2 d2 s2 : Nat) (l2 r2 : NTree),
    (NTree.node i d s l r).leftmostId = (NTree.node i2 d2 s2 l2 r2).leftmostId →
    (Ctx.plug (Ctx.bump c) (NTree.node i d s l r)).leftmostId =
      (Ctx.plug c (NTree.node i2 d2 s2 l2 r2)).leftmostId := by
  intro c
  induction c with
  | top => intro i d s l r i2 d2 s2 l2 r2 h; exact h
  | inL j dj szj c2 rj ih =>
    intro i d s l r i2 d2 s2 l2 r2 h
    show (Ctx.plug (Ctx.bump c2) (NTree.node j dj (szj + 1)
      (NTree.node i d s l r) rj)).leftmostId =
      (Ctx.plug c2 (NTree.node j dj szj (NTree.node i2 d2 s2 l2 r2) rj)).leftmostId
    apply ih
    show (NTree.node i d s l r).leftmostId = (NTree.node i2 d2 s2 l2 r2).leftmostId
    exact h
  | inR j dj szj lj c2 ih =>
    intro i d s l r i2 d2 s2 l2 r2 h
    show (Ctx.plug (Ctx.bump c2) (NTree.node j dj (szj + 1) lj
      (NTree.node i d s l r))).leftmostId =
      (Ctx.plug c2 (NTree.node j dj szj lj (NTree.node i2 d2 s2 l2 r2))).leftmostId
    apply ih
    cases lj <;> rfl

theorem rightmost_plug_bump_congr : ∀ {c : Ctx} (i d s : Nat) (l r : NTree)
    (i2 d2 s2 : Nat) (l2 r2 : NTree),
    (NTree.node i d s l r).rightmostId = (NTree.node i2 d2 s2 l2 r2).rightmostId →
    (Ctx.plug (Ctx.bump c) (NTree.node i d s l r)).rightmostId =
      (Ctx.plug c (NTree.node i2 d2 s2 l2 r2)).rightmostId := by
  intro c
  induction c with
  | top => intro i d s l r i2 d2 s2 l2 r2 h; exact h
  | inL j dj szj c2 rj ih =>
    intro i d s l r i2 d2 s2 l2 r2 h
    show (Ctx.plug (Ctx.bump c2) (NTree.node j dj (szj + 1)
      (NTree.node i d s l r) rj)).rightmostId =
      (Ctx.plug c2 (NTree.node j dj szj (NTree.node i2 d2 s2 l2 r2) rj)).rightmostId
    apply ih
    cases rj <;> rfl
  | inR j dj szj lj c2 ih =>
    intro i d s l r i2 d2 s2 l2 r2 h
    show (Ctx.plug (Ctx.bump c2) (NTree.node j dj (szj + 1) lj
      (NTree.node i d s l r))).rightmostId =
      (Ctx.plug c2 (NTree.node j dj szj lj (NTree.node i2 d2 s2 l2 r2))).rightmostId
    apply ih
    show (NTree.node i d s l r).rightmostId = (NTree.node i2 d2 s2 l2 r2).rightmostId
    exact h

theorem leftmost_plug_bump_indep : ∀ {c : Ctx}, Ctx.allInL c = false →
    ∀ (i d s : Nat) (l r : NTree) (i2 d2 s2 : Nat) (l2 r2 : NTree),
    (Ctx.plug (Ctx.bump c) (NTree.node i d s l r)).leftmostId =
      (Ctx.plug c (NTree.node i2 d2 s2 l2 r2)).leftmostId := by
  intro c
  induction c with
  | top => intro h; exact absurd h (by simp [Ctx.allInL])
  | inL j dj szj c2 rj ih =>
    intro h i d s l r i2 d2 s2 l2 r2
    show (Ctx.plug (Ctx.bump c2) (NTree.node j dj (szj + 1)
      (NTree.node i d s l r) rj)).leftmostId =
      (Ctx.plug c2 (NTree.node j dj szj (NTree.node i2 d2 s2 l2 r2) rj)).leftmostId
    exact ih h j dj (szj + 1) (NTree.node i d s l r) rj j dj szj
      (NTree.node i2 d2 s2 l2 r2) rj
  | inR j dj szj lj c2 ih =>
    intro _ i d s l r i2 d2 s2 l2 r2
    show (Ctx.plug (Ctx.bump c2) (NTree.node j dj (szj + 1) lj
      (NTree.node i d s l r))).leftmostId =
      (Ctx.plug c2 (NTree.node j dj szj lj (NTree.node i2 d2 s2 l2 r2))).leftmostId
    cases hc2 : Ctx.allInL c2 with
    | true =>
      rw [leftmost_plug_allInL (bump_allInL hc2), leftmost_plug_allInL hc2]
      cases lj <;> rfl
    | false =>
      exact ih hc2 j dj (szj + 1) lj (NTree.node i d s l r) j dj szj lj
        (NTree.node i2 d2 s2 l2 r2)

theorem rightmost_plug_bump_indep : ∀ {c : Ctx}, Ctx.allInR c = false →
    ∀ (i d s : Nat) (l r : NTree) (i2 d2 s2 : Nat) (l2 r2 : NTree),
    (Ctx.plug (Ctx.bump c) (NTree.node i d s l r)).rightmostId =
      (Ctx.plug c (NTree.node i2 d2 s2 l2 r2)).rightmostId := by
  intro c
  induction c with
  | top => intro h; exact absurd h (by simp [Ctx.allInR])
  | inR j dj szj lj c2 ih =>
    intro h i d s l r i2 d2 s2 l2 r2
    show (Ctx.plug (Ctx.bump c2) (NTree.node j dj (szj + 1) lj
      (NTree.node i d s l r))).rightmostId =
      (Ctx.plug c2 (NTree.node j dj szj lj (NTree.node i2 d2 s2 l2 r2))).rightmostId
    exact ih h j dj (szj + 1) lj (NTree.node i d s l r) j dj szj lj
      (NTree.node i2 d2 s2 l2 r2)
  | inL j dj szj c2 rj ih =>
    intro _ i d s l r i2 d2 s2 l2 r2
    show (Ctx.plug (Ctx.bump c2) (NTree.node j dj (szj + 1)
      (NTree.node i d s l r) rj)).rightmostId =
      (Ctx.plug c2 (NTree.node j dj szj (NTree.node i2 d2 s2 l2 r2) rj)).rightmostId
    cases hc2 : Ctx.allInR c2 with
    | true =>
      rw [rightmost_plug_allInR (bump_allInR hc2), rightmost_plug_allInR hc2]
      cases rj <;> rfl
    | false =>
      exact ih hc2 j dj (szj + 1) (NTree.node i d s l r) rj j dj szj
        (NTree.node i2 d2 s2 l2 r2) rj

theorem leftmostId_mem : ∀ (T : NTree), ∀ q, T.leftmostId = some q →
    q ∈ T.idsOf := by
  intro T
  induction T with
  | nil => intro q hq; exact Option.noConfusion hq
  | node i d s l r ihl ihr =>
    intro q hq
    cases l with
    | nil =>
      simp only [NTree.leftmostId] at hq
      rw [NTree.idsOf_node]
      simp [Option.some.inj hq]
    | node a b e f g =>
      have hq2 : (NTree.node a b e f g).leftmostId = some q := hq
      have hmem := ihl q hq2
      rw [NTree.idsOf_node]
      simp only [List.mem_append, List.mem_cons]
      left
      exact hmem

theorem rightmostId_mem : ∀ (T : NTree), ∀ q, T.rightmostId = some q →
    q ∈ T.idsOf := by
  intro T
  induction T with
  | nil => intro q hq; exact Option.noConfusion hq
  | node i d s l r ihl ihr =>
    intro q hq
    cases r with
    | nil =>
      simp only [NTree.rightmostId] at hq
      rw [NTree.idsOf_node]
      simp [Option.some.inj hq]
    | node a b e f g =>
      have hq2 : (NTree.node a b e f g).rightmostId = some q := hq
      have hmem := ihr q hq2
      rw [NTree.idsOf_node]
      simp only [List.mem_append, List.mem_cons]
      right
      right
      exact hmem

theorem leftmostId_isSome : ∀ (i d s : Nat) (l r : NTree),
    ∃ q, (NTree.node i d s l r).leftmostId = some q := by
  intro i d s l r
  induction l generalizing i d s r with
  | nil => exact ⟨i, rfl⟩
  | node a b e f g ihf ihg =>
    obtain ⟨q, hq⟩ := ihf a b e g
    exact ⟨q, hq⟩

theorem rightmostId_isSome : ∀ (i d s : Nat) (l r : NTree),
    ∃ q, (NTree.node i d s l r).rightmostId = some q := by
  intro i d s l r
  induction r generalizing i d s l with
  | nil => exact ⟨i, rfl⟩
  | node a b e f g ihf ihg =>
    obtain ⟨q, hq⟩ := ihg a b e f
    exact ⟨q, hq⟩

theorem leftmostId_mem_left (i d s : Nat) (l r : NTree) (q : Nat)
    (hq : (NTree.node i d s l r).leftmostId = some q) :
    q = i ∨ q ∈ l.idsOf := by
  cases l with
  | nil =>
    simp only [NTree.leftmostId] at hq
    exact Or.inl (Option.some.inj hq).symm
  | node a b e f g =>
    have hq2 : (NTree.node a b e f g).leftmostId = some q := hq
    exact Or.inr (leftmostId_mem _ q hq2)

theorem rightmostId_mem_right (i d s : Nat) (l r : NTree) (q : Nat)
    (hq : (NTree.node i d s l r).rightmostId = some q) :
    q = i ∨ q ∈ r.idsOf := by
  cases r with
  | nil =>
    simp only [NTree.rightmostId] at hq
    exact Or.inl (Option.some.inj hq).symm
  | node a b e f g =>
    have hq2 : (NTree.node a b e f g).rightmostId = some q := hq
    exact Or.inr (rightmostId_mem _ q hq2)

theorem leftmost_plug_not_allInL : ∀ {c : Ctx}, Ctx.allInL c = false →
    ∀ (i d s : Nat) (l r : NTree),
    ∃ q, (Ctx.plug c (NTree.node i d s l r)).leftmostId = some q ∧
      q ∈ Ctx.ctxIds c := by
  intro c
  induction c with
  | top => intro h; exact absurd h (by simp [Ctx.allInL])
  | inL j dj szj c2 rj ih =>
    intro h i d s l r
    obtain ⟨q, hq, hmem⟩ := ih h j dj szj (NTree.node i d s l r) rj
    refine ⟨q, hq, ?_⟩
    simp only [Ctx.ctxIds, List.mem_cons, List.mem_append] at hmem ⊢
    tauto
  | inR j dj szj lj c2 ih =>
    intro _ i d s l r
    show ∃ q, (Ctx.plug c2 (NTree.node j dj szj lj
      (NTree.node i d s l r))).leftmostId = some q ∧
      q ∈ Ctx.ctxIds (Ctx.inR j dj szj lj c2)
    cases hc2 : Ctx.allInL c2 with
    | true =>
      rw [leftmost_plug_allInL hc2]
      obtain ⟨q, hq⟩ := leftmostId_isSome j dj szj lj (NTree.node i d s l r)
      refine ⟨q, hq, ?_⟩
      have hmem := leftmostId_mem_left _ _ _ _ _ q hq
      simp only [Ctx.ctxIds, List.mem_cons, List.mem_append]
      tauto
    | false =>
      obtain ⟨q, hq, hmemq⟩ := ih hc2 j dj szj lj (NTree.node i d s l r)
      refine ⟨q, hq, ?_⟩
      simp only [Ctx.ctxIds, List.mem_cons, List.mem_append] at hmemq ⊢
      tauto

theorem rightmost_plug_not_allInR : ∀ {c : Ctx}, Ctx.allInR c = false →
    ∀ (i d s : Nat) (l r : NTree),
    ∃ q, (Ctx.plug c (NTree.node i d s l r)).rightmostId = some q ∧
      q ∈ Ctx.ctxIds c := by
  intro c
  induction c with
  | top => intro h; exact absurd h (by simp [Ctx.allInR])
  | inR j dj szj lj c2 ih =>
    intro h i d s l r
    obtain ⟨q, hq, hmem⟩ := ih h j dj szj lj (NTree.node i d s l r)
    refine ⟨q, hq, ?_⟩
    simp only [Ctx.ctxIds, List.mem_cons, List.mem_append] at hmem ⊢
    tauto
  | inL j dj szj c2 rj ih =>
    intro _ i d s l r
    show ∃ q, (Ctx.plug c2 (NTree.node j dj szj
      (NTree.node i d s l r) rj)).rightmostId = some q ∧
      q ∈ Ctx.ctxIds (Ctx.inL j dj szj c2 rj)
    cases hc2 : Ctx.allInR c2 with
    | true =>
      rw [rightmost_plug_allInR hc2]
      obtain ⟨q, hq⟩ := rightmostId_isSome j dj szj (NTree.node i d s l r) rj
      refine ⟨q, hq, ?_⟩
      have hmem := rightmostId_mem_right _ _ _ _ _ q hq
      simp only [Ctx.ctxIds, List.mem_cons, List.mem_append]
      tauto
    | false =>
      obtain ⟨q, hq, hmemq⟩ := ih hc2 j dj szj (NTree.node i d s l r) rj
      refine ⟨q, hq, ?_⟩
      simp only [Ctx.ctxIds, List.mem_cons, List.mem_append] at hmemq ⊢
      tauto

theorem link_left_miss_eq (tt : Tree) (ff nn i00 : Nat)
    (hrt : tt.root = some i00) (hfs : ¬ tt.first = some ff) :
    Tree.link tt ⟨some ff, true⟩ nn =
      some { tt with
        heap := (update_sizes_upwards
          (setParent (setLeft tt.heap ff (some nn)) nn (some ff)) ff tt.fuel).1 } := by
  rw [Tree.link]
  simp only [hrt, node_link]
  rw [show update_sizes_upwards
      (setParent (setLeft tt.heap ff (some nn)) nn (some ff)) ff tt.fuel =
      ((update_sizes_upwards
        (setParent (setLeft tt.heap ff (some nn)) nn (some ff)) ff tt.fuel).1,
       (update_sizes_upwards
        (setParent (setLeft tt.heap ff (some nn)) nn (some ff)) ff tt.fuel).2)
    from (Prod.mk.eta).symm]
  simp only [eq_self_iff_true, if_true, true_and, not_true, false_and, if_false]
  split
  · rename_i hc
    exact absurd hc.symm hfs
  · rfl

theorem link_right_miss_eq (tt : Tree) (ll nn i00 : Nat)
    (hrt : tt.root = some i00) (hls : ¬ tt.last = some ll) :
    Tree.link tt ⟨some ll, false⟩ nn =
      some { tt with
        heap := (update_sizes_upwards
          (setParent (setRight tt.heap ll (some nn)) nn (some ll)) ll tt.fuel).1 } := by
  rw [Tree.link]
  simp only [hrt, node_link]
  rw [show update_sizes_upwards
      (setParent (setRight tt.heap ll (some nn)) nn (some ll)) ll tt.fuel =
      ((update_sizes_upwards
        (setParent (setRight tt.heap ll (some nn)) nn (some ll)) ll tt.fuel).1,
       (update_sizes_upwards
        (setParent (setRight tt.heap ll (some nn)) nn (some ll)) ll tt.fuel).2)
    from (Prod.mk.eta).symm]
  simp only [show ((false : Bool) = true) = False from by simp, if_false,
    false_and, not_false_iff, true_and, if_true]
  split
  · rename_i hc
    exact absurd hc.symm hls
  · rfl

theorem rootId_plug_isSome : ∀ (c : Ctx) (i d s : Nat) (l r : NTree),
    ∃ q, (Ctx.plug c (NTree.node i d s l r)).rootId = some q := by
  intro c
  induction c with
  | top => intro i d s l r; exact ⟨i, rfl⟩
  | inL j dj szj c2 rj ih =>
    intro i d s l r
    exact ih j dj szj (NTree.node i d s l r) rj
  | inR j dj szj lj c2 ih =>
    intro i d s l r
    exact ih j dj szj lj (NTree.node i d s l r)

theorem emplace_left_slot_spec {t : Tree} {T : NTree} (hInv : Inv t T)
    {p dp szp : Nat} {cs : Ctx} {rp : NTree}
    (hT : T = Ctx.plug cs (NTree.node p dp szp NTree.nil rp)) (v : Nat) :
    ∃ t2, Tree.emplace t ⟨some p, true⟩ v = some (t2, t.nextId) ∧
      Inv t2 (Ctx.plug (Ctx.bump cs) (NTree.node p dp (szp + 1)
        (NTree.node t.nextId v 1 NTree.nil NTree.nil) rp)) := by
  have hTd : T = Ctx.plug cs (NTree.node p dp szp NTree.nil rp) := hT
  obtain ⟨i00, hroot0⟩ := rootId_plug_isSome cs p dp szp NTree.nil rp
  have hroot : t.root = some i00 := by
    rw [hInv.hroot, hTd]
    exact hroot0
  have hbT : ∀ j ∈ (Ctx.plug cs (NTree.node p dp szp NTree.nil rp)).idsOf,
      j < t.nextId := by
    rw [← hTd]
    exact hInv.hbound
  have hndT : (Ctx.plug cs (NTree.node p dp szp NTree.nil rp)).idsOf.Nodup := by
    rw [← hTd]
    exact hInv.hnd
  have hszT : NTree.sizesOK (Ctx.plug cs (NTree.node p dp szp NTree.nil rp)) = true := by
    rw [← hTd]
    exact hInv.hsz
  have hrepT : reprB t.heap none (Ctx.plug cs (NTree.node p dp szp NTree.nil rp)) = true := by
    rw [← hTd]
    exact hInv.hrepr
  rw [Ctx.sizesOK_plug, Bool.and_eq_true] at hszT
  obtain ⟨hctxsz, hholes⟩ := hszT
  have hszp : szp = 1 + NTree.szF rp := by
    simp only [NTree.sizesOK, Bool.and_eq_true, beq_iff_eq] at hholes
    exact hholes.1.1
  have hsizOKrp : NTree.sizesOK rp = true := by
    simp only [NTree.sizesOK, Bool.and_eq_true, beq_iff_eq] at hholes
    exact hholes.2
  have hfmem : p ∈ (Ctx.plug cs (NTree.node p dp szp NTree.nil rp)).idsOf := by
    rw [Ctx.idsOf_plug]
    simp [NTree.idsOf_node]
  have hflt : p < t.nextId := hbT p hfmem
  have hfne : p ≠ t.nextId := Nat.ne_of_lt hflt
  have hnef : t.nextId ≠ p := fun he => hfne he.symm
  have hsep := ctx_sep (c := cs) (j := p)
    (A := NTree.nil) (B := rp) hndT
  set Sub := NTree.node t.nextId v 1 NTree.nil NTree.nil with hSubDef
  set H2 := setParent (setLeft (hset t.heap t.nextId ⟨none, none, none, 1, v⟩)
    p (some t.nextId)) t.nextId (some p) with hH2def
  have hH2n : H2 t.nextId = ⟨none, none, some p, 1, v⟩ := by
    rw [hH2def, setParent_self, setLeft_ne _ _ _ hnef, hset_self]
  have hH2f : H2 p = { t.heap p with left := some t.nextId } := by
    rw [hH2def, setParent_ne _ _ _ hfne, setLeft_self, hset_ne _ _ _ hfne]
  have hH2k : ∀ k, k ≠ t.nextId → k ≠ p → H2 k = t.heap k := by
    intro k h1 h2
    rw [hH2def, setParent_ne _ _ _ h1, setLeft_ne _ _ _ h2, hset_ne _ _ _ h1]
  have hrepT2 := hrepT
  rw [Ctx.reprB_plug, Bool.and_eq_true] at hrepT2
  obtain ⟨hctx0, hhole0⟩ := hrepT2
  have hh0 := hhole0
  simp only [reprB, Bool.and_eq_true, beq_iff_eq, and_true, true_and,
    eq_self_iff_true] at hh0
  have hctxmem : ∀ k ∈ Ctx.ctxIds cs,
      k ∈ (Ctx.plug cs (NTree.node p dp szp NTree.nil rp)).idsOf := by
    intro k hk
    rw [Ctx.idsOf_plug]
    rcases (Ctx.mem_ctxIds cs).mp hk with h | h
    · simp [h]
    · simp [h]
  have hrfmem : ∀ k ∈ rp.idsOf,
      k ∈ (Ctx.plug cs (NTree.node p dp szp NTree.nil rp)).idsOf := by
    intro k hk
    rw [Ctx.idsOf_plug]
    simp [NTree.idsOf_node, hk]
  have hfnotrf : ¬ p ∈ rp.idsOf := hsep.2.1
  have hrfH2 : reprB H2 (some p) rp = true := by
    rw [reprB_frame (fun k hk => hH2k k
      (Nat.ne_of_lt (hbT k (hrfmem k hk)))
      (fun he => hfnotrf (he ▸ hk)))]
    exact hh0.2
  have hrep2 : reprB H2 none
      (Ctx.plug cs (NTree.node p dp szp Sub rp)) = true := by
    rw [Ctx.reprB_plug, Bool.and_eq_true]
    constructor
    · rw [ctxOk_frame (fun k hk => hH2k k
        (Nat.ne_of_lt (hbT k (hctxmem k hk)))
        (fun he => hsep.2.2 (he ▸ hk)))]
      exact hctx0
    · show (((H2 p).parent == Ctx.holePar none cs) &&
        ((H2 p).left == NTree.rootId Sub) &&
        ((H2 p).right == NTree.rootId rp) &&
        ((H2 p).size == szp) &&
        ((H2 p).data == dp) &&
        reprB H2 (some p) Sub &&
        reprB H2 (some p) rp) = true
      rw [Bool.and_eq_true, Bool.and_eq_true, Bool.and_eq_true,
        Bool.and_eq_true, Bool.and_eq_true, Bool.and_eq_true]
      refine ⟨⟨⟨⟨⟨⟨?_, ?_⟩, ?_⟩, ?_⟩, ?_⟩, ?_⟩, hrfH2⟩
      · rw [beq_iff_eq, hH2f]
        exact hh0.1.1.1.1.1
      · rw [beq_iff_eq, hH2f]
        rfl
      · rw [beq_iff_eq, hH2f]
        exact hh0.1.1.1.2
      · rw [beq_iff_eq, hH2f]
        exact hh0.1.1.2
      · rw [beq_iff_eq, hH2f]
        exact hh0.1.2
      · simp [reprB, hH2n, hSubDef, NTree.rootId]
  set H3 := setSize H2 p (szp + 1) with hH3def
  have e2 : update_size H2 p = (H3, true) := by
    have hraw : update_size H2 p =
        (if (1 + get_size H2 (H2 p).left + get_size H2 (H2 p).right) ≠ (H2 p).size
        then (setSize H2 p
            (1 + get_size H2 (H2 p).left + get_size H2 (H2 p).right), true)
        else (H2, false)) := rfl
    rw [hraw]
    have hl : get_size H2 (H2 p).left = 1 := by
      rw [hH2f]
      show (H2 t.nextId).size = 1
      rw [hH2n]
    have hr : get_size H2 (H2 p).right = NTree.szF rp := by
      rw [hH2f]
      show get_size H2 ((t.heap p).right) = NTree.szF rp
      rw [hh0.1.1.1.2]
      exact get_size_rootId hrfH2
    have hs : (H2 p).size = szp := by
      rw [hH2f]
      exact hh0.1.1.2
    rw [hl, hr, hs]
    have hval : 1 + 1 + NTree.szF rp = szp + 1 := by omega
    rw [hval, if_pos (by omega)]
  have hnd1 : (Ctx.plug cs (NTree.node p dp szp Sub rp)).idsOf.Nodup := by
    have hndT2 := hndT
    rw [Ctx.idsOf_plug, NTree.idsOf_node, NTree.idsOf_nil] at hndT2
    rw [hSubDef, Ctx.idsOf_plug, NTree.idsOf_node, NTree.idsOf_node,
      NTree.idsOf_nil]
    simp only [List.nil_append, List.cons_append, List.append_assoc] at hndT2 ⊢
    rw [List.nodup_middle, List.nodup_cons]
    refine ⟨?_, hndT2⟩
    intro hmem
    have hmem2 : t.nextId ∈
        (Ctx.plug cs (NTree.node p dp szp NTree.nil rp)).idsOf := by
      rw [Ctx.idsOf_plug, NTree.idsOf_node, NTree.idsOf_nil]
      simp only [List.nil_append, List.cons_append, List.append_assoc]
      exact hmem
    have hlt := hbT t.nextId hmem2
    omega
  have hnd2 : (Ctx.plug cs (NTree.node p dp (szp + 1) Sub rp)).idsOf.Nodup := by
    rw [idsOf_plug_sz cs p dp (szp + 1) szp Sub rp]
    exact hnd1
  have hrep3 : reprB H3 none
      (Ctx.plug cs (NTree.node p dp (szp + 1) Sub rp)) = true :=
    reprB_setSize_hole hrep2 hnd1
  have hsub2 : NTree.sizesOK (NTree.node p dp (szp + 1) Sub rp) = true := by
    show ((szp + 1 == 1 + NTree.szF Sub + NTree.szF rp) &&
      NTree.sizesOK Sub && NTree.sizesOK rp) = true
    rw [Bool.and_eq_true, Bool.and_eq_true]
    have hsubOK : NTree.sizesOK Sub = true := by rw [hSubDef]; rfl
    refine ⟨⟨?_, hsubOK⟩, hsizOKrp⟩
    rw [beq_iff_eq, hSubDef]
    show szp + 1 = 1 + 1 + NTree.szF rp
    omega
  have hfuel : Ctx.depth cs + 1 ≤ t.nextId + 1 + 1 := by
    have hd := depth_cnt_le cs (NTree.node p dp szp NTree.nil rp)
    have hcnt : (Ctx.plug cs (NTree.node p dp szp NTree.nil rp)).cnt ≤ t.nextId := by
      rw [← NTree.length_idsOf]
      exact nodup_len_le hndT hbT
    have hc1 := NTree.cnt_node p dp szp NTree.nil rp
    omega
  have hspec := usw_loop_spec (c := cs) (i := p) (d := dp)
    (l := Sub) (r := rp)
    hrep3 hsub2 hctxsz hnd2 hfuel
  have husw : update_sizes_upwards H2 p (t.nextId + 1 + 1) =
      ((update_sizes_upwards_loop H3 p (t.nextId + 1 + 1)).1,
       (update_sizes_upwards_loop H3 p (t.nextId + 1 + 1)).2) := by
    rw [update_sizes_upwards]
    simp only [e2]
  have husw1 : (update_sizes_upwards H2 p (t.nextId + 1 + 1)).1 =
      (update_sizes_upwards_loop H3 p (t.nextId + 1 + 1)).1 := by
    rw [husw]
  have hnotctx : ¬ t.nextId ∈ Ctx.ctxIds cs := by
    intro hm
    have hlt := hbT t.nextId (hctxmem t.nextId hm)
    omega
  have hHFn : (update_sizes_upwards_loop H3 p (t.nextId + 1 + 1)).1 t.nextId =
      ⟨none, none, some p, 1, v⟩ := by
    rw [hspec.2 t.nextId hnotctx, hH3def, setSize_ne _ _ _ hnef, hH2n]
  -- the invariant fields shared by both cache cases
  have hInvRoot : t.root = (Ctx.plug (Ctx.bump cs)
      (NTree.node p dp (szp + 1) Sub rp)).rootId := by
    rw [rootId_plug_bump]
    rw [rootId_plug_congr (Y := NTree.node p dp (szp + 1) Sub rp)
      (Z := NTree.node p dp szp NTree.nil rp) rfl cs]
    rw [← hTd]
    exact hInv.hroot
  have hInvSz : NTree.sizesOK (Ctx.plug (Ctx.bump cs)
      (NTree.node p dp (szp + 1) Sub rp)) = true := by
    rw [Ctx.sizesOK_plug, Bool.and_eq_true]
    exact ⟨bump_ctxSizesOK hctxsz, hsub2⟩
  have hInvNd : (Ctx.plug (Ctx.bump cs)
      (NTree.node p dp (szp + 1) Sub rp)).idsOf.Nodup := by
    rw [idsOf_plug_bump]
    exact hnd2
  have hInvBound : ∀ k ∈ (Ctx.plug (Ctx.bump cs)
      (NTree.node p dp (szp + 1) Sub rp)).idsOf, k < t.nextId + 1 := by
    intro k hk
    rw [idsOf_plug_bump, idsOf_plug_sz cs p dp (szp + 1) szp Sub rp] at hk
    rw [hSubDef, Ctx.idsOf_plug, NTree.idsOf_node, NTree.idsOf_node,
      NTree.idsOf_nil] at hk
    simp only [List.nil_append, List.cons_append, List.append_assoc,
      List.mem_append, List.mem_cons] at hk
    have hmem : k = t.nextId ∨
        k ∈ (Ctx.plug cs (NTree.node p dp szp NTree.nil rp)).idsOf := by
      rw [Ctx.idsOf_plug, NTree.idsOf_node, NTree.idsOf_nil]
      simp only [List.nil_append, List.cons_append, List.append_assoc,
        List.mem_append, List.mem_cons]
      tauto
    rcases hmem with h | h
    · omega
    · have := hbT k h
      omega
  have hInvLast : t.last = (Ctx.plug (Ctx.bump cs)
      (NTree.node p dp (szp + 1) Sub rp)).rightmostId := by
    rw [rightmost_plug_bump_congr p dp (szp + 1) Sub rp p dp szp NTree.nil rp
      (by cases rp <;> rfl)]
    rw [← hTd]
    exact hInv.hlast
  by_cases hpf : t.first = some p
  · -- inserting before `first`: the first-cache is refreshed
    have hall : Ctx.allInL cs = true := by
      cases hall0 : Ctx.allInL cs with
      | true => rfl
      | false =>
        obtain ⟨q, hq, hqc⟩ := leftmost_plug_not_allInL hall0 p dp szp NTree.nil rp
        have hq2 : t.first = some q := by
          rw [hInv.hfirst, hTd]
          exact hq
        rw [hpf] at hq2
        have hqp : p = q := Option.some.inj hq2
        rw [← hqp] at hqc
        exact absurd hqc hsep.2.2
    have hff : find_first_node
        (update_sizes_upwards_loop H3 p (t.nextId + 1 + 1)).1
        (t.nextId + 1 + 1) t.nextId = some t.nextId := by
      rw [find_first_node]
      simp only [hHFn]
    have hlink : Tree.link { t with
        heap := hset t.heap t.nextId ⟨none, none, none, 1, v⟩,
        nextId := t.nextId + 1 } ⟨some p, true⟩ t.nextId =
        some { t with
          heap := (update_sizes_upwards H2 p (t.nextId + 1 + 1)).1,
          first := find_first_node
            (update_sizes_upwards H2 p (t.nextId + 1 + 1)).1
            (t.nextId + 1 + 1) t.nextId,
          nextId := t.nextId + 1 } :=
      link_front_eq _ p t.nextId i00 hroot hpf
    rw [husw1, hff] at hlink
    have hrun : Tree.emplace t ⟨some p, true⟩ v =
        some ({ t with
          heap := (update_sizes_upwards_loop H3 p (t.nextId + 1 + 1)).1,
          first := some t.nextId,
          nextId := t.nextId + 1 }, t.nextId) := by
      rw [emplace_eq, hlink]
    refine ⟨_, hrun, ?_⟩
    refine ⟨hInvRoot, hspec.1, hInvSz, hInvNd, hInvBound, ?_, hInvLast⟩
    show some t.nextId = (Ctx.plug (Ctx.bump cs)
      (NTree.node p dp (szp + 1) Sub rp)).leftmostId
    rw [leftmost_plug_allInL (bump_allInL hall)]
    rw [hSubDef]
    rfl
  · -- inserting elsewhere: the caches are untouched
    have hnall : Ctx.allInL cs = false := by
      cases hall0 : Ctx.allInL cs with
      | true =>
        have hq2 : t.first = some p := by
          rw [hInv.hfirst, hTd, leftmost_plug_allInL hall0]
          rfl
        exact absurd hq2 hpf
      | false => rfl
    have hlink : Tree.link { t with
        heap := hset t.heap t.nextId ⟨none, none, none, 1, v⟩,
        nextId := t.nextId + 1 } ⟨some p, true⟩ t.nextId =
        some { t with
          heap := (update_sizes_upwards H2 p (t.nextId + 1 + 1)).1,
          nextId := t.nextId + 1 } :=
      link_left_miss_eq _ p t.nextId i00 hroot hpf
    rw [husw1] at hlink
    have hrun : Tree.emplace t ⟨some p, true⟩ v =
        some ({ t with
          heap := (update_sizes_upwards_loop H3 p (t.nextId + 1 + 1)).1,
          nextId := t.nextId + 1 }, t.nextId) := by
      rw [emplace_eq, hlink]
    refine ⟨_, hrun, ?_⟩
    refine ⟨hInvRoot, hspec.1, hInvSz, hInvNd, hInvBound, ?_, hInvLast⟩
    show t.first = (Ctx.plug (Ctx.bump cs)
      (NTree.node p dp (szp + 1) Sub rp)).leftmostId
    rw [leftmost_plug_bump_indep hnall p dp (szp + 1) Sub rp p dp szp
      NTree.nil rp]
    rw [← hTd]
    exact hInv.hfirst

theorem emplace_right_slot_spec {t : Tree} {T : NTree} (hInv : Inv t T)
    {p dp szp : Nat} {cs : Ctx} {lp : NTree}
    (hT : T = Ctx.plug cs (NTree.node p dp szp lp NTree.nil)) (v : Nat) :
    ∃ t2, Tree.emplace t ⟨some p, false⟩ v = some (t2, t.nextId) ∧
      Inv t2 (Ctx.plug (Ctx.bump cs) (NTree.node p dp (szp + 1) lp
        (NTree.node t.nextId v 1 NTree.nil NTree.nil))) := by
  have hTd : T = Ctx.plug cs (NTree.node p dp szp lp NTree.nil) := hT
  obtain ⟨i00, hroot0⟩ := rootId_plug_isSome cs p dp szp lp NTree.nil
  have hroot : t.root = some i00 := by
    rw [hInv.hroot, hTd]
    exact hroot0
  have hbT : ∀ j ∈ (Ctx.plug cs (NTree.node p dp szp lp NTree.nil)).idsOf,
      j < t.nextId := by
    rw [← hTd]
    exact hInv.hbound
  have hndT : (Ctx.plug cs (NTree.node p dp szp lp NTree.nil)).idsOf.Nodup := by
    rw [← hTd]
    exact hInv.hnd
  have hszT : NTree.sizesOK (Ctx.plug cs (NTree.node p dp szp lp NTree.nil)) = true := by
    rw [← hTd]
    exact hInv.hsz
  have hrepT : reprB t.heap none (Ctx.plug cs (NTree.node p dp szp lp NTree.nil)) = true := by
    rw [← hTd]
    exact hInv.hrepr
  rw [Ctx.sizesOK_plug, Bool.and_eq_true] at hszT
  obtain ⟨hctxsz, hholes⟩ := hszT
  have hszp : szp = 1 + NTree.szF lp := by
    simp only [NTree.sizesOK, Bool.and_eq_true, beq_iff_eq] at hholes
    exact hholes.1.1
  have hsizOKlp : NTree.sizesOK lp = true := by
    simp only [NTree.sizesOK, Bool.and_eq_true, beq_iff_eq] at hholes
    exact hholes.1.2
  have hfmem : p ∈ (Ctx.plug cs (NTree.node p dp szp lp NTree.nil)).idsOf := by
    rw [Ctx.idsOf_plug]
    simp [NTree.idsOf_node]
  have hflt : p < t.nextId := hbT p hfmem
  have hfne : p ≠ t.nextId := Nat.ne_of_lt hflt
  have hnef : t.nextId ≠ p := fun he => hfne he.symm
  have hsep := ctx_sep (c := cs) (j := p)
    (A := lp) (B := NTree.nil) hndT
  set Sub := NTree.node t.nextId v 1 NTree.nil NTree.nil with hSubDef
  set H2 := setParent (setRight (hset t.heap t.nextId ⟨none, none, none, 1, v⟩)
    p (some t.nextId)) t.nextId (some p) with hH2def
  have hH2n : H2 t.nextId = ⟨none, none, some p, 1, v⟩ := by
    rw [hH2def, setParent_self, setRight_ne _ _ _ hnef, hset_self]
  have hH2f : H2 p = { t.heap p with right := some t.nextId } := by
    rw [hH2def, setParent_ne _ _ _ hfne, setRight_self, hset_ne _ _ _ hfne]
  have hH2k : ∀ k, k ≠ t.nextId → k ≠ p → H2 k = t.heap k := by
    intro k h1 h2
    rw [hH2def, setParent_ne _ _ _ h1, setRight_ne _ _ _ h2, hset_ne _ _ _ h1]
  have hrepT2 := hrepT
  rw [Ctx.reprB_plug, Bool.and_eq_true] at hrepT2
  obtain ⟨hctx0, hhole0⟩ := hrepT2
  have hh0 := hhole0
  simp only [reprB, Bool.and_eq_true, beq_iff_eq, and_true, true_and,
    eq_self_iff_true] at hh0
  have hctxmem : ∀ k ∈ Ctx.ctxIds cs,
      k ∈ (Ctx.plug cs (NTree.node p dp szp lp NTree.nil)).idsOf := by
    intro k hk
    rw [Ctx.idsOf_plug]
    rcases (Ctx.mem_ctxIds cs).mp hk with h | h
    · simp [h]
    · simp [h]
  have hlfmem : ∀ k ∈ lp.idsOf,
      k ∈ (Ctx.plug cs (NTree.node p dp szp lp NTree.nil)).idsOf := by
    intro k hk
    rw [Ctx.idsOf_plug]
    simp [NTree.idsOf_node, hk]
  have hfnotlf : ¬ p ∈ lp.idsOf := hsep.1
  have hlfH2 : reprB H2 (some p) lp = true := by
    rw [reprB_frame (fun k hk => hH2k k
      (Nat.ne_of_lt (hbT k (hlfmem k hk)))
      (fun he => hfnotlf (he ▸ hk)))]
    exact hh0.2
  have hrep2 : reprB H2 none
      (Ctx.plug cs (NTree.node p dp szp lp Sub)) = true := by
    rw [Ctx.reprB_plug, Bool.and_eq_true]
    constructor
    · rw [ctxOk_frame (fun k hk => hH2k k
        (Nat.ne_of_lt (hbT k (hctxmem k hk)))
        (fun he => hsep.2.2 (he ▸ hk)))]
      exact hctx0
    · show (((H2 p).parent == Ctx.holePar none cs) &&
        ((H2 p).left == NTree.rootId lp) &&
        ((H2 p).right == NTree.rootId Sub) &&
        ((H2 p).size == szp) &&
        ((H2 p).data == dp) &&
        reprB H2 (some p) lp &&
        reprB H2 (some p) Sub) = true
      rw [Bool.and_eq_true, Bool.and_eq_true, Bool.and_eq_true,
        Bool.and_eq_true, Bool.and_eq_true, Bool.and_eq_true]
      refine ⟨⟨⟨⟨⟨⟨?_, ?_⟩, ?_⟩, ?_⟩, ?_⟩, hlfH2⟩, ?_⟩
      · rw [beq_iff_eq, hH2f]
        exact hh0.1.1.1.1.1
      · rw [beq_iff_eq, hH2f]
        exact hh0.1.1.1.1.2
      · rw [beq_iff_eq, hH2f]
        rfl
      · rw [beq_iff_eq, hH2f]
        exact hh0.1.1.2
      · rw [beq_iff_eq, hH2f]
        exact hh0.1.2
      · simp [reprB, hH2n, hSubDef, NTree.rootId]
  set H3 := setSize H2 p (szp + 1) with hH3def
  have e2 : update_size H2 p = (H3, true) := by
    have hraw : update_size H2 p =
        (if (1 + get_size H2 (H2 p).left + get_size H2 (H2 p).right) ≠ (H2 p).size
        then (setSize H2 p
            (1 + get_size H2 (H2 p).left + get_size H2 (H2 p).right), true)
        else (H2, false)) := rfl
    rw [hraw]
    have hl : get_size H2 (H2 p).left = NTree.szF lp := by
      rw [hH2f]
      show get_size H2 ((t.heap p).left) = NTree.szF lp
      rw [hh0.1.1.1.1.2]
      exact get_size_rootId hlfH2
    have hr : get_size H2 (H2 p).right = 1 := by
      rw [hH2f]
      show (H2 t.nextId).size = 1
      rw [hH2n]
    have hs : (H2 p).size = szp := by
      rw [hH2f]
      exact hh0.1.1.2
    rw [hl, hr, hs]
    have hval : 1 + NTree.szF lp + 1 = szp + 1 := by omega
    rw [hval, if_pos (by omega)]
  have hnd1 : (Ctx.plug cs (NTree.node p dp szp lp Sub)).idsOf.Nodup := by
    have hndT2 := hndT
    rw [Ctx.idsOf_plug, NTree.idsOf_node, NTree.idsOf_nil] at hndT2
    rw [hSubDef, Ctx.idsOf_plug, NTree.idsOf_node, NTree.idsOf_node,
      NTree.idsOf_nil]
    simp only [List.nil_append, List.cons_append, List.append_assoc,
      List.append_nil] at hndT2 ⊢
    have heq : (Ctx.leftEntries cs).map Prod.fst ++
        (NTree.idsOf lp ++ p :: t.nextId :: (Ctx.rightEntries cs).map Prod.fst) =
        ((Ctx.leftEntries cs).map Prod.fst ++ (NTree.idsOf lp ++ [p])) ++
          t.nextId :: (Ctx.rightEntries cs).map Prod.fst := by
      simp
    have heq2 : ((Ctx.leftEntries cs).map Prod.fst ++ (NTree.idsOf lp ++ [p])) ++
        (Ctx.rightEntries cs).map Prod.fst =
        (Ctx.leftEntries cs).map Prod.fst ++
          (NTree.idsOf lp ++ p :: (Ctx.rightEntries cs).map Prod.fst) := by
      simp
    rw [heq]
    refine nodup_insert_fresh (by rw [heq2]; exact hndT2) ?_
    intro hmem
    rw [heq2] at hmem
    have hmem2 : t.nextId ∈
        (Ctx.plug cs (NTree.node p dp szp lp NTree.nil)).idsOf := by
      rw [Ctx.idsOf_plug, NTree.idsOf_node, NTree.idsOf_nil]
      simp only [List.nil_append, List.cons_append, List.append_assoc,
        List.append_nil]
      exact hmem
    have hlt := hbT t.nextId hmem2
    omega
  have hnd2 : (Ctx.plug cs (NTree.node p dp (szp + 1) lp Sub)).idsOf.Nodup := by
    rw [idsOf_plug_sz cs p dp (szp + 1) szp lp Sub]
    exact hnd1
  have hrep3 : reprB H3 none
      (Ctx.plug cs (NTree.node p dp (szp + 1) lp Sub)) = true :=
    reprB_setSize_hole hrep2 hnd1
  have hsub2 : NTree.sizesOK (NTree.node p dp (szp + 1) lp Sub) = true := by
    show ((szp + 1 == 1 + NTree.szF lp + NTree.szF Sub) &&
      NTree.sizesOK lp && NTree.sizesOK Sub) = true
    rw [Bool.and_eq_true, Bool.and_eq_true]
    have hsubOK : NTree.sizesOK Sub = true := by rw [hSubDef]; rfl
    refine ⟨⟨?_, hsizOKlp⟩, hsubOK⟩
    rw [beq_iff_eq, hSubDef]
    show szp + 1 = 1 + NTree.szF lp + 1
    omega
  have hfuel : Ctx.depth cs + 1 ≤ t.nextId + 1 + 1 := by
    have hd := depth_cnt_le cs (NTree.node p dp szp lp NTree.nil)
    have hcnt : (Ctx.plug cs (NTree.node p dp szp lp NTree.nil)).cnt ≤ t.nextId := by
      rw [← NTree.length_idsOf]
      exact nodup_len_le hndT hbT
    have hc1 := NTree.cnt_node p dp szp lp NTree.nil
    omega
  have hspec := usw_loop_spec (c := cs) (i := p) (d := dp)
    (l := lp) (r := Sub)
    hrep3 hsub2 hctxsz hnd2 hfuel
  have husw : update_sizes_upwards H2 p (t.nextId + 1 + 1) =
      ((update_sizes_upwards_loop H3 p (t.nextId + 1 + 1)).1,
       (update_sizes_upwards_loop H3 p (t.nextId + 1 + 1)).2) := by
    rw [update_sizes_upwards]
    simp only [e2]
  have husw1 : (update_sizes_upwards H2 p (t.nextId + 1 + 1)).1 =
      (update_sizes_upwards_loop H3 p (t.nextId + 1 + 1)).1 := by
    rw [husw]
  have hnotctx : ¬ t.nextId ∈ Ctx.ctxIds cs := by
    intro hm
    have hlt := hbT t.nextId (hctxmem t.nextId hm)
    omega
  have hHFn : (update_sizes_upwards_loop H3 p (t.nextId + 1 + 1)).1 t.nextId =
      ⟨none, none, some p, 1, v⟩ := by
    rw [hspec.2 t.nextId hnotctx, hH3def, setSize_ne _ _ _ hnef, hH2n]
  have hInvRoot : t.root = (Ctx.plug (Ctx.bump cs)
      (NTree.node p dp (szp + 1) lp Sub)).rootId := by
    rw [rootId_plug_bump]
    rw [rootId_plug_congr (Y := NTree.node p dp (szp + 1) lp Sub)
      (Z := NTree.node p dp szp lp NTree.nil) rfl cs]
    rw [← hTd]
    exact hInv.hroot
  have hInvSz : NTree.sizesOK (Ctx.plug (Ctx.bump cs)
      (NTree.node p dp (szp + 1) lp Sub)) = true := by
    rw [Ctx.sizesOK_plug, Bool.and_eq_true]
    exact ⟨bump_ctxSizesOK hctxsz, hsub2⟩
  have hInvNd : (Ctx.plug (Ctx.bump cs)
      (NTree.node p dp (szp + 1) lp Sub)).idsOf.Nodup := by
    rw [idsOf_plug_bump]
    exact hnd2
  have hInvBound : ∀ k ∈ (Ctx.plug (Ctx.bump cs)
      (NTree.node p dp (szp + 1) lp Sub)).idsOf, k < t.nextId + 1 := by
    intro k hk
    rw [idsOf_plug_bump, idsOf_plug_sz cs p dp (szp + 1) szp lp Sub] at hk
    rw [hSubDef, Ctx.idsOf_plug, NTree.idsOf_node, NTree.idsOf_node,
      NTree.idsOf_nil] at hk
    simp only [List.nil_append, List.cons_append, List.append_assoc,
      List.append_nil, List.mem_append, List.mem_cons] at hk
    have hmem : k = t.nextId ∨
        k ∈ (Ctx.plug cs (NTree.node p dp szp lp NTree.nil)).idsOf := by
      rw [Ctx.idsOf_plug, NTree.idsOf_node, NTree.idsOf_nil]
      simp only [List.nil_append, List.cons_append, List.append_assoc,
        List.append_nil, List.mem_append, List.mem_cons]
      tauto
    rcases hmem with h | h
    · omega
    · have := hbT k h
      omega
  have hInvFirst : t.first = (Ctx.plug (Ctx.bump cs)
      (NTree.node p dp (szp + 1) lp Sub)).leftmostId := by
    rw [leftmost_plug_bump_congr p dp (szp + 1) lp Sub p dp szp lp NTree.nil
      (by cases lp <;> rfl)]
    rw [← hTd]
    exact hInv.hfirst
  by_cases hpl : t.last = some p
  · have hall : Ctx.allInR cs = true := by
      cases hall0 : Ctx.allInR cs with
      | true => rfl
      | false =>
        obtain ⟨q, hq, hqc⟩ := rightmost_plug_not_allInR hall0 p dp szp lp NTree.nil
        have hq2 : t.last = some q := by
          rw [hInv.hlast, hTd]
          exact hq
        rw [hpl] at hq2
        have hqp : p = q := Option.some.inj hq2
        rw [← hqp] at hqc
        exact absurd hqc hsep.2.2
    have hff : find_last_node
        (update_sizes_upwards_loop H3 p (t.nextId + 1 + 1)).1
        (t.nextId + 1 + 1) t.nextId = some t.nextId := by
      rw [find_last_node]
      simp only [hHFn]
    have hlink : Tree.link { t with
        heap := hset t.heap t.nextId ⟨none, none, none, 1, v⟩,
        nextId := t.nextId + 1 } ⟨some p, false⟩ t.nextId =
        some { t with
          heap := (update_sizes_upwards H2 p (t.nextId + 1 + 1)).1,
          last := find_last_node
            (update_sizes_upwards H2 p (t.nextId + 1 + 1)).1
            (t.nextId + 1 + 1) t.nextId,
          nextId := t.nextId + 1 } :=
      link_back_eq _ p t.nextId i00 hroot hpl
    rw [husw1, hff] at hlink
    have hrun : Tree.emplace t ⟨some p, false⟩ v =
        some ({ t with
          heap := (update_sizes_upwards_loop H3 p (t.nextId + 1 + 1)).1,
          last := some t.nextId,
          nextId := t.nextId + 1 }, t.nextId) := by
      rw [emplace_eq, hlink]
    refine ⟨_, hrun, ?_⟩
    refine ⟨hInvRoot, hspec.1, hInvSz, hInvNd, hInvBound, hInvFirst, ?_⟩
    show some t.nextId = (Ctx.plug (Ctx.bump cs)
      (NTree.node p dp (szp + 1) lp Sub)).rightmostId
    rw [rightmost_plug_allInR (bump_allInR hall)]
    rw [hSubDef]
    rfl
  · have hnall : Ctx.allInR cs = false := by
      cases hall0 : Ctx.allInR cs with
      | true =>
        have hq2 : t.last = some p := by
          rw [hInv.hlast, hTd, rightmost_plug_allInR hall0]
          rfl
        exact absurd hq2 hpl
      | false => rfl
    have hlink : Tree.link { t with
        heap := hset t.heap t.nextId ⟨none, none, none, 1, v⟩,
        nextId := t.nextId + 1 } ⟨some p, false⟩ t.nextId =
        some { t with
          heap := (update_sizes_upwards H2 p (t.nextId + 1 + 1)).1,
          nextId := t.nextId + 1 } :=
      link_right_miss_eq _ p t.nextId i00 hroot hpl
    rw [husw1] at hlink
    have hrun : Tree.emplace t ⟨some p, false⟩ v =
        some ({ t with
          heap := (update_sizes_upwards_loop H3 p (t.nextId + 1 + 1)).1,
          nextId := t.nextId + 1 }, t.nextId) := by
      rw [emplace_eq, hlink]
    refine ⟨_, hrun, ?_⟩
    refine ⟨hInvRoot, hspec.1, hInvSz, hInvNd, hInvBound, hInvFirst, ?_⟩
    show t.last = (Ctx.plug (Ctx.bump cs)
      (NTree.node p dp (szp + 1) lp Sub)).rightmostId
    rw [rightmost_plug_bump_indep hnall p dp (szp + 1) lp Sub p dp szp lp
      NTree.nil]
    rw [← hTd]
    exact hInv.hlast

theorem link_nextId {t : Tree} {pos : InsertPosition} {n : Nat} {t2 : Tree}
    (h : Tree.link t pos n = some t2) : t2.nextId = t.nextId := by
  rw [Tree.link] at h
  cases hr : t.root with
  | none =>
    rw [hr] at h
    have he := Option.some.inj h
    rw [← he]
  | some r0 =>
    rw [hr] at h
    cases hnl : node_link t.heap pos n t.fuel with
    | none =>
      rw [hnl] at h
      exact Option.noConfusion h
    | some pr =>
      cases pr with
      | mk h' s' =>
        simp only [hnl] at h
        split at h
        · have he := Option.some.inj h
          rw [← he]
        · split at h
          · have he := Option.some.inj h
            rw [← he]
          · have he := Option.some.inj h
            rw [← he]

theorem emplace_nextId {t : Tree} {pos : InsertPosition} {v : Nat} {t2 : Tree}
    {nn : Nat} (h : Tree.emplace t pos v = some (t2, nn)) :
    t2.nextId = t.nextId + 1 ∧ nn = t.nextId := by
  rw [emplace_eq] at h
  cases hl : Tree.link { t with
      heap := hset t.heap t.nextId ⟨none, none, none, 1, v⟩,
      nextId := t.nextId + 1 } pos t.nextId with
  | none =>
    rw [hl] at h
    exact Option.noConfusion h
  | some tl =>
    rw [hl] at h
    have he := Option.some.inj h
    have h1 : tl = t2 := congrArg Prod.fst he
    have h2 : t.nextId = nn := congrArg Prod.snd he
    have h3 := link_nextId hl
    constructor
    · rw [← h1]
      exact h3
    · exact h2.symm

theorem emplace_before_some_spec {t : Tree} {T : NTree} (hInv : Inv t T)
    {c : Ctx} {n dn szn : Nat} {ln rn : NTree}
    (hT : T = Ctx.plug c (NTree.node n dn szn ln rn)) (v : Nat) :
    ∃ t2 cnew, Basic.emplace_node_before t (some n) v = some (t2, t.nextId) ∧
      Inv t2 (Ctx.plug cnew (NTree.node t.nextId v 1 NTree.nil NTree.nil)) ∧
      Ctx.leftEntries cnew = Ctx.leftEntries c ++ ln.entries ∧
      Ctx.rightEntries cnew = (n, dn) :: rn.entries ++ Ctx.rightEntries c ∧
      t2.nextId = t.nextId + 1 := by
  have hrepT : reprB t.heap none (Ctx.plug c (NTree.node n dn szn ln rn)) = true := by
    rw [← hT]
    exact hInv.hrepr
  rw [Ctx.reprB_plug, Bool.and_eq_true] at hrepT
  obtain ⟨hctx0, hhole0⟩ := hrepT
  have hh0 := hhole0
  simp only [reprB, Bool.and_eq_true, beq_iff_eq] at hh0
  have hleft : (t.heap n).left = ln.rootId := hh0.1.1.1.1.1.2
  cases hln : ln with
  | nil =>
    rw [hln] at hleft
    have hTnil : T = Ctx.plug c (NTree.node n dn szn NTree.nil rn) := by
      rw [hT, hln]
    obtain ⟨t2, hrun, hInv2⟩ := emplace_left_slot_spec hInv hTnil v
    have hpos : get_prev_insert_position t.heap n t.fuel =
        (⟨some n, true⟩ : InsertPosition) := by
      rw [get_prev_insert_position]
      simp only [hleft, NTree.rootId]
    have hstep : Basic.emplace_node_before t (some n) v =
        Tree.emplace t ⟨some n, true⟩ v := by
      show t.emplace (get_prev_insert_position t.heap n t.fuel) v = _
      rw [hpos]
    refine ⟨t2, Ctx.inL n dn (szn + 1) (Ctx.bump c) rn, ?_, ?_, ?_, ?_, ?_⟩
    · rw [hstep]
      exact hrun
    · exact hInv2
    · show Ctx.leftEntries (Ctx.bump c) = Ctx.leftEntries c ++ NTree.entries NTree.nil
      rw [bump_leftEntries]
      simp [NTree.entries]
    · show (n, dn) :: NTree.entries rn ++ Ctx.rightEntries (Ctx.bump c) =
        (n, dn) :: rn.entries ++ Ctx.rightEntries c
      rw [bump_rightEntries]
    · exact (emplace_nextId hrun).1
  | node a da sza la ra =>
    rw [hln] at hleft
    have hrepln : reprB t.heap (some n) (NTree.node a da sza la ra) = true := by
      rw [← hln]
      exact hh0.1.2
    obtain ⟨c2, p, dp, szp, lp, hdec2, hall2⟩ := locate_rightmost a da sza la ra
    have hcnt : (NTree.node a da sza la ra).cnt ≤ t.nextId := by
      have hbT : ∀ j ∈ T.idsOf, j < t.nextId := hInv.hbound
      have hndT : T.idsOf.Nodup := hInv.hnd
      have hlen : T.idsOf.length ≤ t.nextId := nodup_len_le hndT hbT
      rw [← NTree.length_idsOf]
      rw [hT, hln, Ctx.idsOf_plug, NTree.idsOf_node] at hlen
      simp only [List.length_append, List.length_cons] at hlen
      omega
    have hflast : find_last_node t.heap t.fuel a =
        (NTree.node a da sza la ra).rightmostId :=
      find_last_spec hrepln rfl (by show _ ≤ t.nextId + 1; omega)
    have hrm : (NTree.node a da sza la ra).rightmostId = some p := by
      rw [hdec2, rightmost_plug_allInR hall2]
      rfl
    have hprev : find_prev_node t.heap n t.fuel = some p := by
      rw [find_prev_node]
      simp only [hleft, NTree.rootId]
      rw [hflast, hrm]
    have hpos : get_prev_insert_position t.heap n t.fuel =
        (⟨some p, false⟩ : InsertPosition) := by
      rw [get_prev_insert_position]
      simp only [hleft, NTree.rootId]
      rw [hprev]
    have hstep : Basic.emplace_node_before t (some n) v =
        Tree.emplace t ⟨some p, false⟩ v := by
      show t.emplace (get_prev_insert_position t.heap n t.fuel) v = _
      rw [hpos]
    have hTD : T = Ctx.plug (Ctx.comp (Ctx.inL n dn szn c rn) c2)
        (NTree.node p dp szp lp NTree.nil) := by
      rw [hT, hln, hdec2, Ctx.plug_comp]
      rfl
    obtain ⟨t2, hrun, hInv2⟩ := emplace_right_slot_spec hInv hTD v
    refine ⟨t2, Ctx.inR p dp (szp + 1) lp
      (Ctx.bump (Ctx.comp (Ctx.inL n dn szn c rn) c2)), ?_, ?_, ?_, ?_, ?_⟩
    · rw [hstep]
      exact hrun
    · exact hInv2
    · show Ctx.leftEntries (Ctx.bump (Ctx.comp (Ctx.inL n dn szn c rn) c2)) ++
        NTree.entries lp ++ [(p, dp)] =
        Ctx.leftEntries c ++ NTree.entries (NTree.node a da sza la ra)
      rw [bump_leftEntries, Ctx.leftEntries_comp]
      rw [show Ctx.leftEntries (Ctx.inL n dn szn c rn) = Ctx.leftEntries c from rfl]
      rw [hdec2, Ctx.entries_plug, allInR_rightEntries hall2]
      show _ = Ctx.leftEntries c ++ (Ctx.leftEntries c2 ++
        (NTree.entries lp ++ (p, dp) :: NTree.entries NTree.nil) ++ [])
      simp [NTree.entries]
    · show Ctx.rightEntries (Ctx.bump (Ctx.comp (Ctx.inL n dn szn c rn) c2)) =
        (n, dn) :: rn.entries ++ Ctx.rightEntries c
      rw [bump_rightEntries, Ctx.rightEntries_comp, allInR_rightEntries hall2]
      rfl
    · exact (emplace_nextId hrun).1

theorem emplace_before_none_spec {t : Tree} {T : NTree} (hInv : Inv t T) (v : Nat) :
    (T = NTree.nil → ∃ t2, Basic.emplace_node_before t none v = some (t2, t.nextId) ∧
      Inv t2 (NTree.node t.nextId v 1 NTree.nil NTree.nil) ∧
      t2.nextId = t.nextId + 1) ∧
    (∀ i0 d0 sz0 l0 r0, T = NTree.node i0 d0 sz0 l0 r0 →
      ∃ t2 cnew, Basic.emplace_node_before t none v = some (t2, t.nextId) ∧
        Inv t2 (Ctx.plug cnew (NTree.node t.nextId v 1 NTree.nil NTree.nil)) ∧
        Ctx.leftEntries cnew = T.entries ∧ Ctx.rightEntries cnew = [] ∧
        t2.nextId = t.nextId + 1) := by
  constructor
  · intro hnil
    have hlastn : t.last = none := by
      rw [hInv.hlast, hnil]
      rfl
    have hstep : Basic.emplace_node_before t none v = Tree.emplace t {} v := by
      show t.emplace t.get_last_insert_position v = _
      rw [Tree.get_last_insert_position, hlastn]
    obtain ⟨t2, hrun, hInv2⟩ := emplace_empty_spec (hnil ▸ hInv) v
    refine ⟨t2, ?_, hInv2, (emplace_nextId hrun).1⟩
    rw [hstep]
    exact hrun
  · intro i0 d0 sz0 l0 r0 hTn
    obtain ⟨c, f, df, szf, lf, hdec, hall⟩ := locate_rightmost i0 d0 sz0 l0 r0
    have hTd : T = Ctx.plug c (NTree.node f df szf lf NTree.nil) := hTn.trans hdec
    have hlastf : t.last = some f := by
      rw [hInv.hlast, hTd, rightmost_plug_allInR hall]
      rfl
    have hstep : Basic.emplace_node_before t none v =
        Tree.emplace t ⟨some f, false⟩ v := by
      show t.emplace t.get_last_insert_position v = _
      rw [Tree.get_last_insert_position, hlastf]
    obtain ⟨t2, hrun, hInv2⟩ := emplace_right_slot_spec hInv hTd v
    refine ⟨t2, Ctx.inR f df (szf + 1) lf (Ctx.bump c), ?_, ?_, ?_, ?_, ?_⟩
    · rw [hstep]
      exact hrun
    · exact hInv2
    · show Ctx.leftEntries (Ctx.bump c) ++ NTree.entries lf ++ [(f, df)] = T.entries
      rw [bump_leftEntries, hTd, Ctx.entries_plug, allInR_rightEntries hall]
      simp [NTree.entries]
    · show Ctx.rightEntries (Ctx.bump c) = []
      rw [bump_rightEntries]
      exact allInR_rightEntries hall
    · exact (emplace_nextId hrun).1

theorem chain_cons_eq (t : Tree) (node v : Nat) (vs : List Nat) :
    Basic.insert_nodes_chain t node (v :: vs) =
      (match Tree.emplace t ⟨some node, false⟩ v with
       | some (t2, _) => Basic.insert_nodes_chain t2 t.nextId vs
       | none => none) := by
  have h1 : Basic.insert_nodes_chain t node (v :: vs) =
      (match Tree.link { t with
          heap := hset t.heap t.nextId ⟨none, none, none, 1, v⟩,
          nextId := t.nextId + 1 } ⟨some node, false⟩ t.nextId with
       | some t2 => Basic.insert_nodes_chain t2 t.nextId vs
       | none => none) := rfl
  rw [h1, emplace_eq]
  cases hl : Tree.link { t with
      heap := hset t.heap t.nextId ⟨none, none, none, 1, v⟩,
      nextId := t.nextId + 1 } ⟨some node, false⟩ t.nextId with
  | none => rfl
  | some tl => rfl

theorem freshEntries_len : ∀ (vs : List Nat) (start : Nat),
    (freshEntries start vs).length = vs.length := by
  intro vs
  induction vs with
  | nil => intro start; rfl
  | cons v rest ih =>
    intro start
    show (freshEntries (start + 1) rest).length + 1 = rest.length + 1
    rw [ih]

theorem insert_nodes_chain_spec : ∀ (vs : List Nat) {t : Tree} {cm : Ctx}
    {m dm : Nat}
    (hInv : Inv t (Ctx.plug cm (NTree.node m dm 1 NTree.nil NTree.nil))),
    ∃ t2 cm2 m2 dm2,
      Basic.insert_nodes_chain t m vs = some t2 ∧
      Inv t2 (Ctx.plug cm2 (NTree.node m2 dm2 1 NTree.nil NTree.nil)) ∧
      Ctx.leftEntries cm2 ++ [(m2, dm2)] =
        Ctx.leftEntries cm ++ (m, dm) :: freshEntries t.nextId vs ∧
      Ctx.rightEntries cm2 = Ctx.rightEntries cm ∧
      t2.nextId = t.nextId + vs.length := by
  intro vs
  induction vs with
  | nil =>
    intro t cm m dm hInv
    exact ⟨t, cm, m, dm, rfl, hInv, by simp [freshEntries], rfl, rfl⟩
  | cons v rest ih =>
    intro t cm m dm hInv
    obtain ⟨t1, hrun1, hInv1⟩ := emplace_right_slot_spec hInv rfl v
    have hn1 := emplace_nextId hrun1
    have hInv1b : Inv t1 (Ctx.plug
        (Ctx.inR m dm (1 + 1) NTree.nil (Ctx.bump cm))
        (NTree.node t.nextId v 1 NTree.nil NTree.nil)) := hInv1
    obtain ⟨t2, cm2, m2, dm2, hrun2, hInv2, hle, hre, hni⟩ := ih hInv1b
    refine ⟨t2, cm2, m2, dm2, ?_, hInv2, ?_, ?_, ?_⟩
    · rw [chain_cons_eq, hrun1]
      exact hrun2
    · rw [hle, hn1.1]
      show Ctx.leftEntries (Ctx.bump cm) ++ NTree.entries NTree.nil ++ [(m, dm)] ++
        (t.nextId, v) :: freshEntries (t.nextId + 1) rest =
        Ctx.leftEntries cm ++ (m, dm) :: (t.nextId, v) ::
          freshEntries (t.nextId + 1) rest
      rw [bump_leftEntries]
      simp [NTree.entries]
    · rw [hre]
      show Ctx.rightEntries (Ctx.bump cm) = Ctx.rightEntries cm
      exact bump_rightEntries cm
    · rw [hni, hn1.1]
      show t.nextId + 1 + rest.length = t.nextId + (rest.length + 1)
      omega

theorem basic_insert_before_some_spec {t : Tree} {T : NTree} (hInv : Inv t T)
    {c : Ctx} {n dn szn : Nat} {ln rn : NTree}
    (hT : T = Ctx.plug c (NTree.node n dn szn ln rn)) (v : Nat) (vs : List Nat) :
    ∃ t2 T2, Basic.insert_nodes_before t (some n) (v :: vs) =
        some (t2, some t.nextId) ∧
      Inv t2 T2 ∧
      T2.entries = Ctx.leftEntries c ++ ln.entries ++
        freshEntries t.nextId (v :: vs) ++
        (n, dn) :: rn.entries ++ Ctx.rightEntries c ∧
      t2.nextId = t.nextId + (v :: vs).length := by
  obtain ⟨t1, cnew, hrun1, hInv1, hleq, hreq, hni1⟩ :=
    emplace_before_some_spec hInv hT v
  obtain ⟨t2, cm2, m2, dm2, hrun2, hInv2, hle, hre, hni⟩ :=
    insert_nodes_chain_spec vs hInv1
  refine ⟨t2, _, ?_, hInv2, ?_, ?_⟩
  · rw [Basic.insert_nodes_before]
    simp only [hrun1, hrun2]
  · rw [show (Ctx.plug cm2 (NTree.node m2 dm2 1 NTree.nil NTree.nil)).entries =
        (Ctx.leftEntries cm2 ++ [(m2, dm2)]) ++ Ctx.rightEntries cm2 from by
      rw [Ctx.entries_plug]
      simp [NTree.entries]]
    rw [hle, hre, hleq, hreq, hni1]
    simp [freshEntries]
  · rw [hni, hni1]
    show t.nextId + 1 + vs.length = t.nextId + (vs.length + 1)
    omega

theorem basic_insert_before_none_spec {t : Tree} {T : NTree} (hInv : Inv t T)
    (v : Nat) (vs : List Nat) :
    ∃ t2 T2, Basic.insert_nodes_before t none (v :: vs) =
        some (t2, some t.nextId) ∧
      Inv t2 T2 ∧
      T2.entries = T.entries ++ freshEntries t.nextId (v :: vs) ∧
      t2.nextId = t.nextId + (v :: vs).length := by
  cases hTc : T with
  | nil =>
    obtain ⟨t1, hrun1, hInv1, hni1⟩ := (emplace_before_none_spec hInv v).1 hTc
    have hInv1b : Inv t1 (Ctx.plug Ctx.top
        (NTree.node t.nextId v 1 NTree.nil NTree.nil)) := hInv1
    obtain ⟨t2, cm2, m2, dm2, hrun2, hInv2, hle, hre, hni⟩ :=
      insert_nodes_chain_spec vs hInv1b
    refine ⟨t2, _, ?_, hInv2, ?_, ?_⟩
    · rw [Basic.insert_nodes_before]
      simp only [hrun1, hrun2]
    · rw [show (Ctx.plug cm2 (NTree.node m2 dm2 1 NTree.nil NTree.nil)).entries =
          (Ctx.leftEntries cm2 ++ [(m2, dm2)]) ++ Ctx.rightEntries cm2 from by
        rw [Ctx.entries_plug]
        simp [NTree.entries]]
      rw [hle, hre, hni1]
      show Ctx.leftEntries Ctx.top ++ (t.nextId, v) ::
          freshEntries (t.nextId + 1) vs ++ Ctx.rightEntries Ctx.top =
        NTree.entries NTree.nil ++ freshEntries t.nextId (v :: vs)
      simp [NTree.entries, Ctx.leftEntries, Ctx.rightEntries, freshEntries]
    · rw [hni, hni1]
      show t.nextId + 1 + vs.length = t.nextId + (vs.length + 1)
      omega
  | node i0 d0 sz0 l0 r0 =>
    obtain ⟨t1, cnew, hrun1, hInv1, hleq, hreq, hni1⟩ :=
      (emplace_before_none_spec hInv v).2 i0 d0 sz0 l0 r0 hTc
    obtain ⟨t2, cm2, m2, dm2, hrun2, hInv2, hle, hre, hni⟩ :=
      insert_nodes_chain_spec vs hInv1
    refine ⟨t2, _, ?_, hInv2, ?_, ?_⟩
    · rw [Basic.insert_nodes_before]
      simp only [hrun1, hrun2]
    · rw [show (Ctx.plug cm2 (NTree.node m2 dm2 1 NTree.nil NTree.nil)).entries =
          (Ctx.leftEntries cm2 ++ [(m2, dm2)]) ++ Ctx.rightEntries cm2 from by
        rw [Ctx.entries_plug]
        simp [NTree.entries]]
      rw [hle, hre, hleq, hreq, hni1, ← hTc]
      simp [freshEntries]
    · rw [hni, hni1]
      show t.nextId + 1 + vs.length = t.nextId + (vs.length + 1)
      omega

theorem drop_leftEntries (c : Ctx) :
    (Ctx.drop c).leftEntries = c.leftEntries := by
  induction c with
  | top => rfl
  | inL i d sz c r ih => simp [Ctx.drop, Ctx.leftEntries, ih]
  | inR i d sz l c ih => simp [Ctx.drop, Ctx.leftEntries, ih]

theorem drop_rightEntries (c : Ctx) :
    (Ctx.drop c).rightEntries = c.rightEntries := by
  induction c with
  | top => rfl
  | inL i d sz c r ih => simp [Ctx.drop, Ctx.rightEntries, ih]
  | inR i d sz l c ih => simp [Ctx.drop, Ctx.rightEntries, ih]

theorem drop_ctxIds (c : Ctx) : (Ctx.drop c).ctxIds = c.ctxIds := by
  induction c with
  | top => rfl
  | inL i d sz c r ih => simp [Ctx.drop, Ctx.ctxIds, ih]
  | inR i d sz l c ih => simp [Ctx.drop, Ctx.ctxIds, ih]

theorem drop_allInL {c : Ctx} : Ctx.allInL (Ctx.drop c) = Ctx.allInL c := by
  induction c with
  | top => rfl
  | inL i d sz c r ih => simp [Ctx.drop, Ctx.allInL, ih]
  | inR i d sz l c ih => simp [Ctx.drop, Ctx.allInL]

theorem drop_allInR {c : Ctx} : Ctx.allInR (Ctx.drop c) = Ctx.allInR c := by
  induction c with
  | top => rfl
  | inL i d sz c r ih => simp [Ctx.drop, Ctx.allInR]
  | inR i d sz l c ih => simp [Ctx.drop, Ctx.allInR, ih]

theorem idsOf_plug_drop (c : Ctx) (X : NTree) :
    (Ctx.plug (Ctx.drop c) X).idsOf = (Ctx.plug c X).idsOf := by
  simp [Ctx.idsOf_plug, drop_leftEntries, drop_rightEntries]

theorem entries_plug_drop (c : Ctx) (X : NTree) :
    (Ctx.plug (Ctx.drop c) X).entries = (Ctx.plug c X).entries := by
  simp [Ctx.entries_plug, drop_leftEntries, drop_rightEntries]

theorem rootId_plug_drop (c : Ctx) (X : NTree) :
    (Ctx.plug (Ctx.drop c) X).rootId = (Ctx.plug c X).rootId := by
  induction c generalizing X with
  | top => rfl
  | inL i d sz c r ih =>
    show (Ctx.plug (Ctx.drop c) (NTree.node i d (sz - 1) X r)).rootId =
      (Ctx.plug c (NTree.node i d sz X r)).rootId
    rw [ih]
    exact rootId_plug_congr (Y := NTree.node i d (sz - 1) X r)
      (Z := NTree.node i d sz X r) rfl c
  | inR i d sz l c ih =>
    show (Ctx.plug (Ctx.drop c) (NTree.node i d (sz - 1) l X)).rootId =
      (Ctx.plug c (NTree.node i d sz l X)).rootId
    rw [ih]
    exact rootId_plug_congr (Y := NTree.node i d (sz - 1) l X)
      (Z := NTree.node i d sz l X) rfl c

theorem drop_ctxSizesOK {c : Ctx} {hs : Nat}
    (h : Ctx.ctxSizesOK c (hs + 1) = true) :
    Ctx.ctxSizesOK (Ctx.drop c) hs = true := by
  induction c generalizing hs with
  | top => rfl
  | inL i d sz c r ih =>
    simp only [Ctx.ctxSizesOK, Bool.and_eq_true, beq_iff_eq] at h
    simp only [Ctx.drop, Ctx.ctxSizesOK, Bool.and_eq_true, beq_iff_eq]
    refine ⟨⟨by omega, h.1.2⟩, ?_⟩
    apply ih
    rw [show sz - 1 + 1 = sz from by omega]
    exact h.2
  | inR i d sz l c ih =>
    simp only [Ctx.ctxSizesOK, Bool.and_eq_true, beq_iff_eq] at h
    simp only [Ctx.drop, Ctx.ctxSizesOK, Bool.and_eq_true, beq_iff_eq]
    refine ⟨⟨by omega, h.1.2⟩, ?_⟩
    apply ih
    rw [show sz - 1 + 1 = sz from by omega]
    exact h.2

theorem leftmost_plug_drop_congr : ∀ {c : Ctx} (i d s : Nat) (l r : NTree)
    (i2 d2 s2 : Nat) (l2 r2 : NTree),
    (NTree.node i d s l r).leftmostId = (NTree.node i2 d2 s2 l2 r2).leftmostId →
    (Ctx.plug (Ctx.drop c) (NTree.node i d s l r)).leftmostId =
      (Ctx.plug c (NTree.node i2 d2 s2 l2 r2)).leftmostId := by
  intro c
  induction c with
  | top => intro i d s l r i2 d2 s2 l2 r2 h; exact h
  | inL j dj szj c2 rj ih =>
    intro i d s l r i2 d2 s2 l2 r2 h
    show (Ctx.plug (Ctx.drop c2) (NTree.node j dj (szj - 1)
      (NTree.node i d s l r) rj)).leftmostId =
      (Ctx.plug c2 (NTree.node j dj szj (NTree.node i2 d2 s2 l2 r2) rj)).leftmostId
    apply ih
    show (NTree.node i d s l r).leftmostId = (NTree.node i2 d2 s2 l2 r2).leftmostId
    exact h
  | inR j dj szj lj c2 ih =>
    intro i d s l r i2 d2 s2 l2 r2 h
    show (Ctx.plug (Ctx.drop c2) (NTree.node j dj (szj - 1) lj
      (NTree.node i d s l r))).leftmostId =
      (Ctx.plug c2 (NTree.node j dj szj lj (NTree.node i2 d2 s2 l2 r2))).leftmostId
    apply ih
    cases lj <;> rfl

theorem rightmost_plug_drop_congr : ∀ {c : Ctx} (i d s : Nat) (l r : NTree)
    (i2 d2 s2 : Nat) (l2 r2 : NTree),
    (NTree.node i d s l r).rightmostId = (NTree.node i2 d2 s2 l2 r2).rightmostId →
    (Ctx.plug (Ctx.drop c) (NTree.node i d s l r)).rightmostId =
      (Ctx.plug c (NTree.node i2 d2 s2 l2 r2)).rightmostId := by
  intro c
  induction c with
  | top => intro i d s l r i2 d2 s2 l2 r2 h; exact h
  | inL j dj szj c2 rj ih =>
    intro i d s l r i2 d2 s2 l2 r2 h
    show (Ctx.plug (Ctx.drop c2) (NTree.node j dj (szj - 1)
      (NTree.node i d s l r) rj)).rightmostId =
      (Ctx.plug c2 (NTree.node j dj szj (NTree.node i2 d2 s2 l2 r2) rj)).rightmostId
    apply ih
    cases rj <;> rfl
  | inR j dj szj lj c2 ih =>
    intro i d s l r i2 d2 s2 l2 r2 h
    show (Ctx.plug (Ctx.drop c2) (NTree.node j dj (szj - 1) lj
      (NTree.node i d s l r))).rightmostId =
      (Ctx.plug c2 (NTree.node j dj szj lj (NTree.node i2 d2 s2 l2 r2))).rightmostId
    apply ih
    show (NTree.node i d s l r).rightmostId = (NTree.node i2 d2 s2 l2 r2).rightmostId
    exact h

theorem reprB_reparent {h : Heap} {par par2 : Option Nat} {i d sz : Nat}
    {l r : NTree}
    (hrep : reprB h par (NTree.node i d sz l r) = true)
    (hnd : (NTree.node i d sz l r).idsOf.Nodup) :
    reprB (setParent h i par2) par2 (NTree.node i d sz l r) = true := by
  have hrep2 := hrep
  simp only [reprB, Bool.and_eq_true, beq_iff_eq] at hrep2
  rw [NTree.idsOf_node] at hnd
  have hil : ¬ i ∈ l.idsOf := by
    obtain ⟨hA, hJB, hdis3⟩ := List.nodup_append.mp hnd
    exact fun hmem => hdis3 hmem (by simp)
  have hir : ¬ i ∈ r.idsOf := by
    obtain ⟨hA, hJB, hdis3⟩ := List.nodup_append.mp hnd
    exact (List.nodup_cons.mp hJB).1
  have hfr : ∀ k, k ≠ i → (setParent h i par2) k = h k := by
    intro k hk
    exact hset_ne h i _ hk
  have hii : (setParent h i par2) i = { h i with parent := par2 } := hset_self h i _
  simp only [reprB, Bool.and_eq_true, beq_iff_eq]
  refine ⟨⟨⟨⟨⟨⟨?_, ?_⟩, ?_⟩, ?_⟩, ?_⟩, ?_⟩, ?_⟩
  · rw [hii]
  · rw [hii]
    exact hrep2.1.1.1.1.1.2
  · rw [hii]
    exact hrep2.1.1.1.1.2
  · rw [hii]
    exact hrep2.1.1.1.2
  · rw [hii]
    exact hrep2.1.1.2
  · rw [reprB_frame (fun k hk => hfr k (fun he => hil (he ▸ hk)))]
    exact hrep2.1.2
  · rw [reprB_frame (fun k hk => hfr k (fun he => hir (he ▸ hk)))]
    exact hrep2.2

theorem usw_drop_loop_spec {h : Heap} {c : Ctx} {i d sz : Nat} {l r : NTree}
    (hrep : reprB h none (Ctx.plug c (NTree.node i d sz l r)) = true)
    (hsub : NTree.sizesOK (NTree.node i d sz l r) = true)
    (hstale : Ctx.ctxSizesOK c (sz + 1) = true)
    (hnd : (Ctx.plug c (NTree.node i d sz l r)).idsOf.Nodup)
    {fuel : Nat} (hf : Ctx.depth c + 1 ≤ fuel) :
    reprB (update_sizes_upwards_loop h i fuel).1 none
      (Ctx.plug (Ctx.drop c) (NTree.node i d sz l r)) = true ∧
    ∀ k, ¬ k ∈ Ctx.ctxIds c →
      (update_sizes_upwards_loop h i fuel).1 k = h k := by
  induction c generalizing h i d sz l r fuel with
  | top =>
    cases fuel with
    | zero => omega
    | succ fu =>
      have h2 : reprB h none (NTree.node i d sz l r) = true := hrep
      simp only [reprB, Bool.and_eq_true, beq_iff_eq] at h2
      have hpar : (h i).parent = none := h2.1.1.1.1.1.1
      have hloop : update_sizes_upwards_loop h i (fu + 1) = (h, some i) := by
        rw [update_sizes_upwards_loop]
        simp only [hpar]
      rw [hloop]
      exact ⟨hrep, fun k _ => rfl⟩
  | inL j dj szj c2 rj ih =>
    cases fuel with
    | zero => simp only [Ctx.depth] at hf; omega
    | succ fu =>
      have hrep2 := hrep
      rw [Ctx.reprB_plug, Bool.and_eq_true] at hrep2
      obtain ⟨hctx, hnodeSub⟩ := hrep2
      simp only [Ctx.ctxOk, Bool.and_eq_true, beq_iff_eq] at hctx
      simp only [reprB, Bool.and_eq_true, beq_iff_eq] at hnodeSub
      have hpar : (h i).parent = some j := hnodeSub.1.1.1.1.1.1
      have hleft : (h j).left = some i := hctx.1.1.1.1.1.2
      have hright : (h j).right = NTree.rootId rj := hctx.1.1.1.1.2
      have hsizej : (h j).size = szj := hctx.1.1.1.2
      have hgl : get_size h (h j).left = sz := by
        rw [hleft]
        exact hnodeSub.1.1.1.2
      have hgr : get_size h (h j).right = NTree.szF rj := by
        rw [hright, get_size_rootId hctx.1.2]
      simp only [Ctx.ctxSizesOK, Bool.and_eq_true, beq_iff_eq] at hstale
      have hup : update_size h j = (setSize h j (szj - 1), true) := by
        have hraw : update_size h j =
            if (1 + get_size h (h j).left + get_size h (h j).right) ≠ (h j).size
            then (setSize h j
                (1 + get_size h (h j).left + get_size h (h j).right), true)
            else (h, false) := rfl
        rw [hraw, hgl, hgr, hsizej]
        have hval : 1 + sz + NTree.szF rj = szj - 1 := by omega
        rw [hval, if_pos (by omega)]
      have hloop : update_sizes_upwards_loop h i (fu + 1) =
          update_sizes_upwards_loop (setSize h j (szj - 1)) j fu := by
        rw [update_sizes_upwards_loop]
        simp only [hpar, hup]
      have hrep' : reprB (setSize h j (szj - 1)) none
          (Ctx.plug c2 (NTree.node j dj (szj - 1)
            (NTree.node i d sz l r) rj)) = true :=
        reprB_setSize_hole (c := c2) (j := j)
          (A := NTree.node i d sz l r) (B := rj) hrep hnd
      have hsub' : NTree.sizesOK
          (NTree.node j dj (szj - 1) (NTree.node i d sz l r) rj) = true := by
        show ((szj - 1 == 1 + NTree.szF (NTree.node i d sz l r) + NTree.szF rj) &&
          NTree.sizesOK (NTree.node i d sz l r) && NTree.sizesOK rj) = true
        rw [Bool.and_eq_true, Bool.and_eq_true]
        refine ⟨⟨?_, hsub⟩, hstale.1.2⟩
        rw [beq_iff_eq]
        show szj - 1 = 1 + sz + NTree.szF rj
        omega
      have hnd' : (Ctx.plug c2 (NTree.node j dj (szj - 1)
          (NTree.node i d sz l r) rj)).idsOf.Nodup := by
        rw [idsOf_plug_sz c2 j dj (szj - 1) szj (NTree.node i d sz l r) rj]
        exact hnd
      have hstale' : Ctx.ctxSizesOK c2 (szj - 1 + 1) = true := by
        rw [show szj - 1 + 1 = szj from by omega]
        exact hstale.2
      have hres := @ih (setSize h j (szj - 1)) j dj
        (szj - 1) (NTree.node i d sz l r) rj
        hrep' hsub' hstale' hnd'
        fu (by simp only [Ctx.depth] at hf; omega)
      constructor
      · rw [hloop]
        exact hres.1
      · intro k hk
        have hk2 : ¬ k ∈ Ctx.ctxIds c2 ∧ k ≠ j := by
          constructor
          · intro hin
            exact hk (by simp [Ctx.ctxIds, hin])
          · intro he
            exact hk (by simp [Ctx.ctxIds, he])
        rw [hloop, hres.2 k hk2.1]
        exact hset_ne h j _ hk2.2
  | inR j dj szj lj c2 ih =>
    cases fuel with
    | zero => simp only [Ctx.depth] at hf; omega
    | succ fu =>
      have hrep2 := hrep
      rw [Ctx.reprB_plug, Bool.and_eq_true] at hrep2
      obtain ⟨hctx, hnodeSub⟩ := hrep2
      simp only [Ctx.ctxOk, Bool.and_eq_true, beq_iff_eq] at hctx
      simp only [reprB, Bool.and_eq_true, beq_iff_eq] at hnodeSub
      have hpar : (h i).parent = some j := hnodeSub.1.1.1.1.1.1
      have hleft : (h j).left = NTree.rootId lj := hctx.1.1.1.1.1.2
      have hright : (h j).right = some i := hctx.1.1.1.1.2
      have hsizej : (h j).size = szj := hctx.1.1.1.2
      have hgr : get_size h (h j).right = sz := by
        rw [hright]
        exact hnodeSub.1.1.1.2
      have hgl : get_size h (h j).left = NTree.szF lj := by
        rw [hleft, get_size_rootId hctx.1.2]
      simp only [Ctx.ctxSizesOK, Bool.and_eq_true, beq_iff_eq] at hstale
      have hup : update_size h j = (setSize h j (szj - 1), true) := by
        have hraw : update_size h j =
            if (1 + get_size h (h j).left + get_size h (h j).right) ≠ (h j).size
            then (setSize h j
                (1 + get_size h (h j).left + get_size h (h j).right), true)
            else (h, false) := rfl
        rw [hraw, hgl, hgr, hsizej]
        have hval : 1 + NTree.szF lj + sz = szj - 1 := by omega
        rw [hval, if_pos (by omega)]
      have hloop : update_sizes_upwards_loop h i (fu + 1) =
          update_sizes_upwards_loop (setSize h j (szj - 1)) j fu := by
        rw [update_sizes_upwards_loop]
        simp only [hpar, hup]
      have hrep' : reprB (setSize h j (szj - 1)) none
          (Ctx.plug c2 (NTree.node j dj (szj - 1) lj
            (NTree.node i d sz l r))) = true :=
        reprB_setSize_hole (c := c2) (j := j)
          (A := lj) (B := NTree.node i d sz l r) hrep hnd
      have hsub' : NTree.sizesOK
          (NTree.node j dj (szj - 1) lj (NTree.node i d sz l r)) = true := by
        show ((szj - 1 == 1 + NTree.szF lj + NTree.szF (NTree.node i d sz l r)) &&
          NTree.sizesOK lj && NTree.sizesOK (NTree.node i d sz l r)) = true
        rw [Bool.and_eq_true, Bool.and_eq_true]
        refine ⟨⟨?_, hstale.1.2⟩, hsub⟩
        rw [beq_iff_eq]
        show szj - 1 = 1 + NTree.szF lj + sz
        omega
      have hnd' : (Ctx.plug c2 (NTree.node j dj (szj - 1) lj
          (NTree.node i d sz l r))).idsOf.Nodup := by
        rw [idsOf_plug_sz c2 j dj (szj - 1) szj lj (NTree.node i d sz l r)]
        exact hnd
      have hstale' : Ctx.ctxSizesOK c2 (szj - 1 + 1) = true := by
        rw [show szj - 1 + 1 = szj from by omega]
        exact hstale.2
      have hres := @ih (setSize h j (szj - 1)) j dj
        (szj - 1) lj (NTree.node i d sz l r)
        hrep' hsub' hstale' hnd'
        fu (by simp only [Ctx.depth] at hf; omega)
      constructor
      · rw [hloop]
        exact hres.1
      · intro k hk
        have hk2 : ¬ k ∈ Ctx.ctxIds c2 ∧ k ≠ j := by
          constructor
          · intro hin
            exact hk (by simp [Ctx.ctxIds, hin])
          · intro he
            exact hk (by simp [Ctx.ctxIds, he])
        rw [hloop, hres.2 k hk2.1]
        exact hset_ne h j _ hk2.2

theorem nodup_remove_center {c2 : Ctx} {j dj szj n dn szn : Nat} {r rj : NTree}
    (hnd : (Ctx.plug c2 (NTree.node j dj szj
      (NTree.node n dn szn NTree.nil r) rj)).idsOf.Nodup) :
    (Ctx.plug c2 (NTree.node j dj szj r rj)).idsOf.Nodup := by
  rw [Ctx.idsOf_plug, NTree.idsOf_node, NTree.idsOf_node, NTree.idsOf_nil] at hnd
  rw [Ctx.idsOf_plug, NTree.idsOf_node]
  simp only [List.append_assoc, List.cons_append, List.nil_append] at hnd ⊢
  exact List.Nodup.sublist ((List.sublist_cons_self n _).append_left _) hnd

theorem nodup_remove_center_r {c2 : Ctx} {j dj szj n dn szn : Nat} {r lj : NTree}
    (hnd : (Ctx.plug c2 (NTree.node j dj szj lj
      (NTree.node n dn szn NTree.nil r))).idsOf.Nodup) :
    (Ctx.plug c2 (NTree.node j dj szj lj r)).idsOf.Nodup := by
  rw [Ctx.idsOf_plug, NTree.idsOf_node, NTree.idsOf_node, NTree.idsOf_nil] at hnd
  rw [Ctx.idsOf_plug, NTree.idsOf_node]
  simp only [List.append_assoc, List.cons_append, List.nil_append] at hnd ⊢
  refine List.Nodup.sublist ?_ hnd
  refine List.Sublist.append_left ?_ _
  refine List.Sublist.append_left ?_ _
  exact ((List.sublist_cons_self n _).cons₂ j)

theorem szF_nil_eq : NTree.szF NTree.nil = 0 := rfl

theorem node_erase_noleft_spec {h : Heap} {c : Ctx} {n dn szn : Nat} {r : NTree}
    (hrep : reprB h none (Ctx.plug c (NTree.node n dn szn NTree.nil r)) = true)
    (hsz : (Ctx.plug c (NTree.node n dn szn NTree.nil r)).sizesOK = true)
    (hnd : (Ctx.plug c (NTree.node n dn szn NTree.nil r)).idsOf.Nodup)
    {fuel : Nat} (hf : Ctx.depth c + 1 ≤ fuel) :
    ∃ H2, node_erase h n fuel = some (H2, r.rootId, Ctx.holePar none c) ∧
      reprB H2 none (Ctx.plug (Ctx.drop c) r) = true ∧
      ∀ k, ¬ k ∈ Ctx.ctxIds c → ¬ r.rootId = some k → H2 k = h k := by
  have hdec := hrep
  rw [Ctx.reprB_plug, Bool.and_eq_true] at hdec
  obtain ⟨hctx0, hnodeN⟩ := hdec
  have hnN := hnodeN
  simp only [reprB, Bool.and_eq_true, beq_iff_eq] at hnN
  have hpar : (h n).parent = Ctx.holePar none c := hnN.1.1.1.1.1.1
  have hleft' : (h n).left = none := hnN.1.1.1.1.1.2
  have hrightN : (h n).right = NTree.rootId r := hnN.1.1.1.1.2
  have hreprR : reprB h (some n) r = true := hnN.2
  have hsep := ctx_sep (c := c) (j := n) (A := NTree.nil) (B := r) hnd
  have hszd := hsz
  rw [Ctx.sizesOK_plug, Bool.and_eq_true] at hszd
  obtain ⟨hctxsz, hhsz⟩ := hszd
  have hhsz2 : szn = 1 + NTree.szF NTree.nil + NTree.szF r ∧
      NTree.sizesOK r = true := by
    simp only [NTree.sizesOK, Bool.and_eq_true, beq_iff_eq] at hhsz
    exact ⟨hhsz.1.1, hhsz.2⟩
  cases c with
  | top =>
    have hpar' : (h n).parent = none := hpar
    have hct : get_child_type h n = ChildType.notChild := by
      simp only [get_child_type, hpar']
    cases r with
    | nil =>
      have hright' : (h n).right = none := hrightN
      refine ⟨h, ?_, rfl, fun k _ _ => rfl⟩
      rw [node_erase]
      simp only [hleft', hct, hpar', hright', NTree.rootId, Ctx.holePar]
    | node a da sza la ra =>
      have hright' : (h n).right = some a := hrightN
      refine ⟨setParent h a none, ?_, ?_, ?_⟩
      · rw [node_erase]
        simp only [hleft', hct, hpar', hright', NTree.rootId, Ctx.holePar]
      · show reprB (setParent h a none) none (NTree.node a da sza la ra) = true
        apply reprB_reparent hreprR
        have hnd2 := hnd
        rw [show (Ctx.plug Ctx.top (NTree.node n dn szn NTree.nil
            (NTree.node a da sza la ra))).idsOf =
          (NTree.node n dn szn NTree.nil (NTree.node a da sza la ra)).idsOf
          from rfl, NTree.idsOf_node, NTree.idsOf_nil, List.nil_append] at hnd2
        exact (List.nodup_cons.mp hnd2).2
      · intro k hk1 hk2
        have hka : k ≠ a := fun he => hk2 (by rw [he]; rfl)
        exact setParent_ne _ _ _ hka
  | inL j dj szj c2 rj =>
    have hpar' : (h n).parent = some j := hpar
    have hctxI := hctx0
    simp only [Ctx.ctxOk, Bool.and_eq_true, beq_iff_eq] at hctxI
    have hjpar : (h j).parent = Ctx.holePar none c2 := hctxI.1.1.1.1.1.1
    have hjleft : (h j).left = some n := hctxI.1.1.1.1.1.2
    have hjright : (h j).right = NTree.rootId rj := hctxI.1.1.1.1.2
    have hjsize : (h j).size = szj := hctxI.1.1.1.2
    have hjdata : (h j).data = dj := hctxI.1.1.2
    have hreprRj : reprB h (some j) rj = true := hctxI.1.2
    have hctx2 : Ctx.ctxOk h none c2 (some j) = true := hctxI.2
    have hct : get_child_type h n = ChildType.leftChild := by
      simp only [get_child_type, hpar']
      rw [if_pos hjleft]
    have hndJ : (Ctx.plug c2 (NTree.node j dj szj
        (NTree.node n dn szn NTree.nil r) rj)).idsOf.Nodup := hnd
    have hdisj := hole_ctx_disjoint (c := c2) hndJ
    have hsepJ := ctx_sep (c := c2) (j := j)
      (A := NTree.node n dn szn NTree.nil r) (B := rj) hndJ
    have hjnotc2 : ¬ j ∈ Ctx.ctxIds c2 :=
      hdisj j (by rw [NTree.idsOf_node]; simp)
    have hjnotrj : ¬ j ∈ rj.idsOf := hsepJ.2.1
    have hndhole := nodup_plug_sub (c := c2) hndJ
    have hszjJ : szj = 1 + szn + NTree.szF rj ∧ NTree.sizesOK rj = true ∧
        Ctx.ctxSizesOK c2 szj = true := by
      simp only [Ctx.ctxSizesOK, Bool.and_eq_true, beq_iff_eq] at hctxsz
      exact ⟨hctxsz.1.1, hctxsz.1.2, hctxsz.2⟩
    cases r with
    | nil =>
      have hright' : (h n).right = none := hrightN
      set H1 := setLeft h j none with hH1def
      have hH1j : H1 j = { h j with left := none } := by
        rw [hH1def, setLeft_self]
      have hH1k : ∀ k, k ≠ j → H1 k = h k := by
        intro k hk
        rw [hH1def, setLeft_ne _ _ _ hk]
      have hrun : node_erase h n fuel =
          some ((update_sizes_upwards H1 j fuel).1, none, some j) := by
        rw [node_erase]
        simp only [hleft', hct, hpar', hright', ← hH1def]
      have hreprRj1 : reprB H1 (some j) rj = true := by
        rw [reprB_frame (fun k hk => hH1k k (fun he => hjnotrj (he ▸ hk)))]
        exact hreprRj
      have hrep2 : reprB H1 none
          (Ctx.plug c2 (NTree.node j dj szj NTree.nil rj)) = true := by
        rw [Ctx.reprB_plug, Bool.and_eq_true]
        constructor
        · rw [ctxOk_frame (fun k hk => hH1k k (fun he => hjnotc2 (he ▸ hk)))]
          exact hctx2
        · show (((H1 j).parent == Ctx.holePar none c2) &&
            ((H1 j).left == NTree.rootId NTree.nil) &&
            ((H1 j).right == NTree.rootId rj) &&
            ((H1 j).size == szj) &&
            ((H1 j).data == dj) &&
            reprB H1 (some j) NTree.nil &&
            reprB H1 (some j) rj) = true
          rw [Bool.and_eq_true, Bool.and_eq_true, Bool.and_eq_true,
            Bool.and_eq_true, Bool.and_eq_true, Bool.and_eq_true]
          refine ⟨⟨⟨⟨⟨⟨?_, ?_⟩, ?_⟩, ?_⟩, ?_⟩, rfl⟩, hreprRj1⟩
          · rw [beq_iff_eq, hH1j]
            exact hjpar
          · rw [beq_iff_eq, hH1j]
            rfl
          · rw [beq_iff_eq, hH1j]
            exact hjright
          · rw [beq_iff_eq, hH1j]
            exact hjsize
          · rw [beq_iff_eq, hH1j]
            exact hjdata
      have hndNew : (Ctx.plug c2 (NTree.node j dj szj NTree.nil rj)).idsOf.Nodup :=
        nodup_remove_center hndJ
      set H3 := setSize H1 j (szj - 1) with hH3def
      have hszn1 : szn = 1 := by
        have h0 := hhsz2.1
        rw [szF_nil_eq] at h0
        omega
      have e2 : update_size H1 j = (H3, true) := by
        have hraw : update_size H1 j =
            (if (1 + get_size H1 (H1 j).left + get_size H1 (H1 j).right) ≠ (H1 j).size
            then (setSize H1 j
                (1 + get_size H1 (H1 j).left + get_size H1 (H1 j).right), true)
            else (H1, false)) := rfl
        rw [hraw]
        have hl2 : get_size H1 (H1 j).left = 0 := by
          rw [hH1j]
          rfl
        have hr2 : get_size H1 (H1 j).right = NTree.szF rj := by
          rw [hH1j]
          show get_size H1 ((h j).right) = NTree.szF rj
          rw [hjright]
          exact get_size_rootId hreprRj1
        have hs2 : (H1 j).size = szj := by
          rw [hH1j]
          exact hjsize
        rw [hl2, hr2, hs2]
        have hval : 1 + 0 + NTree.szF rj = szj - 1 := by omega
        rw [hval, if_pos (by omega)]
      have husw : update_sizes_upwards H1 j fuel =
          ((update_sizes_upwards_loop H3 j fuel).1,
           (update_sizes_upwards_loop H3 j fuel).2) := by
        rw [update_sizes_upwards]
        simp only [e2]
      have hrep3 : reprB H3 none
          (Ctx.plug c2 (NTree.node j dj (szj - 1) NTree.nil rj)) = true :=
        reprB_setSize_hole hrep2 hndNew
      have hnd3 : (Ctx.plug c2 (NTree.node j dj (szj - 1)
          NTree.nil rj)).idsOf.Nodup := by
        rw [idsOf_plug_sz c2 j dj (szj - 1) szj NTree.nil rj]
        exact hndNew
      have hsub3 : NTree.sizesOK (NTree.node j dj (szj - 1) NTree.nil rj) = true := by
        show ((szj - 1 == 1 + NTree.szF NTree.nil + NTree.szF rj) &&
          NTree.sizesOK NTree.nil && NTree.sizesOK rj) = true
        rw [Bool.and_eq_true, Bool.and_eq_true]
        refine ⟨⟨?_, rfl⟩, hszjJ.2.1⟩
        rw [beq_iff_eq, szF_nil_eq]
        omega
      have hstale3 : Ctx.ctxSizesOK c2 (szj - 1 + 1) = true := by
        rw [show szj - 1 + 1 = szj from by omega]
        exact hszjJ.2.2
      have hdrop := usw_drop_loop_spec hrep3 hsub3 hstale3 hnd3
        (show Ctx.depth c2 + 1 ≤ fuel from by
          simp only [Ctx.depth] at hf
          omega)
      refine ⟨(update_sizes_upwards H1 j fuel).1, hrun, ?_, ?_⟩
      · rw [show (update_sizes_upwards H1 j fuel).1 =
            (update_sizes_upwards_loop H3 j fuel).1 from by rw [husw]]
        exact hdrop.1
      · intro k hk1 hk2
        have hknotc2 : ¬ k ∈ Ctx.ctxIds c2 := by
          intro hin
          exact hk1 (by simp [Ctx.ctxIds, hin])
        have hkj : k ≠ j := by
          intro he
          exact hk1 (by simp [Ctx.ctxIds, he])
        rw [show (update_sizes_upwards H1 j fuel).1 =
            (update_sizes_upwards_loop H3 j fuel).1 from by rw [husw]]
        rw [hdrop.2 k hknotc2, hH3def, setSize_ne _ _ _ hkj, hH1k k hkj]
    | node a da sza la ra =>
      have hright' : (h n).right = some a := hrightN
      have hamem : a ∈ (NTree.node a da sza la ra).idsOf :=
        NTree.rootId_mem rfl
      have haholeA : a ∈ (NTree.node n dn szn NTree.nil
          (NTree.node a da sza la ra)).idsOf := by
        rw [NTree.idsOf_node]
        simp [hamem]
      have haholeJ : a ∈ (NTree.node j dj szj
          (NTree.node n dn szn NTree.nil (NTree.node a da sza la ra)) rj).idsOf := by
        rw [NTree.idsOf_node]
        simp [haholeA]
      have hanotc2 : ¬ a ∈ Ctx.ctxIds c2 := hdisj a haholeJ
      have hndhole2 := hndhole
      rw [NTree.idsOf_node] at hndhole2
      have hDis := (List.nodup_append.mp hndhole2).2.2
      have hDisJ := hDis haholeA
      have haj : ¬ (a = j ∨ a ∈ rj.idsOf) := by
        intro hor
        apply hDisJ
        simp only [List.mem_cons, List.mem_append]
        tauto
      have hja : j ≠ a := fun he => haj (Or.inl he.symm)
      have hanotrj : ¬ a ∈ rj.idsOf := fun hin => haj (Or.inr hin)
      have hna : n ≠ a := fun he => hsep.2.1 (he ▸ hamem)
      set H1 := setParent (setLeft h j (some a)) a (some j) with hH1def
      have hH1j : H1 j = { h j with left := some a } := by
        rw [hH1def, setParent_ne _ _ _ hja, setLeft_self]
      have hH1a : H1 a = { h a with parent := some j } := by
        rw [hH1def, setParent_self, setLeft_ne _ _ _ (fun he => hja he.symm)]
      have hH1k : ∀ k, k ≠ j → k ≠ a → H1 k = h k := by
        intro k hk1 hk2
        rw [hH1def, setParent_ne _ _ _ hk2, setLeft_ne _ _ _ hk1]
      have hrun : node_erase h n fuel =
          some ((update_sizes_upwards H1 j fuel).1, some a, some j) := by
        rw [node_erase]
        simp only [hleft', hct, hpar', hright', ← hH1def]
      have hndA : (NTree.node a da sza la ra).idsOf.Nodup := by
        have h0 := (List.nodup_append.mp hndhole2).1
        rw [NTree.idsOf_node, NTree.idsOf_nil, List.nil_append] at h0
        exact (List.nodup_cons.mp h0).2
      have hjnotr : ¬ j ∈ (NTree.node a da sza la ra).idsOf := by
        intro hin
        apply hsepJ.1
        rw [NTree.idsOf_node]
        simp [hin]
      have hreprR1 : reprB (setLeft h j (some a)) (some n)
          (NTree.node a da sza la ra) = true := by
        rw [reprB_frame (fun k hk => setLeft_ne h j (some a)
          (fun he => hjnotr (he ▸ hk)))]
        exact hreprR
      have hreprRnew : reprB H1 (some j) (NTree.node a da sza la ra) = true := by
        rw [hH1def]
        exact reprB_reparent hreprR1 hndA
      have hreprRj1 : reprB H1 (some j) rj = true := by
        rw [reprB_frame (fun k hk => hH1k k
          (fun he => hjnotrj (he ▸ hk))
          (fun he => hanotrj (he ▸ hk)))]
        exact hreprRj
      have hrep2 : reprB H1 none
          (Ctx.plug c2 (NTree.node j dj szj (NTree.node a da sza la ra) rj)) = true := by
        rw [Ctx.reprB_plug, Bool.and_eq_true]
        constructor
        · rw [ctxOk_frame (fun k hk => hH1k k
            (fun he => hjnotc2 (he ▸ hk))
            (fun he => hanotc2 (he ▸ hk)))]
          exact hctx2
        · show (((H1 j).parent == Ctx.holePar none c2) &&
            ((H1 j).left == NTree.rootId (NTree.node a da sza la ra)) &&
            ((H1 j).right == NTree.rootId rj) &&
            ((H1 j).size == szj) &&
            ((H1 j).data == dj) &&
            reprB H1 (some j) (NTree.node a da sza la ra) &&
            reprB H1 (some j) rj) = true
          rw [Bool.and_eq_true, Bool.and_eq_true, Bool.and_eq_true,
            Bool.and_eq_true, Bool.and_eq_true, Bool.and_eq_true]
          refine ⟨⟨⟨⟨⟨⟨?_, ?_⟩, ?_⟩, ?_⟩, ?_⟩, hreprRnew⟩, hreprRj1⟩
          · rw [beq_iff_eq, hH1j]
            exact hjpar
          · rw [beq_iff_eq, hH1j]
            rfl
          · rw [beq_iff_eq, hH1j]
            exact hjright
          · rw [beq_iff_eq, hH1j]
            exact hjsize
          · rw [beq_iff_eq, hH1j]
            exact hjdata
      have hndNew : (Ctx.plug c2 (NTree.node j dj szj
          (NTree.node a da sza la ra) rj)).idsOf.Nodup :=
        nodup_remove_center hndJ
      set H3 := setSize H1 j (szj - 1) with hH3def
      have hszn2 : szn = 1 + sza := by
        have h0 := hhsz2.1
        rw [szF_nil_eq] at h0
        simpa using h0
      have e2 : update_size H1 j = (H3, true) := by
        have hraw : update_size H1 j =
            (if (1 + get_size H1 (H1 j).left + get_size H1 (H1 j).right) ≠ (H1 j).size
            then (setSize H1 j
                (1 + get_size H1 (H1 j).left + get_size H1 (H1 j).right), true)
            else (H1, false)) := rfl
        rw [hraw]
        have hl2 : get_size H1 (H1 j).left = sza := by
          rw [hH1j]
          show get_size H1 (some a) = sza
          show (H1 a).size = sza
          rw [hH1a]
          show (h a).size = sza
          have hr0 := hreprR
          simp only [reprB, Bool.and_eq_true, beq_iff_eq] at hr0
          exact hr0.1.1.1.2
        have hr2 : get_size H1 (H1 j).right = NTree.szF rj := by
          rw [hH1j]
          show get_size H1 ((h j).right) = NTree.szF rj
          rw [hjright]
          exact get_size_rootId hreprRj1
        have hs2 : (H1 j).size = szj := by
          rw [hH1j]
          exact hjsize
        rw [hl2, hr2, hs2]
        have hval : 1 + sza + NTree.szF rj = szj - 1 := by omega
        rw [hval, if_pos (by omega)]
      have husw : update_sizes_upwards H1 j fuel =
          ((update_sizes_upwards_loop H3 j fuel).1,
           (update_sizes_upwards_loop H3 j fuel).2) := by
        rw [update_sizes_upwards]
        simp only [e2]
      have hrep3 : reprB H3 none
          (Ctx.plug c2 (NTree.node j dj (szj - 1)
            (NTree.node a da sza la ra) rj)) = true :=
        reprB_setSize_hole hrep2 hndNew
      have hnd3 : (Ctx.plug c2 (NTree.node j dj (szj - 1)
          (NTree.node a da sza la ra) rj)).idsOf.Nodup := by
        rw [idsOf_plug_sz c2 j dj (szj - 1) szj (NTree.node a da sza la ra) rj]
        exact hndNew
      have hsub3 : NTree.sizesOK (NTree.node j dj (szj - 1)
          (NTree.node a da sza la ra) rj) = true := by
        show ((szj - 1 == 1 + NTree.szF (NTree.node a da sza la ra) + NTree.szF rj) &&
          NTree.sizesOK (NTree.node a da sza la ra) && NTree.sizesOK rj) = true
        rw [Bool.and_eq_true, Bool.and_eq_true]
        refine ⟨⟨?_, hhsz2.2⟩, hszjJ.2.1⟩
        rw [beq_iff_eq]
        show szj - 1 = 1 + sza + NTree.szF rj
        omega
      have hstale3 : Ctx.ctxSizesOK c2 (szj - 1 + 1) = true := by
        rw [show szj - 1 + 1 = szj from by omega]
        exact hszjJ.2.2
      have hdrop := usw_drop_loop_spec hrep3 hsub3 hstale3 hnd3
        (show Ctx.depth c2 + 1 ≤ fuel from by
          simp only [Ctx.depth] at hf
          omega)
      refine ⟨(update_sizes_upwards H1 j fuel).1, hrun, ?_, ?_⟩
      · rw [show (update_sizes_upwards H1 j fuel).1 =
            (update_sizes_upwards_loop H3 j fuel).1 from by rw [husw]]
        exact hdrop.1
      · intro k hk1 hk2
        have hknotc2 : ¬ k ∈ Ctx.ctxIds c2 := by
          intro hin
          exact hk1 (by simp [Ctx.ctxIds, hin])
        have hkj : k ≠ j := by
          intro he
          exact hk1 (by simp [Ctx.ctxIds, he])
        have hka : k ≠ a := fun he => hk2 (by rw [he]; rfl)
        rw [show (update_sizes_upwards H1 j fuel).1 =
            (update_sizes_upwards_loop H3 j fuel).1 from by rw [husw]]
        rw [hdrop.2 k hknotc2, hH3def, setSize_ne _ _ _ hkj, hH1k k hkj hka]
  | inR j dj szj lj c2 =>
    have hpar' : (h n).parent = some j := hpar
    have hctxI := hctx0
    simp only [Ctx.ctxOk, Bool.and_eq_true, beq_iff_eq] at hctxI
    have hjpar : (h j).parent = Ctx.holePar none c2 := hctxI.1.1.1.1.1.1
    have hjleft : (h j).left = NTree.rootId lj := hctxI.1.1.1.1.1.2
    have hjright : (h j).right = some n := hctxI.1.1.1.1.2
    have hjsize : (h j).size = szj := hctxI.1.1.1.2
    have hjdata : (h j).data = dj := hctxI.1.1.2
    have hreprLj : reprB h (some j) lj = true := hctxI.1.2
    have hctx2 : Ctx.ctxOk h none c2 (some j) = true := hctxI.2
    have hnotleft : ¬ ((h j).left = some n) := by
      intro hcon
      rw [hjleft] at hcon
      have hmem : n ∈ lj.idsOf := NTree.rootId_mem hcon
      exact hsep.2.2 (by simp [Ctx.ctxIds, hmem])
    have hct : get_child_type h n = ChildType.rightChild := by
      simp only [get_child_type, hpar']
      rw [if_neg hnotleft]
    have hndJ : (Ctx.plug c2 (NTree.node j dj szj lj
        (NTree.node n dn szn NTree.nil r))).idsOf.Nodup := hnd
    have hdisj := hole_ctx_disjoint (c := c2) hndJ
    have hsepJ := ctx_sep (c := c2) (j := j)
      (A := lj) (B := NTree.node n dn szn NTree.nil r) hndJ
    have hjnotc2 : ¬ j ∈ Ctx.ctxIds c2 :=
      hdisj j (by rw [NTree.idsOf_node]; simp)
    have hjnotlj : ¬ j ∈ lj.idsOf := hsepJ.1
    have hndhole := nodup_plug_sub (c := c2) hndJ
    have hszjJ : szj = 1 + NTree.szF lj + szn ∧ NTree.sizesOK lj = true ∧
        Ctx.ctxSizesOK c2 szj = true := by
      simp only [Ctx.ctxSizesOK, Bool.and_eq_true, beq_iff_eq] at hctxsz
      exact ⟨hctxsz.1.1, hctxsz.1.2, hctxsz.2⟩
    cases r with
    | nil =>
      have hright' : (h n).right = none := hrightN
      set H1 := setRight h j none with hH1def
      have hH1j : H1 j = { h j with right := none } := by
        rw [hH1def, setRight_self]
      have hH1k : ∀ k, k ≠ j → H1 k = h k := by
        intro k hk
        rw [hH1def, setRight_ne _ _ _ hk]
      have hrun : node_erase h n fuel =
          some ((update_sizes_upwards H1 j fuel).1, none, some j) := by
        rw [node_erase]
        simp only [hleft', hct, hpar', hright', ← hH1def]
      have hreprLj1 : reprB H1 (some j) lj = true := by
        rw [reprB_frame (fun k hk => hH1k k (fun he => hjnotlj (he ▸ hk)))]
        exact hreprLj
      have hrep2 : reprB H1 none
          (Ctx.plug c2 (NTree.node j dj szj lj NTree.nil)) = true := by
        rw [Ctx.reprB_plug, Bool.and_eq_true]
        constructor
        · rw [ctxOk_frame (fun k hk => hH1k k (fun he => hjnotc2 (he ▸ hk)))]
          exact hctx2
        · show (((H1 j).parent == Ctx.holePar none c2) &&
            ((H1 j).left == NTree.rootId lj) &&
            ((H1 j).right == NTree.rootId NTree.nil) &&
            ((H1 j).size == szj) &&
            ((H1 j).data == dj) &&
            reprB H1 (some j) lj &&
            reprB H1 (some j) NTree.nil) = true
          rw [Bool.and_eq_true, Bool.and_eq_true, Bool.and_eq_true,
            Bool.and_eq_true, Bool.and_eq_true, Bool.and_eq_true]
          refine ⟨⟨⟨⟨⟨⟨?_, ?_⟩, ?_⟩, ?_⟩, ?_⟩, hreprLj1⟩, rfl⟩
          · rw [beq_iff_eq, hH1j]
            exact hjpar
          · rw [beq_iff_eq, hH1j]
            exact hjleft
          · rw [beq_iff_eq, hH1j]
            rfl
          · rw [beq_iff_eq, hH1j]
            exact hjsize
          · rw [beq_iff_eq, hH1j]
            exact hjdata
      have hndNew : (Ctx.plug c2 (NTree.node j dj szj lj NTree.nil)).idsOf.Nodup :=
        nodup_remove_center_r hndJ
      set H3 := setSize H1 j (szj - 1) with hH3def
      have hszn1 : szn = 1 := by
        have h0 := hhsz2.1
        rw [szF_nil_eq] at h0
        omega
      have e2 : update_size H1 j = (H3, true) := by
        have hraw : update_size H1 j =
            (if (1 + get_size H1 (H1 j).left + get_size H1 (H1 j).right) ≠ (H1 j).size
            then (setSize H1 j
                (1 + get_size H1 (H1 j).left + get_size H1 (H1 j).right), true)
            else (H1, false)) := rfl
        rw [hraw]
        have hl2 : get_size H1 (H1 j).left = NTree.szF lj := by
          rw [hH1j]
          show get_size H1 ((h j).left) = NTree.szF lj
          rw [hjleft]
          exact get_size_rootId hreprLj1
        have hr2 : get_size H1 (H1 j).right = 0 := by
          rw [hH1j]
          rfl
        have hs2 : (H1 j).size = szj := by
          rw [hH1j]
          exact hjsize
        rw [hl2, hr2, hs2]
        have hval : 1 + NTree.szF lj + 0 = szj - 1 := by omega
        rw [hval, if_pos (by omega)]
      have husw : update_sizes_upwards H1 j fuel =
          ((update_sizes_upwards_loop H3 j fuel).1,
           (update_sizes_upwards_loop H3 j fuel).2) := by
        rw [update_sizes_upwards]
        simp only [e2]
      have hrep3 : reprB H3 none
          (Ctx.plug c2 (NTree.node j dj (szj - 1) lj NTree.nil)) = true :=
        reprB_setSize_hole hrep2 hndNew
      have hnd3 : (Ctx.plug c2 (NTree.node j dj (szj - 1)
          lj NTree.nil)).idsOf.Nodup := by
        rw [idsOf_plug_sz c2 j dj (szj - 1) szj lj NTree.nil]
        exact hndNew
      have hsub3 : NTree.sizesOK (NTree.node j dj (szj - 1) lj NTree.nil) = true := by
        show ((szj - 1 == 1 + NTree.szF lj + NTree.szF NTree.nil) &&
          NTree.sizesOK lj && NTree.sizesOK NTree.nil) = true
        rw [Bool.and_eq_true, Bool.and_eq_true]
        refine ⟨⟨?_, hszjJ.2.1⟩, rfl⟩
        rw [beq_iff_eq, szF_nil_eq]
        omega
      have hstale3 : Ctx.ctxSizesOK c2 (szj - 1 + 1) = true := by
        rw [show szj - 1 + 1 = szj from by omega]
        exact hszjJ.2.2
      have hdrop := usw_drop_loop_spec hrep3 hsub3 hstale3 hnd3
        (show Ctx.depth c2 + 1 ≤ fuel from by
          simp only [Ctx.depth] at hf
          omega)
      refine ⟨(update_sizes_upwards H1 j fuel).1, hrun, ?_, ?_⟩
      · rw [show (update_sizes_upwards H1 j fuel).1 =
            (update_sizes_upwards_loop H3 j fuel).1 from by rw [husw]]
        exact hdrop.1
      · intro k hk1 hk2
        have hknotc2 : ¬ k ∈ Ctx.ctxIds c2 := by
          intro hin
          exact hk1 (by simp [Ctx.ctxIds, hin])
        have hkj : k ≠ j := by
          intro he
          exact hk1 (by simp [Ctx.ctxIds, he])
        rw [show (update_sizes_upwards H1 j fuel).1 =
            (update_sizes_upwards_loop H3 j fuel).1 from by rw [husw]]
        rw [hdrop.2 k hknotc2, hH3def, setSize_ne _ _ _ hkj, hH1k k hkj]
    | node a da sza la ra =>
      have hright' : (h n).right = some a := hrightN
      have hamem : a ∈ (NTree.node a da sza la ra).idsOf :=
        NTree.rootId_mem rfl
      have haholeA : a ∈ (NTree.node n dn szn NTree.nil
          (NTree.node a da sza la ra)).idsOf := by
        rw [NTree.idsOf_node]
        simp [hamem]
      have haholeJ : a ∈ (NTree.node j dj szj lj
          (NTree.node n dn szn NTree.nil (NTree.node a da sza la ra))).idsOf := by
        rw [NTree.idsOf_node]
        simp [haholeA]
      have hanotc2 : ¬ a ∈ Ctx.ctxIds c2 := hdisj a haholeJ
      have hndhole2 := hndhole
      rw [NTree.idsOf_node] at hndhole2
      have hDis := (List.nodup_append.mp hndhole2).2.2
      have hcons := (List.nodup_append.mp hndhole2).2.1
      have hja : j ≠ a := by
        have hjn := (List.nodup_cons.mp hcons).1
        intro he
        apply hjn
        rw [he]
        simp [haholeA]
      have hanotlj : ¬ a ∈ lj.idsOf := by
        intro hin
        exact hDis hin (by
          simp only [List.mem_cons]
          right
          exact haholeA)
      have hna : n ≠ a := fun he => hsep.2.1 (he ▸ hamem)
      set H1 := setParent (setRight h j (some a)) a (some j) with hH1def
      have hH1j : H1 j = { h j with right := some a } := by
        rw [hH1def, setParent_ne _ _ _ hja, setRight_self]
      have hH1a : H1 a = { h a with parent := some j } := by
        rw [hH1def, setParent_self, setRight_ne _ _ _ (fun he => hja he.symm)]
      have hH1k : ∀ k, k ≠ j → k ≠ a → H1 k = h k := by
        intro k hk1 hk2
        rw [hH1def, setParent_ne _ _ _ hk2, setRight_ne _ _ _ hk1]
      have hrun : node_erase h n fuel =
          some ((update_sizes_upwards H1 j fuel).1, some a, some j) := by
        rw [node_erase]
        simp only [hleft', hct, hpar', hright', ← hH1def]
      have hndA : (NTree.node a da sza la ra).idsOf.Nodup := by
        have h0 := (List.nodup_append.mp hndhole2).2.1
        have h1 := (List.nodup_cons.mp h0).2
        rw [NTree.idsOf_node, NTree.idsOf_nil, List.nil_append] at h1
        exact (List.nodup_cons.mp h1).2
      have hjnotr : ¬ j ∈ (NTree.node a da sza la ra).idsOf := by
        intro hin
        apply hsepJ.2.1
        rw [NTree.idsOf_node]
        simp [hin]
      have hreprR1 : reprB (setRight h j (some a)) (some n)
          (NTree.node a da sza la ra) = true := by
        rw [reprB_frame (fun k hk => setRight_ne h j (some a)
          (fun he => hjnotr (he ▸ hk)))]
        exact hreprR
      have hreprRnew : reprB H1 (some j) (NTree.node a da sza la ra) = true := by
        rw [hH1def]
        exact reprB_reparent hreprR1 hndA
      have hreprLj1 : reprB H1 (some j) lj = true := by
        rw [reprB_frame (fun k hk => hH1k k
          (fun he => hjnotlj (he ▸ hk))
          (fun he => hanotlj (he ▸ hk)))]
        exact hreprLj
      have hrep2 : reprB H1 none
          (Ctx.plug c2 (NTree.node j dj szj lj (NTree.node a da sza la ra))) = true := by
        rw [Ctx.reprB_plug, Bool.and_eq_true]
        constructor
        · rw [ctxOk_frame (fun k hk => hH1k k
            (fun he => hjnotc2 (he ▸ hk))
            (fun he => hanotc2 (he ▸ hk)))]
          exact hctx2
        · show (((H1 j).parent == Ctx.holePar none c2) &&
            ((H1 j).left == NTree.rootId lj) &&
            ((H1 j).right == NTree.rootId (NTree.node a da sza la ra)) &&
            ((H1 j).size == szj) &&
            ((H1 j).data == dj) &&
            reprB H1 (some j) lj &&
            reprB H1 (some j) (NTree.node a da sza la ra)) = true
          rw [Bool.and_eq_true, Bool.and_eq_true, Bool.and_eq_true,
            Bool.and_eq_true, Bool.and_eq_true, Bool.and_eq_true]
          refine ⟨⟨⟨⟨⟨⟨?_, ?_⟩, ?_⟩, ?_⟩, ?_⟩, hreprLj1⟩, hreprRnew⟩
          · rw [beq_iff_eq, hH1j]
            exact hjpar
          · rw [beq_iff_eq, hH1j]
            exact hjleft
          · rw [beq_iff_eq, hH1j]
            rfl
          · rw [beq_iff_eq, hH1j]
            exact hjsize
          · rw [beq_iff_eq, hH1j]
            exact hjdata
      have hndNew : (Ctx.plug c2 (NTree.node j dj szj lj
          (NTree.node a da sza la ra))).idsOf.Nodup :=
        nodup_remove_center_r hndJ
      set H3 := setSize H1 j (szj - 1) with hH3def
      have hszn2 : szn = 1 + sza := by
        have h0 := hhsz2.1
        rw [szF_nil_eq] at h0
        simpa using h0
      have e2 : update_size H1 j = (H3, true) := by
        have hraw : update_size H1 j =
            (if (1 + get_size H1 (H1 j).left + get_size H1 (H1 j).right) ≠ (H1 j).size
            then (setSize H1 j
                (1 + get_size H1 (H1 j).left + get_size H1 (H1 j).right), true)
            else (H1, false)) := rfl
        rw [hraw]
        have hl2 : get_size H1 (H1 j).left = NTree.szF lj := by
          rw [hH1j]
          show get_size H1 ((h j).left) = NTree.szF lj
          rw [hjleft]
          exact get_size_rootId hreprLj1
        have hr2 : get_size H1 (H1 j).right = sza := by
          rw [hH1j]
          show get_size H1 (some a) = sza
          show (H1 a).size = sza
          rw [hH1a]
          show (h a).size = sza
          have hr0 := hreprR
          simp only [reprB, Bool.and_eq_true, beq_iff_eq] at hr0
          exact hr0.1.1.1.2
        have hs2 : (H1 j).size = szj := by
          rw [hH1j]
          exact hjsize
        rw [hl2, hr2, hs2]
        have hval : 1 + NTree.szF lj + sza = szj - 1 := by omega
        rw [hval, if_pos (by omega)]
      have husw : update_sizes_upwards H1 j fuel =
          ((update_sizes_upwards_loop H3 j fuel).1,
           (update_sizes_upwards_loop H3 j fuel).2) := by
        rw [update_sizes_upwards]
        simp only [e2]
      have hrep3 : reprB H3 none
          (Ctx.plug c2 (NTree.node j dj (szj - 1) lj
            (NTree.node a da sza la ra))) = true :=
        reprB_setSize_hole hrep2 hndNew
      have hnd3 : (Ctx.plug c2 (NTree.node j dj (szj - 1) lj
          (NTree.node a da sza la ra))).idsOf.Nodup := by
        rw [idsOf_plug_sz c2 j dj (szj - 1) szj lj (NTree.node a da sza la ra)]
        exact hndNew
      have hsub3 : NTree.sizesOK (NTree.node j dj (szj - 1) lj
          (NTree.node a da sza la ra)) = true := by
        show ((szj - 1 == 1 + NTree.szF lj + NTree.szF (NTree.node a da sza la ra)) &&
          NTree.sizesOK lj && NTree.sizesOK (NTree.node a da sza la ra)) = true
        rw [Bool.and_eq_true, Bool.and_eq_true]
        refine ⟨⟨?_, hszjJ.2.1⟩, hhsz2.2⟩
        rw [beq_iff_eq]
        show szj - 1 = 1 + NTree.szF lj + sza
        omega
      have hstale3 : Ctx.ctxSizesOK c2 (szj - 1 + 1) = true := by
        rw [show szj - 1 + 1 = szj from by omega]
        exact hszjJ.2.2
      have hdrop := usw_drop_loop_spec hrep3 hsub3 hstale3 hnd3
        (show Ctx.depth c2 + 1 ≤ fuel from by
          simp only [Ctx.depth] at hf
          omega)
      refine ⟨(update_sizes_upwards H1 j fuel).1, hrun, ?_, ?_⟩
      · rw [show (update_sizes_upwards H1 j fuel).1 =
            (update_sizes_upwards_loop H3 j fuel).1 from by rw [husw]]
        exact hdrop.1
      · intro k hk1 hk2
        have hknotc2 : ¬ k ∈ Ctx.ctxIds c2 := by
          intro hin
          exact hk1 (by simp [Ctx.ctxIds, hin])
        have hkj : k ≠ j := by
          intro he
          exact hk1 (by simp [Ctx.ctxIds, he])
        have hka : k ≠ a := fun he => hk2 (by rw [he]; rfl)
        rw [show (update_sizes_upwards H1 j fuel).1 =
            (update_sizes_upwards_loop H3 j fuel).1 from by rw [husw]]
        rw [hdrop.2 k hknotc2, hH3def, setSize_ne _ _ _ hkj, hH1k k hkj hka]

theorem reprB_reparent_rootId {h : Heap} {par par2 : Option Nat} {X : NTree}
    {q : Nat} (hrep : reprB h par X = true) (hnd : X.idsOf.Nodup)
    (hq : X.rootId = some q) :
    reprB (setParent h q par2) par2 X = true := by
  cases X with
  | nil => rfl
  | node i d sz l r =>
    simp only [NTree.rootId, Option.some.injEq] at hq
    subst hq
    exact reprB_reparent hrep hnd

theorem holePar_comp (par0 : Option Nat) (c1 c2 : Ctx) :
    Ctx.holePar par0 (Ctx.comp c1 c2) =
      Ctx.holePar (Ctx.holePar par0 c1) c2 := by
  cases c2 with
  | top => rfl
  | inL i d sz c r => rfl
  | inR i d sz l c => rfl

theorem depth_comp (c1 c2 : Ctx) :
    Ctx.depth (Ctx.comp c1 c2) = Ctx.depth c1 + Ctx.depth c2 := by
  induction c2 with
  | top => rfl
  | inL i d sz c r ih =>
    show Ctx.depth (Ctx.comp c1 c) + 1 = Ctx.depth c1 + (Ctx.depth c + 1)
    rw [ih]
    omega
  | inR i d sz l c ih =>
    show Ctx.depth (Ctx.comp c1 c) + 1 = Ctx.depth c1 + (Ctx.depth c + 1)
    rw [ih]
    omega

theorem drop_comp (c1 c2 : Ctx) :
    Ctx.drop (Ctx.comp c1 c2) = Ctx.comp (Ctx.drop c1) (Ctx.drop c2) := by
  induction c2 with
  | top => rfl
  | inL i d sz c r ih =>
    show Ctx.inL i d (sz - 1) (Ctx.drop (Ctx.comp c1 c)) r =
      Ctx.inL i d (sz - 1) (Ctx.comp (Ctx.drop c1) (Ctx.drop c)) r
    rw [ih]
  | inR i d sz l c ih =>
    show Ctx.inR i d (sz - 1) l (Ctx.drop (Ctx.comp c1 c)) =
      Ctx.inR i d (sz - 1) l (Ctx.comp (Ctx.drop c1) (Ctx.drop c))
    rw [ih]

theorem ctxIds_comp (c1 c2 : Ctx) :
    Ctx.ctxIds (Ctx.comp c1 c2) =
      Ctx.ctxIds c2 ++ Ctx.ctxIds c1 := by
  induction c2 with
  | top => rfl
  | inL i d sz c r ih =>
    show i :: NTree.idsOf r ++ Ctx.ctxIds (Ctx.comp c1 c) =
      (i :: NTree.idsOf r ++ Ctx.ctxIds c) ++ Ctx.ctxIds c1
    rw [ih]
    simp [List.append_assoc]
  | inR i d sz l c ih =>
    show i :: NTree.idsOf l ++ Ctx.ctxIds (Ctx.comp c1 c) =
      (i :: NTree.idsOf l ++ Ctx.ctxIds c) ++ Ctx.ctxIds c1
    rw [ih]
    simp [List.append_assoc]

theorem perm_swap_two (l1 l2 l3 : List Nat) (x y : Nat) :
    (l1 ++ x :: (l2 ++ y :: l3)).Perm (l1 ++ y :: (l2 ++ x :: l3)) := by
  apply List.Perm.append_left
  have h1 : (l2 ++ y :: l3).Perm (y :: (l2 ++ l3)) := List.perm_middle
  have h2 : (x :: (l2 ++ y :: l3)).Perm (x :: y :: (l2 ++ l3)) := h1.cons x
  have h3 : (x :: y :: (l2 ++ l3)).Perm (y :: x :: (l2 ++ l3)) :=
    List.Perm.swap y x _
  have h4 : (y :: x :: (l2 ++ l3)).Perm (y :: (l2 ++ x :: l3)) :=
    (List.Perm.cons y (List.perm_middle.symm))
  exact (h2.trans h3).trans h4

theorem szF_plug_congr : ∀ (c : Ctx) {X Y : NTree}, X.szF = Y.szF →
    (Ctx.plug c X).szF = (Ctx.plug c Y).szF := by
  intro c
  induction c with
  | top => intro X Y h; exact h
  | inL j dj szj c2 rj ih => intro X Y h; exact ih rfl
  | inR j dj szj lj c2 ih => intro X Y h; exact ih rfl

theorem sizesOK_plug_congr {X Y : NTree} (hsz : X.szF = Y.szF)
    (hok : X.sizesOK = Y.sizesOK) (c : Ctx) :
    (Ctx.plug c X).sizesOK = (Ctx.plug c Y).sizesOK := by
  rw [Ctx.sizesOK_plug, Ctx.sizesOK_plug, hsz, hok]

theorem nodup_remove_center_l {c2 : Ctx} {j dj szj n dn szn : Nat} {A rj : NTree}
    (hnd : (Ctx.plug c2 (NTree.node j dj szj
      (NTree.node n dn szn A NTree.nil) rj)).idsOf.Nodup) :
    (Ctx.plug c2 (NTree.node j dj szj A rj)).idsOf.Nodup := by
  rw [Ctx.idsOf_plug, NTree.idsOf_node, NTree.idsOf_node, NTree.idsOf_nil] at hnd
  rw [Ctx.idsOf_plug, NTree.idsOf_node]
  simp only [List.append_assoc, List.cons_append, List.nil_append] at hnd ⊢
  refine List.Nodup.sublist ?_ hnd
  refine List.Sublist.append_left ?_ _
  refine List.Sublist.append_left ?_ _
  exact List.sublist_cons_self n _

theorem nodup_remove_center_rl {c2 : Ctx} {j dj szj n dn szn : Nat} {A lj : NTree}
    (hnd : (Ctx.plug c2 (NTree.node j dj szj lj
      (NTree.node n dn szn A NTree.nil))).idsOf.Nodup) :
    (Ctx.plug c2 (NTree.node j dj szj lj A)).idsOf.Nodup := by
  rw [Ctx.idsOf_plug, NTree.idsOf_node, NTree.idsOf_node, NTree.idsOf_nil] at hnd
  rw [Ctx.idsOf_plug, NTree.idsOf_node]
  simp only [List.append_assoc, List.cons_append, List.nil_append] at hnd ⊢
  refine List.Nodup.sublist ?_ hnd
  refine List.Sublist.append_left ?_ _
  refine List.Sublist.append_left ?_ _
  refine List.Sublist.cons₂ j ?_
  refine List.Sublist.append_left ?_ _
  exact List.sublist_cons_self n _

theorem node_erase_noright_spec {h : Heap} {c : Ctx} {n dn szn a da sza : Nat}
    {la ra : NTree}
    (hrep : reprB h none (Ctx.plug c (NTree.node n dn szn
      (NTree.node a da sza la ra) NTree.nil)) = true)
    (hsz : (Ctx.plug c (NTree.node n dn szn
      (NTree.node a da sza la ra) NTree.nil)).sizesOK = true)
    (hnd : (Ctx.plug c (NTree.node n dn szn
      (NTree.node a da sza la ra) NTree.nil)).idsOf.Nodup)
    {fuel : Nat} (hf : Ctx.depth c + 1 ≤ fuel) :
    ∃ H2, node_erase h n fuel = some (H2, some a, Ctx.holePar none c) ∧
      reprB H2 none (Ctx.plug (Ctx.drop c)
        (NTree.node a da sza la ra)) = true ∧
      ∀ k, ¬ k ∈ Ctx.ctxIds c → k ≠ a → H2 k = h k := by
  have hdec := hrep
  rw [Ctx.reprB_plug, Bool.and_eq_true] at hdec
  obtain ⟨hctx0, hnodeN⟩ := hdec
  have hnN := hnodeN
  rw [reprB] at hnN
  simp only [Bool.and_eq_true, beq_iff_eq, NTree.rootId] at hnN
  have hpar : (h n).parent = Ctx.holePar none c := hnN.1.1.1.1.1.1
  have hleft' : (h n).left = some a := hnN.1.1.1.1.1.2
  have hright' : (h n).right = none := hnN.1.1.1.1.2
  have hreprA : reprB h (some n) (NTree.node a da sza la ra) = true := hnN.1.2
  have hsep := ctx_sep (c := c) (j := n) (A := NTree.node a da sza la ra)
    (B := NTree.nil) hnd
  have hszd := hsz
  rw [Ctx.sizesOK_plug, Bool.and_eq_true] at hszd
  obtain ⟨hctxsz, hhsz⟩ := hszd
  have hhsz2 : szn = 1 + sza + 0 ∧
      NTree.sizesOK (NTree.node a da sza la ra) = true := by
    have hh := hhsz
    rw [NTree.sizesOK, Bool.and_eq_true, Bool.and_eq_true] at hh
    exact ⟨beq_iff_eq.mp hh.1.1, hh.1.2⟩
  have hamem : a ∈ (NTree.node a da sza la ra).idsOf :=
    NTree.rootId_mem rfl
  have hna : n ≠ a := fun he => hsep.1 (he ▸ hamem)
  cases c with
  | top =>
    have hpar' : (h n).parent = none := hpar
    have hct : get_child_type h n = ChildType.notChild := by
      simp only [get_child_type, hpar']
    set H1 := setParent h a none with hH1def
    have hrun : node_erase h n fuel = some (H1, some a, none) := by
      rw [node_erase]
      simp only [hleft', hright', hct, hpar', ← hH1def]
    refine ⟨H1, hrun, ?_, ?_⟩
    · show reprB H1 none (NTree.node a da sza la ra) = true
      rw [hH1def]
      apply reprB_reparent hreprA
      have hnd2 := hnd
      rw [show (Ctx.plug Ctx.top (NTree.node n dn szn
          (NTree.node a da sza la ra) NTree.nil)).idsOf =
        (NTree.node n dn szn (NTree.node a da sza la ra) NTree.nil).idsOf
        from rfl, NTree.idsOf_node, NTree.idsOf_nil] at hnd2
      exact (List.nodup_append.mp hnd2).1
    · intro k _ hk2
      rw [hH1def]
      exact setParent_ne _ _ _ hk2
  | inL j dj szj c2 rj =>
    have hpar' : (h n).parent = some j := hpar
    have hctxI := hctx0
    simp only [Ctx.ctxOk, Bool.and_eq_true, beq_iff_eq] at hctxI
    have hjpar : (h j).parent = Ctx.holePar none c2 := hctxI.1.1.1.1.1.1
    have hjleft : (h j).left = some n := hctxI.1.1.1.1.1.2
    have hjright : (h j).right = NTree.rootId rj := hctxI.1.1.1.1.2
    have hjsize : (h j).size = szj := hctxI.1.1.1.2
    have hjdata : (h j).data = dj := hctxI.1.1.2
    have hreprRj : reprB h (some j) rj = true := hctxI.1.2
    have hctx2 : Ctx.ctxOk h none c2 (some j) = true := hctxI.2
    have hct : get_child_type h n = ChildType.leftChild := by
      simp only [get_child_type, hpar']
      rw [if_pos hjleft]
    have hndJ : (Ctx.plug c2 (NTree.node j dj szj
        (NTree.node n dn szn (NTree.node a da sza la ra) NTree.nil)
        rj)).idsOf.Nodup := hnd
    have hdisj := hole_ctx_disjoint (c := c2) hndJ
    have hsepJ := ctx_sep (c := c2) (j := j)
      (A := NTree.node n dn szn (NTree.node a da sza la ra) NTree.nil)
      (B := rj) hndJ
    have hjnotc2 : ¬ j ∈ Ctx.ctxIds c2 :=
      hdisj j (by rw [NTree.idsOf_node]; simp)
    have hjnotrj : ¬ j ∈ rj.idsOf := hsepJ.2.1
    have hndhole := nodup_plug_sub (c := c2) hndJ
    have hszjJ : szj = 1 + szn + NTree.szF rj ∧ NTree.sizesOK rj = true ∧
        Ctx.ctxSizesOK c2 szj = true := by
      simp only [Ctx.ctxSizesOK, Bool.and_eq_true, beq_iff_eq] at hctxsz
      exact ⟨hctxsz.1.1, hctxsz.1.2, hctxsz.2⟩
    have haholeA : a ∈ (NTree.node n dn szn
        (NTree.node a da sza la ra) NTree.nil).idsOf := by
      rw [NTree.idsOf_node]
      simp [hamem]
    have haholeJ : a ∈ (NTree.node j dj szj
        (NTree.node n dn szn (NTree.node a da sza la ra) NTree.nil)
        rj).idsOf := by
      rw [NTree.idsOf_node]
      simp [haholeA]
    have hanotc2 : ¬ a ∈ Ctx.ctxIds c2 := hdisj a haholeJ
    have hndhole2 := hndhole
    rw [NTree.idsOf_node] at hndhole2
    have hDis := (List.nodup_append.mp hndhole2).2.2
    have hDisJ := hDis haholeA
    have haj : ¬ (a = j ∨ a ∈ rj.idsOf) := by
      intro hor
      apply hDisJ
      simp only [List.mem_cons, List.mem_append]
      tauto
    have hja : j ≠ a := fun he => haj (Or.inl he.symm)
    have hanotrj : ¬ a ∈ rj.idsOf := fun hin => haj (Or.inr hin)
    set H1 := setParent (setLeft h j (some a)) a (some j) with hH1def
    have hH1j : H1 j = { h j with left := some a } := by
      rw [hH1def, setParent_ne _ _ _ hja, setLeft_self]
    have hH1a : H1 a = { h a with parent := some j } := by
      rw [hH1def, setParent_self, setLeft_ne _ _ _ (fun he => hja he.symm)]
    have hH1k : ∀ k, k ≠ j → k ≠ a → H1 k = h k := by
      intro k hk1 hk2
      rw [hH1def, setParent_ne _ _ _ hk2, setLeft_ne _ _ _ hk1]
    have hrun : node_erase h n fuel =
        some ((update_sizes_upwards H1 j fuel).1, some a, some j) := by
      rw [node_erase]
      simp only [hleft', hright', hct, hpar', ← hH1def]
    have hndA : (NTree.node a da sza la ra).idsOf.Nodup := by
      have h0 := (List.nodup_append.mp hndhole2).1
      rw [NTree.idsOf_node, NTree.idsOf_nil] at h0
      exact (List.nodup_append.mp h0).1
    have hjnotr : ¬ j ∈ (NTree.node a da sza la ra).idsOf := by
      intro hin
      apply hsepJ.1
      rw [NTree.idsOf_node]
      simp [hin]
    have hreprA1 : reprB (setLeft h j (some a)) (some n)
        (NTree.node a da sza la ra) = true := by
      rw [reprB_frame (fun k hk => setLeft_ne h j (some a)
        (fun he => hjnotr (he ▸ hk)))]
      exact hreprA
    have hreprAnew : reprB H1 (some j) (NTree.node a da sza la ra) = true := by
      rw [hH1def]
      exact reprB_reparent hreprA1 hndA
    have hreprRj1 : reprB H1 (some j) rj = true := by
      rw [reprB_frame (fun k hk => hH1k k
        (fun he => hjnotrj (he ▸ hk))
        (fun he => hanotrj (he ▸ hk)))]
      exact hreprRj
    have hrep2 : reprB H1 none
        (Ctx.plug c2 (NTree.node j dj szj
          (NTree.node a da sza la ra) rj)) = true := by
      rw [Ctx.reprB_plug, Bool.and_eq_true]
      constructor
      · rw [ctxOk_frame (fun k hk => hH1k k
          (fun he => hjnotc2 (he ▸ hk))
          (fun he => hanotc2 (he ▸ hk)))]
        exact hctx2
      · show (((H1 j).parent == Ctx.holePar none c2) &&
          ((H1 j).left == NTree.rootId (NTree.node a da sza la ra)) &&
          ((H1 j).right == NTree.rootId rj) &&
          ((H1 j).size == szj) &&
          ((H1 j).data == dj) &&
          reprB H1 (some j) (NTree.node a da sza la ra) &&
          reprB H1 (some j) rj) = true
        rw [Bool.and_eq_true, Bool.and_eq_true, Bool.and_eq_true,
          Bool.and_eq_true, Bool.and_eq_true, Bool.and_eq_true]
        refine ⟨⟨⟨⟨⟨⟨?_, ?_⟩, ?_⟩, ?_⟩, ?_⟩, hreprAnew⟩, hreprRj1⟩
        · rw [beq_iff_eq, hH1j]
          exact hjpar
        · rw [beq_iff_eq, hH1j]
          rfl
        · rw [beq_iff_eq, hH1j]
          exact hjright
        · rw [beq_iff_eq, hH1j]
          exact hjsize
        · rw [beq_iff_eq, hH1j]
          exact hjdata
    have hndNew : (Ctx.plug c2 (NTree.node j dj szj
        (NTree.node a da sza la ra) rj)).idsOf.Nodup :=
      nodup_remove_center_l hndJ
    set H3 := setSize H1 j (szj - 1) with hH3def
    have hszn2 : szn = 1 + sza := by
      have h0 := hhsz2.1
      omega
    have e2 : update_size H1 j = (H3, true) := by
      have hraw : update_size H1 j =
          (if (1 + get_size H1 (H1 j).left + get_size H1 (H1 j).right) ≠ (H1 j).size
          then (setSize H1 j
              (1 + get_size H1 (H1 j).left + get_size H1 (H1 j).right), true)
          else (H1, false)) := rfl
      rw [hraw]
      have hl2 : get_size H1 (H1 j).left = sza := by
        rw [hH1j]
        show get_size H1 (some a) = sza
        show (H1 a).size = sza
        rw [hH1a]
        show (h a).size = sza
        have hr0 := hreprA
        simp only [reprB, Bool.and_eq_true, beq_iff_eq] at hr0
        exact hr0.1.1.1.2
      have hr2 : get_size H1 (H1 j).right = NTree.szF rj := by
        rw [hH1j]
        show get_size H1 ((h j).right) = NTree.szF rj
        rw [hjright]
        exact get_size_rootId hreprRj1
      have hs2 : (H1 j).size = szj := by
        rw [hH1j]
        exact hjsize
      rw [hl2, hr2, hs2]
      have hval : 1 + sza + NTree.szF rj = szj - 1 := by omega
      rw [hval, if_pos (by omega)]
    have husw : update_sizes_upwards H1 j fuel =
        ((update_sizes_upwards_loop H3 j fuel).1,
         (update_sizes_upwards_loop H3 j fuel).2) := by
      rw [update_sizes_upwards]
      simp only [e2]
    have hrep3 : reprB H3 none
        (Ctx.plug c2 (NTree.node j dj (szj - 1)
          (NTree.node a da sza la ra) rj)) = true :=
      reprB_setSize_hole hrep2 hndNew
    have hnd3 : (Ctx.plug c2 (NTree.node j dj (szj - 1)
        (NTree.node a da sza la ra) rj)).idsOf.Nodup := by
      rw [idsOf_plug_sz c2 j dj (szj - 1) szj (NTree.node a da sza la ra) rj]
      exact hndNew
    have hsub3 : NTree.sizesOK (NTree.node j dj (szj - 1)
        (NTree.node a da sza la ra) rj) = true := by
      show ((szj - 1 == 1 + NTree.szF (NTree.node a da sza la ra) + NTree.szF rj) &&
        NTree.sizesOK (NTree.node a da sza la ra) && NTree.sizesOK rj) = true
      rw [Bool.and_eq_true, Bool.and_eq_true]
      refine ⟨⟨?_, hhsz2.2⟩, hszjJ.2.1⟩
      rw [beq_iff_eq]
      show szj - 1 = 1 + sza + NTree.szF rj
      omega
    have hstale3 : Ctx.ctxSizesOK c2 (szj - 1 + 1) = true := by
      rw [show szj - 1 + 1 = szj from by omega]
      exact hszjJ.2.2
    have hdrop := usw_drop_loop_spec hrep3 hsub3 hstale3 hnd3
      (show Ctx.depth c2 + 1 ≤ fuel from by
        simp only [Ctx.depth] at hf
        omega)
    refine ⟨(update_sizes_upwards H1 j fuel).1, hrun, ?_, ?_⟩
    · rw [show (update_sizes_upwards H1 j fuel).1 =
          (update_sizes_upwards_loop H3 j fuel).1 from by rw [husw]]
      exact hdrop.1
    · intro k hk1 hk2
      have hknotc2 : ¬ k ∈ Ctx.ctxIds c2 := by
        intro hin
        exact hk1 (by simp [Ctx.ctxIds, hin])
      have hkj : k ≠ j := by
        intro he
        exact hk1 (by simp [Ctx.ctxIds, he])
      rw [show (update_sizes_upwards H1 j fuel).1 =
          (update_sizes_upwards_loop H3 j fuel).1 from by rw [husw]]
      rw [hdrop.2 k hknotc2, hH3def, setSize_ne _ _ _ hkj, hH1k k hkj hk2]
  | inR j dj szj lj c2 =>
    have hpar' : (h n).parent = some j := hpar
    have hctxI := hctx0
    simp only [Ctx.ctxOk, Bool.and_eq_true, beq_iff_eq] at hctxI
    have hjpar : (h j).parent = Ctx.holePar none c2 := hctxI.1.1.1.1.1.1
    have hjleft : (h j).left = NTree.rootId lj := hctxI.1.1.1.1.1.2
    have hjright : (h j).right = some n := hctxI.1.1.1.1.2
    have hjsize : (h j).size = szj := hctxI.1.1.1.2
    have hjdata : (h j).data = dj := hctxI.1.1.2
    have hreprLj : reprB h (some j) lj = true := hctxI.1.2
    have hctx2 : Ctx.ctxOk h none c2 (some j) = true := hctxI.2
    have hnotleft : ¬ ((h j).left = some n) := by
      intro hcon
      rw [hjleft] at hcon
      have hmem : n ∈ lj.idsOf := NTree.rootId_mem hcon
      exact hsep.2.2 (by simp [Ctx.ctxIds, hmem])
    have hct : get_child_type h n = ChildType.rightChild := by
      simp only [get_child_type, hpar']
      rw [if_neg hnotleft]
    have hndJ : (Ctx.plug c2 (NTree.node j dj szj lj
        (NTree.node n dn szn (NTree.node a da sza la ra)
          NTree.nil))).idsOf.Nodup := hnd
    have hdisj := hole_ctx_disjoint (c := c2) hndJ
    have hsepJ := ctx_sep (c := c2) (j := j)
      (A := lj)
      (B := NTree.node n dn szn (NTree.node a da sza la ra) NTree.nil) hndJ
    have hjnotc2 : ¬ j ∈ Ctx.ctxIds c2 :=
      hdisj j (by rw [NTree.idsOf_node]; simp)
    have hjnotlj : ¬ j ∈ lj.idsOf := hsepJ.1
    have hndhole := nodup_plug_sub (c := c2) hndJ
    have hszjJ : szj = 1 + NTree.szF lj + szn ∧ NTree.sizesOK lj = true ∧
        Ctx.ctxSizesOK c2 szj = true := by
      simp only [Ctx.ctxSizesOK, Bool.and_eq_true, beq_iff_eq] at hctxsz
      exact ⟨hctxsz.1.1, hctxsz.1.2, hctxsz.2⟩
    have haholeA : a ∈ (NTree.node n dn szn
        (NTree.node a da sza la ra) NTree.nil).idsOf := by
      rw [NTree.idsOf_node]
      simp [hamem]
    have haholeJ : a ∈ (NTree.node j dj szj lj
        (NTree.node n dn szn (NTree.node a da sza la ra)
          NTree.nil)).idsOf := by
      rw [NTree.idsOf_node]
      simp [haholeA]
    have hanotc2 : ¬ a ∈ Ctx.ctxIds c2 := hdisj a haholeJ
    have hndhole2 := hndhole
    rw [NTree.idsOf_node] at hndhole2
    have hDis := (List.nodup_append.mp hndhole2).2.2
    have hcons := (List.nodup_append.mp hndhole2).2.1
    have hja : j ≠ a := by
      have hjn := (List.nodup_cons.mp hcons).1
      intro he
      apply hjn
      rw [he]
      simp [haholeA]
    have hanotlj : ¬ a ∈ lj.idsOf := by
      intro hin
      exact hDis hin (by
        simp only [List.mem_cons]
        right
        exact haholeA)
    set H1 := setParent (setRight h j (some a)) a (some j) with hH1def
    have hH1j : H1 j = { h j with right := some a } := by
      rw [hH1def, setParent_ne _ _ _ hja, setRight_self]
    have hH1a : H1 a = { h a with parent := some j } := by
      rw [hH1def, setParent_self, setRight_ne _ _ _ (fun he => hja he.symm)]
    have hH1k : ∀ k, k ≠ j → k ≠ a → H1 k = h k := by
      intro k hk1 hk2
      rw [hH1def, setParent_ne _ _ _ hk2, setRight_ne _ _ _ hk1]
    have hrun : node_erase h n fuel =
        some ((update_sizes_upwards H1 j fuel).1, some a, some j) := by
      rw [node_erase]
      simp only [hleft', hright', hct, hpar', ← hH1def]
    have hndA : (NTree.node a da sza la ra).idsOf.Nodup := by
      have h0 := (List.nodup_append.mp hndhole2).2.1
      have h1 := (List.nodup_cons.mp h0).2
      rw [NTree.idsOf_node, NTree.idsOf_nil] at h1
      exact (List.nodup_append.mp h1).1
    have hjnotr : ¬ j ∈ (NTree.node a da sza la ra).idsOf := by
      intro hin
      apply hsepJ.2.1
      rw [NTree.idsOf_node]
      simp [hin]
    have hreprA1 : reprB (setRight h j (some a)) (some n)
        (NTree.node a da sza la ra) = true := by
      rw [reprB_frame (fun k hk => setRight_ne h j (some a)
        (fun he => hjnotr (he ▸ hk)))]
      exact hreprA
    have hreprAnew : reprB H1 (some j) (NTree.node a da sza la ra) = true := by
      rw [hH1def]
      exact reprB_reparent hreprA1 hndA
    have hreprLj1 : reprB H1 (some j) lj = true := by
      rw [reprB_frame (fun k hk => hH1k k
        (fun he => hjnotlj (he ▸ hk))
        (fun he => hanotlj (he ▸ hk)))]
      exact hreprLj
    have hrep2 : reprB H1 none
        (Ctx.plug c2 (NTree.node j dj szj lj
          (NTree.node a da sza la ra))) = true := by
      rw [Ctx.reprB_plug, Bool.and_eq_true]
      constructor
      · rw [ctxOk_frame (fun k hk => hH1k k
          (fun he => hjnotc2 (he ▸ hk))
          (fun he => hanotc2 (he ▸ hk)))]
        exact hctx2
      · show (((H1 j).parent == Ctx.holePar none c2) &&
          ((H1 j).left == NTree.rootId lj) &&
          ((H1 j).right == NTree.rootId (NTree.node a da sza la ra)) &&
          ((H1 j).size == szj) &&
          ((H1 j).data == dj) &&
          reprB H1 (some j) lj &&
          reprB H1 (some j) (NTree.node a da sza la ra)) = true
        rw [Bool.and_eq_true, Bool.and_eq_true, Bool.and_eq_true,
          Bool.and_eq_true, Bool.and_eq_true, Bool.and_eq_true]
        refine ⟨⟨⟨⟨⟨⟨?_, ?_⟩, ?_⟩, ?_⟩, ?_⟩, hreprLj1⟩, hreprAnew⟩
        · rw [beq_iff_eq, hH1j]
          exact hjpar
        · rw [beq_iff_eq, hH1j]
          exact hjleft
        · rw [beq_iff_eq, hH1j]
          rfl
        · rw [beq_iff_eq, hH1j]
          exact hjsize
        · rw [beq_iff_eq, hH1j]
          exact hjdata
    have hndNew : (Ctx.plug c2 (NTree.node j dj szj lj
        (NTree.node a da sza la ra))).idsOf.Nodup :=
      nodup_remove_center_rl hndJ
    set H3 := setSize H1 j (szj - 1) with hH3def
    have hszn2 : szn = 1 + sza := by
      have h0 := hhsz2.1
      omega
    have e2 : update_size H1 j = (H3, true) := by
      have hraw : update_size H1 j =
          (if (1 + get_size H1 (H1 j).left + get_size H1 (H1 j).right) ≠ (H1 j).size
          then (setSize H1 j
              (1 + get_size H1 (H1 j).left + get_size H1 (H1 j).right), true)
          else (H1, false)) := rfl
      rw [hraw]
      have hl2 : get_size H1 (H1 j).left = NTree.szF lj := by
        rw [hH1j]
        show get_size H1 ((h j).left) = NTree.szF lj
        rw [hjleft]
        exact get_size_rootId hreprLj1
      have hr2 : get_size H1 (H1 j).right = sza := by
        rw [hH1j]
        show get_size H1 (some a) = sza
        show (H1 a).size = sza
        rw [hH1a]
        show (h a).size = sza
        have hr0 := hreprA
        simp only [reprB, Bool.and_eq_true, beq_iff_eq] at hr0
        exact hr0.1.1.1.2
      have hs2 : (H1 j).size = szj := by
        rw [hH1j]
        exact hjsize
      rw [hl2, hr2, hs2]
      have hval : 1 + NTree.szF lj + sza = szj - 1 := by omega
      rw [hval, if_pos (by omega)]
    have husw : update_sizes_upwards H1 j fuel =
        ((update_sizes_upwards_loop H3 j fuel).1,
         (update_sizes_upwards_loop H3 j fuel).2) := by
      rw [update_sizes_upwards]
      simp only [e2]
    have hrep3 : reprB H3 none
        (Ctx.plug c2 (NTree.node j dj (szj - 1) lj
          (NTree.node a da sza la ra))) = true :=
      reprB_setSize_hole hrep2 hndNew
    have hnd3 : (Ctx.plug c2 (NTree.node j dj (szj - 1) lj
        (NTree.node a da sza la ra))).idsOf.Nodup := by
      rw [idsOf_plug_sz c2 j dj (szj - 1) szj lj (NTree.node a da sza la ra)]
      exact hndNew
    have hsub3 : NTree.sizesOK (NTree.node j dj (szj - 1) lj
        (NTree.node a da sza la ra)) = true := by
      show ((szj - 1 == 1 + NTree.szF lj + NTree.szF (NTree.node a da sza la ra)) &&
        NTree.sizesOK lj && NTree.sizesOK (NTree.node a da sza la ra)) = true
      rw [Bool.and_eq_true, Bool.and_eq_true]
      refine ⟨⟨?_, hszjJ.2.1⟩, hhsz2.2⟩
      rw [beq_iff_eq]
      show szj - 1 = 1 + NTree.szF lj + sza
      omega
    have hstale3 : Ctx.ctxSizesOK c2 (szj - 1 + 1) = true := by
      rw [show szj - 1 + 1 = szj from by omega]
      exact hszjJ.2.2
    have hdrop := usw_drop_loop_spec hrep3 hsub3 hstale3 hnd3
      (show Ctx.depth c2 + 1 ≤ fuel from by
        simp only [Ctx.depth] at hf
        omega)
    refine ⟨(update_sizes_upwards H1 j fuel).1, hrun, ?_, ?_⟩
    · rw [show (update_sizes_upwards H1 j fuel).1 =
          (update_sizes_upwards_loop H3 j fuel).1 from by rw [husw]]
      exact hdrop.1
    · intro k hk1 hk2
      have hknotc2 : ¬ k ∈ Ctx.ctxIds c2 := by
        intro hin
        exact hk1 (by simp [Ctx.ctxIds, hin])
      have hkj : k ≠ j := by
        intro he
        exact hk1 (by simp [Ctx.ctxIds, he])
      rw [show (update_sizes_upwards H1 j fuel).1 =
          (update_sizes_upwards_loop H3 j fuel).1 from by rw [husw]]
      rw [hdrop.2 k hknotc2, hH3def, setSize_ne _ _ _ hkj, hH1k k hkj hk2]

theorem setLeft_parent (h : Heap) (i : Nat) (x : Option Nat) :
    ∀ m, ((setLeft h i x) m).parent = (h m).parent := by
  intro m
  by_cases hm : m = i
  · subst hm
    rw [setLeft_self]
  · rw [setLeft_ne _ _ _ hm]

theorem setLeft_right (h : Heap) (i : Nat) (x : Option Nat) :
    ∀ m, ((setLeft h i x) m).right = (h m).right := by
  intro m
  by_cases hm : m = i
  · subst hm
    rw [setLeft_self]
  · rw [setLeft_ne _ _ _ hm]

theorem setLeft_size (h : Heap) (i : Nat) (x : Option Nat) :
    ∀ m, ((setLeft h i x) m).size = (h m).size := by
  intro m
  by_cases hm : m = i
  · subst hm
    rw [setLeft_self]
  · rw [setLeft_ne _ _ _ hm]

theorem setLeft_data (h : Heap) (i : Nat) (x : Option Nat) :
    ∀ m, ((setLeft h i x) m).data = (h m).data := by
  intro m
  by_cases hm : m = i
  · subst hm
    rw [setLeft_self]
  · rw [setLeft_ne _ _ _ hm]

theorem setRight_parent (h : Heap) (i : Nat) (x : Option Nat) :
    ∀ m, ((setRight h i x) m).parent = (h m).parent := by
  intro m
  by_cases hm : m = i
  · subst hm
    rw [setRight_self]
  · rw [setRight_ne _ _ _ hm]

theorem setRight_left (h : Heap) (i : Nat) (x : Option Nat) :
    ∀ m, ((setRight h i x) m).left = (h m).left := by
  intro m
  by_cases hm : m = i
  · subst hm
    rw [setRight_self]
  · rw [setRight_ne _ _ _ hm]

theorem setRight_size (h : Heap) (i : Nat) (x : Option Nat) :
    ∀ m, ((setRight h i x) m).size = (h m).size := by
  intro m
  by_cases hm : m = i
  · subst hm
    rw [setRight_self]
  · rw [setRight_ne _ _ _ hm]

theorem setRight_data (h : Heap) (i : Nat) (x : Option Nat) :
    ∀ m, ((setRight h i x) m).data = (h m).data := by
  intro m
  by_cases hm : m = i
  · subst hm
    rw [setRight_self]
  · rw [setRight_ne _ _ _ hm]

theorem setParent_left (h : Heap) (i : Nat) (x : Option Nat) :
    ∀ m, ((setParent h i x) m).left = (h m).left := by
  intro m
  by_cases hm : m = i
  · subst hm
    rw [setParent_self]
  · rw [setParent_ne _ _ _ hm]

theorem setParent_right (h : Heap) (i : Nat) (x : Option Nat) :
    ∀ m, ((setParent h i x) m).right = (h m).right := by
  intro m
  by_cases hm : m = i
  · subst hm
    rw [setParent_self]
  · rw [setParent_ne _ _ _ hm]

theorem setParent_size (h : Heap) (i : Nat) (x : Option Nat) :
    ∀ m, ((setParent h i x) m).size = (h m).size := by
  intro m
  by_cases hm : m = i
  · subst hm
    rw [setParent_self]
  · rw [setParent_ne _ _ _ hm]

theorem setParent_data (h : Heap) (i : Nat) (x : Option Nat) :
    ∀ m, ((setParent h i x) m).data = (h m).data := by
  intro m
  by_cases hm : m = i
  · subst hm
    rw [setParent_self]
  · rw [setParent_ne _ _ _ hm]

theorem setSize_left (h : Heap) (i : Nat) (x : Nat) :
    ∀ m, ((setSize h i x) m).left = (h m).left := by
  intro m
  by_cases hm : m = i
  · subst hm
    rw [setSize_self]
  · rw [setSize_ne _ _ _ hm]

theorem setSize_right (h : Heap) (i : Nat) (x : Nat) :
    ∀ m, ((setSize h i x) m).right = (h m).right := by
  intro m
  by_cases hm : m = i
  · subst hm
    rw [setSize_self]
  · rw [setSize_ne _ _ _ hm]

theorem setSize_data (h : Heap) (i : Nat) (x : Nat) :
    ∀ m, ((setSize h i x) m).data = (h m).data := by
  intro m
  by_cases hm : m = i
  · subst hm
    rw [setSize_self]
  · rw [setSize_ne _ _ _ hm]

theorem rootId_plug_mem_ctxIds : ∀ (c : Ctx) (j dj szj : Nat) (A B : NTree)
    {q : Nat}, (Ctx.plug c (NTree.node j dj szj A B)).rootId = some q →
    q = j ∨ q ∈ Ctx.ctxIds c := by
  intro c
  induction c with
  | top =>
    intro j dj szj A B q hq
    simp only [Ctx.plug, NTree.rootId, Option.some.injEq] at hq
    exact Or.inl hq.symm
  | inL i d sz c2 r ih =>
    intro j dj szj A B q hq
    have hq2 : (Ctx.plug c2 (NTree.node i d sz
        (NTree.node j dj szj A B) r)).rootId = some q := hq
    rcases ih i d sz (NTree.node j dj szj A B) r hq2 with hh | hh
    · right
      simp [Ctx.ctxIds, hh]
    · right
      simp [Ctx.ctxIds, hh]
  | inR i d sz l c2 ih =>
    intro j dj szj A B q hq
    have hq2 : (Ctx.plug c2 (NTree.node i d sz l
        (NTree.node j dj szj A B))).rootId = some q := hq
    rcases ih i d sz l (NTree.node j dj szj A B) hq2 with hh | hh
    · right
      simp [Ctx.ctxIds, hh]
    · right
      simp [Ctx.ctxIds, hh]

theorem ctxIds_sub_plug {c : Ctx} {s : NTree} {k : Nat}
    (hk : k ∈ Ctx.ctxIds c) : k ∈ (Ctx.plug c s).idsOf := by
  rw [Ctx.idsOf_plug]
  rcases (Ctx.mem_ctxIds c).mp hk with hh | hh
  · simp [hh]
  · simp [hh]

theorem nodup_replace_center {A B C : List Nat} {b n : Nat}
    (hnd : (A ++ (b :: B) ++ C).Nodup) (hn : ¬ n ∈ A ++ (b :: B) ++ C) :
    (A ++ (n :: B) ++ C).Nodup := by
  have hP1 : (A ++ (b :: B) ++ C).Perm (b :: (A ++ (B ++ C))) := by
    rw [List.append_assoc, List.cons_append]
    exact List.perm_middle
  have hnd1 : (b :: (A ++ (B ++ C))).Nodup := hP1.nodup hnd
  have hrest : (A ++ (B ++ C)).Nodup := (List.nodup_cons.mp hnd1).2
  have hn1 : ¬ n ∈ A ++ (B ++ C) := by
    intro hin
    apply hn
    apply (hP1.mem_iff).mpr
    simp [hin]
  have hP2 : (A ++ (n :: B) ++ C).Perm (n :: (A ++ (B ++ C))) := by
    rw [List.append_assoc, List.cons_append]
    exact List.perm_middle
  exact hP2.symm.nodup (List.nodup_cons.mpr ⟨hn1, hrest⟩)

theorem ctxOk_inL_retarget {h W : Heap} {pj dpj szpj : Nat} {c2 : Ctx}
    {rj : NTree} {par0 x x2 : Option Nat}
    (hc : Ctx.ctxOk h par0 (Ctx.inL pj dpj szpj c2 rj) x = true)
    (hpj : W pj = { h pj with left := x2 })
    (hfr : ∀ k, k ∈ Ctx.ctxIds c2 → W k = h k)
    (hfr2 : ∀ k, k ∈ rj.idsOf → W k = h k) :
    Ctx.ctxOk W par0 (Ctx.inL pj dpj szpj c2 rj) x2 = true := by
  have hcc := hc
  simp only [Ctx.ctxOk, Bool.and_eq_true, beq_iff_eq] at hcc
  show (((W pj).parent == Ctx.holePar par0 c2) && ((W pj).left == x2) &&
    ((W pj).right == NTree.rootId rj) && ((W pj).size == szpj) &&
    ((W pj).data == dpj) && reprB W (some pj) rj &&
    Ctx.ctxOk W par0 c2 (some pj)) = true
  rw [Bool.and_eq_true, Bool.and_eq_true, Bool.and_eq_true,
    Bool.and_eq_true, Bool.and_eq_true, Bool.and_eq_true]
  refine ⟨⟨⟨⟨⟨⟨?_, ?_⟩, ?_⟩, ?_⟩, ?_⟩, ?_⟩, ?_⟩
  · rw [beq_iff_eq, hpj]
    exact hcc.1.1.1.1.1.1
  · rw [beq_iff_eq, hpj]
  · rw [beq_iff_eq, hpj]
    exact hcc.1.1.1.1.2
  · rw [beq_iff_eq, hpj]
    exact hcc.1.1.1.2
  · rw [beq_iff_eq, hpj]
    exact hcc.1.1.2
  · rw [reprB_frame (fun k hk => hfr2 k hk)]
    exact hcc.1.2
  · rw [ctxOk_frame (fun k hk => hfr k hk)]
    exact hcc.2

theorem ctxOk_inR_retarget {h W : Heap} {pj dpj szpj : Nat} {c2 : Ctx}
    {lj : NTree} {par0 x x2 : Option Nat}
    (hc : Ctx.ctxOk h par0 (Ctx.inR pj dpj szpj lj c2) x = true)
    (hpj : W pj = { h pj with right := x2 })
    (hfr : ∀ k, k ∈ Ctx.ctxIds c2 → W k = h k)
    (hfr2 : ∀ k, k ∈ lj.idsOf → W k = h k) :
    Ctx.ctxOk W par0 (Ctx.inR pj dpj szpj lj c2) x2 = true := by
  have hcc := hc
  simp only [Ctx.ctxOk, Bool.and_eq_true, beq_iff_eq] at hcc
  show (((W pj).parent == Ctx.holePar par0 c2) &&
    ((W pj).left == NTree.rootId lj) && ((W pj).right == x2) &&
    ((W pj).size == szpj) && ((W pj).data == dpj) &&
    reprB W (some pj) lj && Ctx.ctxOk W par0 c2 (some pj)) = true
  rw [Bool.and_eq_true, Bool.and_eq_true, Bool.and_eq_true,
    Bool.and_eq_true, Bool.and_eq_true, Bool.and_eq_true]
  refine ⟨⟨⟨⟨⟨⟨?_, ?_⟩, ?_⟩, ?_⟩, ?_⟩, ?_⟩, ?_⟩
  · rw [beq_iff_eq, hpj]
    exact hcc.1.1.1.1.1.1
  · rw [beq_iff_eq, hpj]
    exact hcc.1.1.1.1.1.2
  · rw [beq_iff_eq, hpj]
  · rw [beq_iff_eq, hpj]
    exact hcc.1.1.1.2
  · rw [beq_iff_eq, hpj]
    exact hcc.1.1.2
  · rw [reprB_frame (fun k hk => hfr2 k hk)]
    exact hcc.1.2
  · rw [ctxOk_frame (fun k hk => hfr k hk)]
    exact hcc.2

theorem swap_assemble {W : Heap} {c : Ctx} {n dn szn lc dlc szlc : Nat}
    {llc rlc : NTree} {c2 : Ctx} {b db szb : Nat} {rb : NTree} {y0 : Nat}
    (hctxNew : Ctx.ctxOk W none c (some b) = true)
    (hctx2New : Ctx.ctxOk W (some n) c2 (some n) = true)
    (hrootQ : (Ctx.plug c2 (NTree.node n dn szb NTree.nil rb)).rootId = some y0)
    (hndQ : (Ctx.plug c2 (NTree.node n dn szb NTree.nil rb)).idsOf.Nodup)
    (hreprL : reprB W (some b) (NTree.node lc dlc szlc llc rlc) = true)
    (hreprRb : reprB W (some n) rb = true)
    (hnf1 : (W n).parent = Ctx.holePar (some n) c2)
    (hnf2 : (W n).left = none)
    (hnf3 : (W n).right = NTree.rootId rb)
    (hnf4 : (W n).size = szb)
    (hnf5 : (W n).data = dn)
    (hbf1 : (W b).parent = Ctx.holePar none c)
    (hbf2 : (W b).left = some lc)
    (hbf3 : (W b).right = some y0)
    (hbf4 : (W b).size = szn)
    (hbf5 : (W b).data = db)
    (hby0 : b ≠ y0)
    (hyL : ¬ y0 ∈ (NTree.node lc dlc szlc llc rlc).idsOf)
    (hyC : ¬ y0 ∈ Ctx.ctxIds c) :
    reprB (setParent W y0 (some b)) none (Ctx.plug c (NTree.node b db szn
      (NTree.node lc dlc szlc llc rlc)
      (Ctx.plug c2 (NTree.node n dn szb NTree.nil rb)))) = true := by
  have hQ13 : reprB W (some n)
      (Ctx.plug c2 (NTree.node n dn szb NTree.nil rb)) = true := by
    rw [Ctx.reprB_plug, Bool.and_eq_true]
    constructor
    · exact hctx2New
    · show (((W n).parent == Ctx.holePar (some n) c2) &&
        ((W n).left == NTree.rootId NTree.nil) &&
        ((W n).right == NTree.rootId rb) &&
        ((W n).size == szb) && ((W n).data == dn) &&
        reprB W (some n) NTree.nil && reprB W (some n) rb) = true
      rw [Bool.and_eq_true, Bool.and_eq_true, Bool.and_eq_true,
        Bool.and_eq_true, Bool.and_eq_true, Bool.and_eq_true]
      refine ⟨⟨⟨⟨⟨⟨?_, ?_⟩, ?_⟩, ?_⟩, ?_⟩, rfl⟩, hreprRb⟩
      · rw [beq_iff_eq]
        exact hnf1
      · rw [beq_iff_eq]
        exact hnf2
      · rw [beq_iff_eq]
        exact hnf3
      · rw [beq_iff_eq]
        exact hnf4
      · rw [beq_iff_eq]
        exact hnf5
  have hQ14 : reprB (setParent W y0 (some b)) (some b)
      (Ctx.plug c2 (NTree.node n dn szb NTree.nil rb)) = true :=
    reprB_reparent_rootId hQ13 hndQ hrootQ
  have hL14 : reprB (setParent W y0 (some b)) (some b)
      (NTree.node lc dlc szlc llc rlc) = true := by
    rw [reprB_frame (fun k hk => setParent_ne W y0 (some b)
      (fun he => hyL (he ▸ hk)))]
    exact hreprL
  have hb14 : (setParent W y0 (some b)) b = W b :=
    setParent_ne _ _ _ hby0
  rw [Ctx.reprB_plug, Bool.and_eq_true]
  constructor
  · rw [ctxOk_frame (fun k hk => setParent_ne W y0 (some b)
      (fun he => hyC (he ▸ hk)))]
    exact hctxNew
  · show ((((setParent W y0 (some b)) b).parent == Ctx.holePar none c) &&
      (((setParent W y0 (some b)) b).left ==
        NTree.rootId (NTree.node lc dlc szlc llc rlc)) &&
      (((setParent W y0 (some b)) b).right ==
        NTree.rootId (Ctx.plug c2 (NTree.node n dn szb NTree.nil rb))) &&
      (((setParent W y0 (some b)) b).size == szn) &&
      (((setParent W y0 (some b)) b).data == db) &&
      reprB (setParent W y0 (some b)) (some b)
        (NTree.node lc dlc szlc llc rlc) &&
      reprB (setParent W y0 (some b)) (some b)
        (Ctx.plug c2 (NTree.node n dn szb NTree.nil rb))) = true
    rw [Bool.and_eq_true, Bool.and_eq_true, Bool.and_eq_true,
      Bool.and_eq_true, Bool.and_eq_true, Bool.and_eq_true]
    refine ⟨⟨⟨⟨⟨⟨?_, ?_⟩, ?_⟩, ?_⟩, ?_⟩, hL14⟩, hQ14⟩
    · rw [beq_iff_eq, hb14]
      exact hbf1
    · rw [beq_iff_eq, hb14]
      exact hbf2
    · rw [beq_iff_eq, hb14, hrootQ]
      exact hbf3
    · rw [beq_iff_eq, hb14]
      exact hbf4
    · rw [beq_iff_eq, hb14]
      exact hbf5
end OBT
